import Mathlib

/-!
# The option parser of dunst (`src/option_parser.c`)

A shallow embedding of the ini-file store, the line parser, the typed
accessors and the command-line overlay, followed by the properties proved
about them.

Conventions of the embedding:

* a C string is the list of its characters before the terminating NUL
  (`CStr`); a null pointer is `none`;
* the global `sections` array is a `Store` passed explicitly; `section_count`
  is its length and `entry_count` the length of a section's `entries`;
* `DIE(...)` ends the process: a routine that can reach it returns an
  `Option`, and `none` stands for the fatal exit;
* `int` results are integers; `true` and `false` stored in an `int` are `1`
  and `0`;
* the argument vector captured by `cmdline_load` is a list of strings and
  `cmdline_argc` is its length.
-/

set_option autoImplicit false

namespace OptionParser

/-- A C string, without its terminating NUL. -/
abbrev CStr := List Char

/-! ## Library routines (libc, glib) -/

/-- The double quote character. -/
abbrev dquote : Char := Char.ofNat 34

/-- What the string functions see of a buffer: the characters before the
first NUL byte. -/
def c_str (buf : List Char) : CStr :=
  buf.takeWhile (fun c => c != Char.ofNat 0)

/-- The glib predicate `g_ascii_isspace`: space, tab, newline, form feed and
carriage return (the vertical tab is not in it). -/
def g_ascii_isspace (c : Char) : Bool :=
  c == ' ' || c == '\t' || c == '\n' || c == Char.ofNat 12 || c == '\r'

/-- The libc predicate `isspace` in the C locale. -/
def isspace (c : Char) : Bool :=
  c == ' ' || c == '\t' || c == '\n' || c == Char.ofNat 11 || c == Char.ofNat 12 || c == '\r'

/-- The libc predicate `isdigit`. -/
def isdigit (c : Char) : Bool :=
  decide ('0'.toNat ≤ c.toNat) && decide (c.toNat ≤ '9'.toNat)

/-- The glib routine `g_strchug`: removes leading whitespace. -/
def g_strchug (s : CStr) : CStr :=
  s.dropWhile g_ascii_isspace

/-- The glib routine `g_strchomp`: removes trailing whitespace. -/
def g_strchomp (s : CStr) : CStr :=
  (s.reverse.dropWhile g_ascii_isspace).reverse

/-- The glib routine `g_strstrip`, that is `g_strchomp (g_strchug s)`. -/
def g_strstrip (s : CStr) : CStr :=
  g_strchomp (g_strchug s)

/-- The libc routine `strchr` for a character other than NUL: `none` when
`c` does not occur, otherwise the text before the first occurrence (what is
left of `s` once a NUL is written at the returned pointer) and the text
from that occurrence on (the returned pointer). -/
def strchr (s : CStr) (c : Char) : Option (CStr × CStr) :=
  if c ∈ s then some (s.takeWhile (fun x => x != c), s.dropWhile (fun x => x != c))
  else none

/-- The libc routine `strpbrk`, with the result given as for `strchr`. -/
def strpbrk (s : CStr) (accept : CStr) : Option (CStr × CStr) :=
  if s.any (fun x => decide (x ∈ accept)) then
    some (s.takeWhile (fun x => !decide (x ∈ accept)),
      s.dropWhile (fun x => !decide (x ∈ accept)))
  else none

/-- The value of the decimal digits at the head of `s`, continuing `acc`. -/
def digits_value : CStr → Nat → Nat
  | [], acc => acc
  | c :: cs, acc =>
    if isdigit c then digits_value cs (acc * 10 + (c.toNat - '0'.toNat)) else acc

/-- Conversion of an integer to the 32-bit `int` by two's complement
truncation. -/
def to_int (z : Int) : Int :=
  (z + 2147483648) % 4294967296 - 2147483648

/-- The libc routine `atoi`: leading `isspace` characters are skipped, then
an optional sign and the decimal digits are read. The C standard leaves the
result undefined when the number does not fit an `int`; the embedding
truncates it (`to_int`), and the properties below that depend on the value
assume it fits. -/
def atoi (s : CStr) : Int :=
  let t := s.dropWhile isspace
  if t.head? = some '-' then to_int (-(digits_value t.tail 0 : Int))
  else if t.head? = some '+' then to_int (digits_value t.tail 0 : Int)
  else to_int (digits_value t 0 : Int)

/-- The successive lines `getline` delivers from a stream, `cur` being the
part of the current line already read: each line ends with its newline,
except a last line that the stream leaves unterminated; at the end of the
stream with nothing read `getline` reports -1 and the list ends. -/
def read_lines_from : List Char → List Char → List (List Char)
  | [], [] => []
  | [], cur => [cur]
  | c :: cs, cur =>
    if c = '\n' then (cur ++ [c]) :: read_lines_from cs []
    else read_lines_from cs (cur ++ [c])

/-- All lines of a stream, in order. -/
def read_lines (fp : List Char) : List (List Char) :=
  read_lines_from fp []

/-! ## Helpers of the repository declared outside `option_parser.c` -/

/-- Modelled from the spec: the comparison macro `STR_EQ` of `utils.h`
(absent from the sources at hand), an exact match of two strings. -/
def STR_EQ (a b : CStr) : Bool :=
  decide (a = b)

/-- Modelled from the spec: the macro `STR_FULL` of `utils.h` (absent from
the sources at hand), true of a non-null, non-empty string. -/
def STR_FULL (s : Option CStr) : Bool :=
  match s with
  | none => false
  | some [] => false
  | some (_ :: _) => true

/-- Modelled from the spec: the macro `STR_EMPTY` of `utils.h` (absent from
the sources at hand), the negation of `STR_FULL`. -/
def STR_EMPTY (s : Option CStr) : Bool :=
  !STR_FULL s

/-- Modelled from the spec: `string_strip_quotes` of `utils.c` (absent from
the sources at hand). The spec has a single layer of surrounding quote
characters stripped if present, the value being otherwise copied: a value
that begins and ends with a double quote loses both. -/
def string_strip_quotes (value : CStr) : CStr :=
  if value.head? = some dquote ∧ value.getLast? = some dquote then
    (value.drop 1).dropLast
  else value

/-! ## The text store -/

/-- The C type `struct entry`. -/
structure entry where
  key : CStr
  value : CStr
  deriving DecidableEq, Repr

/-- The C type `struct section`; `entry_count` is `entries.length`. -/
structure Section where
  name : CStr
  entries : List entry
  deriving DecidableEq, Repr

/-- The global array `sections`; `section_count` is its length. -/
abbrev Store := List Section

/-- `new_section`: dies when a section of that name exists, otherwise
appends an empty section (the returned pointer is the last element). -/
def new_section (sections : Store) (name : CStr) : Option Store :=
  if sections.any (fun s => STR_EQ name s.name) then none
  else some (sections ++ [{ name := name, entries := [] }])

/-- `free_ini`: releases everything and resets `section_count`. -/
def free_ini (_sections : Store) : Store := []

/-- `get_section`: the index of the first section with that name (the
returned pointer is `&sections[i]`), `none` for NULL. -/
def get_section : Store → CStr → Option Nat
  | [], _ => none
  | s :: rest, name =>
    if STR_EQ s.name name then some 0 else (get_section rest name).map (fun i => i + 1)

/-- The tail of `add_entry`: the entry is written after the last entry of
the section at index `i`. -/
def push_entry : Store → Nat → entry → Store
  | [], _, _ => []
  | s :: rest, 0, e => { s with entries := s.entries ++ [e] } :: rest
  | s :: rest, i + 1, e => s :: push_entry rest i e

/-- `add_entry`. -/
def add_entry (sections : Store) (section_name key value : CStr) : Option Store :=
  match get_section sections section_name with
  | some i => some (push_entry sections i ⟨key, string_strip_quotes value⟩)
  | none =>
    match new_section sections section_name with
    | none => none
    | some sections1 =>
      some (push_entry sections1 (sections1.length - 1) ⟨key, string_strip_quotes value⟩)

/-- `get_value`: the value of the first entry with that key in the first
section with that name, `none` for NULL. -/
def get_value (sections : Store) (sect key : CStr) : Option CStr :=
  match get_section sections sect with
  | none => none
  | some i =>
    match sections[i]? with
    | none => none
    | some s => (s.entries.find? (fun e => STR_EQ e.key key)).map (fun e => e.value)

/-! ## The accessors -/

/-- `ini_get_string`; `g_strdup` copies, so the result has the same text. -/
def ini_get_string (sections : Store) (sect key : CStr) (def_ : Option CStr) : Option CStr :=
  match get_value sections sect key with
  | some value => some value
  | none => def_

/-- `ini_get_path`, over the absent `string_to_path` of `utils.c`. -/
def ini_get_path (string_to_path : Option CStr → Option CStr)
    (sections : Store) (sect key : CStr) (def_ : Option CStr) : Option CStr :=
  string_to_path (ini_get_string sections sect key def_)

/-- `ini_get_time`, over the absent `string_to_time` of `utils.c`. -/
def ini_get_time (string_to_time : CStr → Int)
    (sections : Store) (sect key : CStr) (def_ : Int) : Int :=
  match get_value sections sect key with
  | some timestring => string_to_time timestring
  | none => def_

/-- `ini_get_list`, over the absent `string_to_array` of `utils.c`. -/
def ini_get_list {L : Type} (string_to_array : Option CStr → L)
    (sections : Store) (sect key : CStr) (def_ : Option CStr) : L :=
  match get_value sections sect key with
  | some value => string_to_array (some value)
  | none => string_to_array def_

/-- `ini_get_int`. -/
def ini_get_int (sections : Store) (sect key : CStr) (def_ : Int) : Int :=
  match get_value sections sect key with
  | some value => atoi value
  | none => def_

/-- `ini_get_double`, over a type `F` of doubles and the libc `atof`. -/
def ini_get_double {F : Type} (atof : CStr → F)
    (sections : Store) (sect key : CStr) (def_ : F) : F :=
  match get_value sections sect key with
  | some value => atof value
  | none => def_

/-- `ini_is_set`. -/
def ini_is_set (sections : Store) (ini_section ini_key : CStr) : Bool :=
  (get_value sections ini_section ini_key).isSome

/-- The loop of `next_section`. -/
def next_section_loop : Store → CStr → Option CStr
  | [], _ => none
  | s :: rest, sect =>
    if STR_EQ sect s.name then
      match rest with
      | [] => none
      | t :: _ => some t.name
    else next_section_loop rest sect

/-- `next_section`. -/
def next_section (sections : Store) (sect : Option CStr) : Option CStr :=
  match sections with
  | [] => none
  | s0 :: _ =>
    match sect with
    | none => some s0.name
    | some name => next_section_loop sections name

/-- `str_to_bool`: `1`, `0`, or `-1` when the first character decides
nothing (the first character of an empty string is its NUL). -/
def str_to_bool (value : Option CStr) : Int :=
  match value with
  | none => -1
  | some [] => -1
  | some (c :: _) =>
    if c = 'y' ∨ c = 'Y' ∨ c = 't' ∨ c = 'T' ∨ c = '1' then 1
    else if c = 'n' ∨ c = 'N' ∨ c = 'f' ∨ c = 'F' ∨ c = '0' then 0
    else -1

/-- `ini_get_bool`. -/
def ini_get_bool (sections : Store) (sect key : CStr) (def_ : Int) : Int :=
  let val_int := str_to_bool (get_value sections sect key)
  if val_int < 0 then def_ else val_int

/-! ## The line parser -/

/-- The state the loop of `load_ini_file` carries from line to line. -/
structure ini_state where
  sections : Store
  current_section : Option CStr
  deriving DecidableEq, Repr

/-- The value of a key/value line after the quote scan and the comment cut
(`quote`, `value_end`, `comment` in the source); `none` when a quote opens
and never closes. -/
def cut_comment (value : CStr) : Option CStr :=
  match strchr value dquote with
  | some (before, quote) =>
    match strchr (quote.drop 1) dquote with
    | none => none
    | some (inner, value_end) =>
      match strpbrk value_end ['#', ';'] with
      | some (kept, _) => some (before ++ dquote :: inner ++ kept)
      | none => some value
  | none =>
    match strpbrk value ['#', ';'] with
    | some (kept, _) => some kept
    | none => some value

/-- The body of the loop of `load_ini_file` for one line read by `getline`;
each `continue` of the source returns the state it was given. -/
def load_ini_line (st : ini_state) (line : List Char) : Option ini_state :=
  match g_strstrip (c_str line) with
  | [] => some st
  | c :: rest =>
    if c = ';' ∨ c = '#' then some st
    else if c = '[' then
      match strchr rest ']' with
      | none => some st
      | some (name, _) =>
        match new_section st.sections name with
        | none => none
        | some sections1 => some { sections := sections1, current_section := some name }
    else
      match strchr rest '=' with
      | none => some st
      | some (before, equal) =>
        let key := g_strstrip (c :: before)
        let value := g_strstrip (equal.drop 1)
        match cut_comment value with
        | none => some st
        | some value1 =>
          let value2 := g_strstrip value1
          match st.current_section with
          | none => some st
          | some current =>
            match add_entry st.sections current key value2 with
            | none => none
            | some sections1 => some { st with sections := sections1 }

/-- The loop of `load_ini_file` over the lines of the stream. -/
def load_ini_lines : ini_state → List (List Char) → Option ini_state
  | st, [] => some st
  | st, line :: rest =>
    match load_ini_line st line with
    | none => none
    | some st1 => load_ini_lines st1 rest

/-- `load_ini_file`: a null stream returns 1 at once; otherwise the lines
are parsed into the store and 0 is returned, unless the process dies on
the way (`none`). The result is the returned `int` and the store. -/
def load_ini_file (fp : Option (List Char)) (sections : Store) : Option (Int × Store) :=
  match fp with
  | none => some (1, sections)
  | some text =>
    match load_ini_lines { sections := sections, current_section := none } (read_lines text) with
    | none => none
    | some st => some (0, st.sections)

/-! ## The command-line overlay -/

/-- The scan of the argument vector for one spelling, shared by the two
loops of `cmdline_find_option`: the first index whose argument equals
`key`. -/
def find_argument : List CStr → CStr → Option Nat
  | [], _ => none
  | a :: rest, key =>
    if STR_EQ key a then some 0 else (find_argument rest key).map (fun i => i + 1)

/-- `cmdline_find_option`: the key is cut at its first slash into `key1`
and `key2`; the vector is scanned for `key1`, then for `key2`. -/
def cmdline_find_option (argv : List CStr) (key : Option CStr) : Int :=
  match key with
  | none => -1
  | some k =>
    match strchr k '/' with
    | some (key1, slash) =>
      match find_argument argv key1 with
      | some i => (i : Int)
      | none =>
        match find_argument argv (slash.drop 1) with
        | some i => (i : Int)
        | none => -1
    | none =>
      match find_argument argv k with
      | some i => (i : Int)
      | none => -1

/-- `cmdline_get_value`. -/
def cmdline_get_value (argv : List CStr) (key : CStr) : Option CStr :=
  let idx := cmdline_find_option argv (some key)
  if idx < 0 then none
  else if idx + 1 ≥ (argv.length : Int) then none
  else argv[(idx + 1).toNat]?

/-- The conversion `%-40s` of `printf`: left-justified in 40 columns. -/
def pad40 (s : CStr) : CStr :=
  s ++ List.replicate (40 - s.length) ' '

/-- `cmdline_usage_append`, on the global `usage_str`. -/
def cmdline_usage_append (usage_str : Option CStr) (key type description : CStr) : Option CStr :=
  let key_type :=
    if STR_FULL (some type) then key ++ " (".toList ++ type ++ ")".toList else key
  match usage_str with
  | none => some (pad40 key_type ++ " - ".toList ++ description ++ ['\n'])
  | some usage => some (usage ++ pad40 key_type ++ " - ".toList ++ description ++ ['\n'])

/-- `cmdline_create_usage`. -/
def cmdline_create_usage (usage_str : Option CStr) : Option CStr :=
  usage_str

/-- `cmdline_get_string`: the result and the new `usage_str`. -/
def cmdline_get_string (argv : List CStr) (usage_str : Option CStr)
    (key : CStr) (def_ : Option CStr) (description : CStr) : Option CStr × Option CStr :=
  let usage1 := cmdline_usage_append usage_str key "string".toList description
  match cmdline_get_value argv key with
  | some str => (some str, usage1)
  | none => (def_, usage1)

/-- `cmdline_get_path`, over the absent `string_to_path` of `utils.c`. -/
def cmdline_get_path (string_to_path : Option CStr → Option CStr)
    (argv : List CStr) (usage_str : Option CStr)
    (key : CStr) (def_ : Option CStr) (description : CStr) : Option CStr × Option CStr :=
  let usage1 := cmdline_usage_append usage_str key "string".toList description
  match cmdline_get_value argv key with
  | some str => (string_to_path (some str), usage1)
  | none => (string_to_path def_, usage1)

/-- `cmdline_get_list`, over the absent `string_to_array` of `utils.c`. -/
def cmdline_get_list {L : Type} (string_to_array : Option CStr → L)
    (argv : List CStr) (usage_str : Option CStr)
    (key : CStr) (def_ : Option CStr) (description : CStr) : L × Option CStr :=
  let usage1 := cmdline_usage_append usage_str key "list".toList description
  match cmdline_get_value argv key with
  | some str => (string_to_array (some str), usage1)
  | none => (string_to_array def_, usage1)

/-- `cmdline_get_time`, over the absent `string_to_time` of `utils.c`. -/
def cmdline_get_time (string_to_time : CStr → Int)
    (argv : List CStr) (usage_str : Option CStr)
    (key : CStr) (def_ : Int) (description : CStr) : Int × Option CStr :=
  let usage1 := cmdline_usage_append usage_str key "time".toList description
  match cmdline_get_value argv key with
  | some timestring => (string_to_time timestring, usage1)
  | none => (def_, usage1)

/-- `cmdline_get_int`. -/
def cmdline_get_int (argv : List CStr) (usage_str : Option CStr)
    (key : CStr) (def_ : Int) (description : CStr) : Int × Option CStr :=
  let usage1 := cmdline_usage_append usage_str key "int".toList description
  match cmdline_get_value argv key with
  | some str => (atoi str, usage1)
  | none => (def_, usage1)

/-- `cmdline_get_double`, over a type `F` of doubles and the libc `atof`. -/
def cmdline_get_double {F : Type} (atof : CStr → F)
    (argv : List CStr) (usage_str : Option CStr)
    (key : CStr) (def_ : F) (description : CStr) : F × Option CStr :=
  let usage1 := cmdline_usage_append usage_str key "double".toList description
  match cmdline_get_value argv key with
  | some str => (atof str, usage1)
  | none => (def_, usage1)

/-- `cmdline_get_bool`. -/
def cmdline_get_bool (argv : List CStr) (usage_str : Option CStr)
    (key : CStr) (def_ : Int) (description : CStr) : Int × Option CStr :=
  let usage1 := cmdline_usage_append usage_str key [] description
  let idx := cmdline_find_option argv (some key)
  if idx > 0 then (1, usage1) else (def_, usage1)

/-- `cmdline_is_set`. -/
def cmdline_is_set (argv : List CStr) (key : CStr) : Bool :=
  (cmdline_get_value argv key).isSome

/-! ## Definitions that follow the words of the specification -/

/-- The lookup as the specification words it: the first section with the
name, then in it the first entry with the key, in insertion order. -/
def lookup_first (sections : Store) (sect key : CStr) : Option CStr :=
  (sections.find? (fun s => decide (s.name = sect))).bind
    (fun s => (s.entries.find? (fun e => decide (e.key = key))).map (fun e => e.value))

/-- The number a text of decimal digits denotes. -/
def decimal_value (ds : CStr) : Nat :=
  ds.foldl (fun n c => 10 * n + (c.toNat - '0'.toNat)) 0

/-- The integer denoted by an optional sign followed by decimal digits at
the head of a text; 0 when no digit stands there. -/
def leading_int (v : CStr) : Int :=
  if v.head? = some '-' then -((decimal_value (v.tail.takeWhile isdigit) : Nat) : Int)
  else if v.head? = some '+' then ((decimal_value (v.tail.takeWhile isdigit) : Nat) : Int)
  else ((decimal_value (v.takeWhile isdigit) : Nat) : Int)

/-- The traversal a caller makes with `next_section`, starting from `cur`:
the names visited until NULL comes back; `none` when the fuel runs out
before that. -/
def visit_sections (sections : Store) : Nat → Option CStr → Option (List CStr)
  | 0, _ => none
  | fuel + 1, cur =>
    match next_section sections cur with
    | none => some []
    | some name => (visit_sections sections fuel (some name)).map (fun l => name :: l)


/-- The characters the claims about a key and a bare value allow: no
whitespace, none of `=`, the double quote, `#`, `;`, `[`, and no NUL
(which no C string holds). -/
def plain_char (c : Char) : Bool :=
  !isspace c && !(c == '=') && !(c == dquote) && !(c == '#') && !(c == ';')
    && !(c == '[') && !(c == Char.ofNat 0)

/-- The entries stored under a section name, in storage order; empty when
no section has the name. -/
def entries_of (sections : Store) (sect : CStr) : List entry :=
  match sections.find? (fun s => decide (s.name = sect)) with
  | some s => s.entries
  | none => []

/-- The store after an entry is put under a section name, as the
specification words it: appended to the section's entries when the section
exists, otherwise a new last section holding just that entry. -/
def insert_entry : Store → CStr → entry → Store
  | [], name, e => [{ name := name, entries := [e] }]
  | s :: rest, name, e =>
    if s.name = name then { s with entries := s.entries ++ [e] } :: rest
    else s :: insert_entry rest name e

/-- The name a header line declares: the stripped line begins with `[` and
holds a `]` after it, and the name is the text between the `[` and the
first `]`; `none` for every other line. -/
def header_name (line : List Char) : Option CStr :=
  match g_strstrip (c_str line) with
  | [] => none
  | c :: rest =>
    if c = '[' ∧ ']' ∈ rest then some (rest.takeWhile (fun x => x != ']')) else none

/-- Every character of `w` is whitespace for glib. -/
def all_space (w : CStr) : Prop :=
  ∀ c ∈ w, g_ascii_isspace c = true

/-- Neither the first nor the last character of `s` is whitespace for
glib; the empty string is trimmed. -/
def Trimmed (s : CStr) : Prop :=
  (∀ c ∈ s.head?, g_ascii_isspace c = false) ∧
  (∀ c ∈ s.getLast?, g_ascii_isspace c = false)

instance Trimmed.decidable (s : CStr) : Decidable (Trimmed s) :=
  inferInstanceAs (Decidable
    ((∀ c ∈ s.head?, g_ascii_isspace c = false) ∧
      (∀ c ∈ s.getLast?, g_ascii_isspace c = false)))

/-- The texts the parser reads back unchanged as the key of a key/value
line: not empty, no whitespace at either end, a first character that
opens neither a comment nor a header, no `=` after the first character,
and no NUL. -/
def valid_key (k : CStr) : Prop :=
  k ≠ [] ∧ Trimmed k ∧ (∀ c ∈ k.head?, c ≠ ';' ∧ c ≠ '#' ∧ c ≠ '[') ∧
    '=' ∉ k.tail ∧ Char.ofNat 0 ∉ k

instance valid_key.decidable (k : CStr) : Decidable (valid_key k) :=
  inferInstanceAs (Decidable
    (k ≠ [] ∧ Trimmed k ∧ (∀ c ∈ k.head?, c ≠ ';' ∧ c ≠ '#' ∧ c ≠ '[') ∧
      '=' ∉ k.tail ∧ Char.ofNat 0 ∉ k))

/-- One call of a typed command-line getter, with the arguments it is
given; `F` is the type of doubles. -/
inductive getter_call (F : Type) where
  | get_string (key : CStr) (def_ : Option CStr) (description : CStr)
  | get_path (key : CStr) (def_ : Option CStr) (description : CStr)
  | get_list (key : CStr) (def_ : Option CStr) (description : CStr)
  | get_time (key : CStr) (def_ : Int) (description : CStr)
  | get_int (key : CStr) (def_ : Int) (description : CStr)
  | get_double (key : CStr) (def_ : F) (description : CStr)
  | get_bool (key : CStr) (def_ : Int) (description : CStr)

/-- The key a getter call queries. -/
def getter_call.key {F : Type} : getter_call F → CStr
  | .get_string key _ _ => key
  | .get_path key _ _ => key
  | .get_list key _ _ => key
  | .get_time key _ _ => key
  | .get_int key _ _ => key
  | .get_double key _ _ => key
  | .get_bool key _ _ => key

/-- The description a getter call passes. -/
def getter_call.description {F : Type} : getter_call F → CStr
  | .get_string _ _ description => description
  | .get_path _ _ description => description
  | .get_list _ _ description => description
  | .get_time _ _ description => description
  | .get_int _ _ description => description
  | .get_double _ _ description => description
  | .get_bool _ _ description => description

/-- The type label each getter declares for the usage text; the boolean
getter declares none. -/
def getter_call.label {F : Type} : getter_call F → CStr
  | .get_string _ _ _ => "string".toList
  | .get_path _ _ _ => "string".toList
  | .get_list _ _ _ => "list".toList
  | .get_time _ _ _ => "time".toList
  | .get_int _ _ _ => "int".toList
  | .get_double _ _ _ => "double".toList
  | .get_bool _ _ _ => []

/-- The global `usage_str` after one getter call made with the argument
vector `argv`. -/
def usage_after_call {F L : Type} (atof : CStr → F) (string_to_time : CStr → Int)
    (string_to_array : Option CStr → L) (string_to_path : Option CStr → Option CStr)
    (argv : List CStr) (usage_str : Option CStr) : getter_call F → Option CStr
  | .get_string key def_ description =>
    (cmdline_get_string argv usage_str key def_ description).2
  | .get_path key def_ description =>
    (cmdline_get_path string_to_path argv usage_str key def_ description).2
  | .get_list key def_ description =>
    (cmdline_get_list string_to_array argv usage_str key def_ description).2
  | .get_time key def_ description =>
    (cmdline_get_time string_to_time argv usage_str key def_ description).2
  | .get_int key def_ description =>
    (cmdline_get_int argv usage_str key def_ description).2
  | .get_double key def_ description =>
    (cmdline_get_double atof argv usage_str key def_ description).2
  | .get_bool key def_ description =>
    (cmdline_get_bool argv usage_str key def_ description).2

/-- The global `usage_str` after a sequence of getter calls. -/
def usage_after_calls {F L : Type} (atof : CStr → F) (string_to_time : CStr → Int)
    (string_to_array : Option CStr → L) (string_to_path : Option CStr → Option CStr)
    (argv : List CStr) (usage_str : Option CStr) (calls : List (getter_call F)) :
    Option CStr :=
  calls.foldl (usage_after_call atof string_to_time string_to_array string_to_path argv)
    usage_str

/-- A line of the usage text as the specification words it: the key,
followed by the type label in parentheses when the label is not empty,
filled with spaces up to column 40, then ` - `, the description and a
newline. -/
def usage_line (key label description : CStr) : CStr :=
  let column := if label = [] then key else key ++ [' ', '('] ++ label ++ [')']
  column ++ List.replicate (40 - column.length) ' ' ++ [' ', '-', ' '] ++ description ++ ['\n']

/-! ## The settings registry and the typed destinations

The registry `allowed_settings`, the list `special_sections` and the
vocabulary `mouse_action_enum_data` are data of `settings_data.h`, which is
not among the sources at hand: the routines below take them as arguments.
A destination (`setting.value`, a `void *`) is an address, a natural
number, into a memory of typed cells. -/

/-- Modelled from the spec: the tags of `enum setting_type` in
`settings_data.h` (absent from the sources at hand), one for each type of
the specification's table; `TYPE_OTHER` stands for any other value of the
tag, which `set_setting` sends to its `default` branch. -/
inductive setting_type where
  | TYPE_INT
  | TYPE_BOOLEAN
  | TYPE_STRING
  | TYPE_ENUM
  | TYPE_SEP_COLOR
  | TYPE_PATH
  | TYPE_TIME
  | TYPE_GEOMETRY
  | TYPE_LIST
  | TYPE_OTHER
  deriving DecidableEq, Repr

/-- Modelled from the spec: `struct string_to_enum_def` of
`settings_data.h` (absent from the sources at hand), one entry of a
string to integer lookup table; the entry whose `string` is NULL ends the
table. -/
structure string_to_enum_def where
  string : Option CStr
  enum_value : Int
  deriving DecidableEq, Repr

/-- Modelled from the spec: `enum list_type` of `settings_data.h` (absent
from the sources at hand); the list of named mouse actions is the one
concrete case, `OTHER_LIST` stands for any other value. -/
inductive list_type where
  | MOUSE_LIST
  | OTHER_LIST
  deriving DecidableEq, Repr

/-- The state of a pointer to a heap block: NULL, the address of a live
block with the given content, or the address of a block that has been
released with `g_free`. -/
inductive pointer (α : Type) where
  | null
  | valid (target : α)
  | freed
  deriving DecidableEq, Repr

/-- What a destination holds: an `int`, a `gint64` or an enum value
(`int`), a `bool`, a `char *` (`str`), a `struct separator_color_data`
with its type and its custom colour string, a `struct geometry` (of an
abstract type `G`), the array of an action list, or the argument array of
a command. -/
inductive cell (G : Type) where
  | int (n : Int)
  | bool (b : Bool)
  | str (s : Option CStr)
  | sep_color (type : Int) (sep_color : Option CStr)
  | geometry (g : G)
  | list (p : pointer (List Int))
  | argv (p : pointer (List CStr))
  deriving DecidableEq, Repr

/-- The memory that holds the destinations, by address. -/
abbrev Memory (G : Type) := Nat → cell G

/-- A write of one destination. -/
def store_cell {G : Type} (mem : Memory G) (addr : Nat) (c : cell G) : Memory G :=
  fun a => if a = addr then c else mem a

/-- What a row passes in `parser_data` (a `void *`): nothing, a lookup
table, the address of a list type, or the address of the argument array a
path is split into. -/
inductive parser_data_t where
  | null
  | enum_table (table : List string_to_enum_def)
  | list_kind (type : list_type)
  | argv_dest (addr : Nat)
  deriving DecidableEq, Repr

/-- Modelled from the spec: `struct setting` of `settings_data.h` (absent
from the sources at hand), a registry row. `sect` is the field `section`,
`value` the address of the destination; a parser receives the row's
`parser_data`, the raw string and the content of the destination, and
returns its success flag and the content it leaves there. -/
structure setting (G : Type) where
  name : CStr
  sect : CStr
  type : setting_type
  default_value : CStr
  value : Nat
  parser : Option (parser_data_t → CStr → cell G → Bool × cell G)
  parser_data : parser_data_t

/-- The collaborators `set_setting` calls that are not part of
`option_parser.c`: `string_to_time`, `string_to_path` and `string_to_array`
of `utils.c`, `g_shell_parse_argv` of glib (`none` when it fails),
`x_parse_geometry` of `x11/x.c`, and the table `mouse_action_enum_data`. -/
structure externals (G : Type) where
  string_to_time : CStr → Int
  string_to_path : Option CStr → Option CStr
  string_to_array : Option CStr → Option (List CStr)
  g_shell_parse_argv : Option CStr → Option (List CStr)
  x_parse_geometry : CStr → G
  mouse_action_enum_data : List string_to_enum_def

/-- `string_parse_enum` on the table `data`, the string `s` and the `int`
that `ret` points to: the success flag and the `int` left there. The loop
ends at the entry whose string is NULL. -/
def string_parse_enum : List string_to_enum_def → CStr → Int → Bool × Int
  | [], _, ret => (false, ret)
  | e :: rest, s, ret =>
    match e.string with
    | none => (false, ret)
    | some str => if s = str then (true, e.enum_value) else string_parse_enum rest s ret

/-- `string_parse_enum` as the parser of a row: it reads the table from
`parser_data` and writes an `int` destination. -/
def string_parse_enum_cell {G : Type} (data : parser_data_t) (s : CStr) (ret : cell G) :
    Bool × cell G :=
  match data with
  | .enum_table table =>
    let old : Int := match ret with
      | .int n => n
      | _ => 0
    let r := string_parse_enum table s old
    if r.1 then (true, .int r.2) else (false, ret)
  | _ => (false, ret)

/-- The loop of `string_parse_mouse_action_list` over the tokens, filling
the fresh array: the values in token order, or `none` at the first token
that `string_parse_enum` does not find. -/
def mouse_action_values (table : List string_to_enum_def) : List CStr → Option (List Int)
  | [] => some []
  | token :: rest =>
    let r := string_parse_enum table token 0
    if r.1 then
      match mouse_action_values table rest with
      | some values => some (r.2 :: values)
      | none => none
    else none

/-- `string_parse_mouse_action_list` on the token array `s` (NULL is
`none`) and the destination content `ret`: the old array is released and
a fresh one of `len + 1` slots allocated; when a token is unknown the
fresh array is released too and the destination keeps its address; on
success the sentinel -1 follows the values. -/
def string_parse_mouse_action_list {G : Type} (table : List string_to_enum_def)
    (s : Option (List CStr)) (ret : cell G) : Bool × cell G :=
  match s with
  | none => (false, ret)
  | some tokens =>
    match mouse_action_values table tokens with
    | none => (false, .list .freed)
    | some values => (true, .list (.valid (values ++ [-1])))

/-- `string_parse_list`. -/
def string_parse_list {G : Type} (env : externals G) (data : list_type) (s : CStr)
    (ret : cell G) : Bool × cell G :=
  let arr := env.string_to_array (some s)
  match data with
  | .MOUSE_LIST => string_parse_mouse_action_list env.mouse_action_enum_data arr ret
  | .OTHER_LIST => (false, ret)

/-- The loop of `get_setting_id` from row `i` on, `error_code` being what
the rows before have set. -/
def get_setting_id_from {G : Type} : List (setting G) → Nat → CStr → CStr → Int → Int
  | [], _, _, _, error_code => if error_code = -2 then -2 else -1
  | row :: rest, i, key, sect, error_code =>
    if row.name = key then
      if sect = row.sect then (i : Int)
      else get_setting_id_from rest (i + 1) key sect (-2)
    else get_setting_id_from rest (i + 1) key sect error_code

/-- `get_setting_id` over the registry `allowed_settings`. -/
def get_setting_id {G : Type} (allowed_settings : List (setting G)) (key sect : CStr) : Int :=
  get_setting_id_from allowed_settings 0 key sect 0

/-- What `g_strfreev` leaves of the pointer it is given. -/
def release {α : Type} : pointer α → pointer α
  | .null => .null
  | _ => .freed

/-- The argument array of a path after `g_strfreev`. -/
def release_argv {G : Type} : cell G → cell G
  | .argv p => .argv (release p)
  | c => c

/-- `set_setting`: the success flag and the memory it leaves. A `bool`
destination receives the `int` of `str_to_bool` converted to `bool`, true
for every value other than 0. A row whose `parser_data` is not of the
kind its type reads is outside what the source defines; the embedding
reports failure there. -/
def set_setting {G : Type} (env : externals G) (setting : setting G) (value : CStr)
    (mem : Memory G) : Bool × Memory G :=
  match setting.type with
  | .TYPE_INT => (true, store_cell mem setting.value (.int (atoi value)))
  | .TYPE_BOOLEAN =>
    (true, store_cell mem setting.value (.bool (decide (str_to_bool (some value) ≠ 0))))
  | .TYPE_STRING => (true, store_cell mem setting.value (.str (some value)))
  | .TYPE_ENUM =>
    match setting.parser with
    | none => (false, mem)
    | some parser =>
      let r := parser setting.parser_data value (mem setting.value)
      (r.1, store_cell mem setting.value r.2)
  | .TYPE_SEP_COLOR =>
    match setting.parser with
    | none => (false, mem)
    | some parser =>
      let r := parser setting.parser_data value (mem setting.value)
      (r.1, store_cell mem setting.value r.2)
  | .TYPE_PATH =>
    let path := env.string_to_path (some value)
    let mem1 := store_cell mem setting.value (.str path)
    match setting.parser_data with
    | .argv_dest addr =>
      match env.g_shell_parse_argv path with
      | some args => (true, store_cell mem1 addr (.argv (.valid args)))
      | none => (false, store_cell mem1 addr (release_argv (mem1 addr)))
    | _ => (false, mem1)
  | .TYPE_TIME => (true, store_cell mem setting.value (.int (env.string_to_time value)))
  | .TYPE_GEOMETRY =>
    (true, store_cell mem setting.value (.geometry (env.x_parse_geometry value)))
  | .TYPE_LIST =>
    match setting.parser_data with
    | .list_kind type =>
      let r := string_parse_list env type value (mem setting.value)
      (r.1, store_cell mem setting.value r.2)
    | _ => (false, mem)
  | .TYPE_OTHER => (false, mem)

/-- `set_defaults` over the registry: every row's default is applied, a
failure being only logged. -/
def set_defaults {G : Type} (env : externals G) (allowed_settings : List (setting G))
    (mem : Memory G) : Memory G :=
  allowed_settings.foldl (fun m row => (set_setting env row row.default_value m).2) mem

/-- `is_special_section` over the list `special_sections`. -/
def is_special_section (special_sections : List CStr) (s : Section) : Bool :=
  special_sections.any (fun name => STR_EQ name s.name)

/-- The body of the inner loop of `save_settings` for one entry of the
section `curr_section`. -/
def save_entry {G : Type} (env : externals G) (allowed_settings : List (setting G))
    (curr_section : Section) (mem : Memory G) (curr_entry : entry) : Memory G :=
  let setting_id := get_setting_id allowed_settings curr_entry.key curr_section.name
  if setting_id < 0 then mem
  else
    match allowed_settings[setting_id.toNat]? with
    | some curr_setting => (set_setting env curr_setting curr_entry.value mem).2
    | none => mem

/-- `save_settings`: the store, which it only reads, and the memory it
leaves. -/
def save_settings {G : Type} (env : externals G) (allowed_settings : List (setting G))
    (special_sections : List CStr) (sections : Store) (mem : Memory G) : Store × Memory G :=
  (sections,
    sections.foldl
      (fun m curr_section =>
        if is_special_section special_sections curr_section then
          curr_section.entries.foldl (save_entry env allowed_settings curr_section) m
        else m)
      mem)

/-- The entries of a lookup table that stand before its terminator, the
first entry whose string is NULL. -/
def table_entries (table : List string_to_enum_def) : List string_to_enum_def :=
  table.takeWhile (fun e => e.string.isSome)

/-- The addresses `set_setting` may write for a row: its destination, and
for a path also the argument array its `parser_data` points to. -/
def setting_destinations {G : Type} (row : setting G) : List Nat :=
  match row.type, row.parser_data with
  | .TYPE_PATH, .argv_dest addr => [row.value, addr]
  | _, _ => [row.value]

/-- The entries of one section that resolve to a registry row, each with
the row it resolves to, in storage order. -/
def resolvable_in_section {G : Type} (allowed_settings : List (setting G)) (s : Section) :
    List (setting G × CStr) :=
  s.entries.filterMap (fun e =>
    if 0 ≤ get_setting_id allowed_settings e.key s.name then
      (allowed_settings[(get_setting_id allowed_settings e.key s.name).toNat]?).map
        (fun row => (row, e.value))
    else none)

/-- The entries `save_settings` applies, as the specification words it:
those of the sections whose name is in the special list, in store order,
that resolve with `get_setting_id` to a row index from 0 on. -/
def resolvable_entries {G : Type} (allowed_settings : List (setting G))
    (special_sections : List CStr) (sections : Store) : List (setting G × CStr) :=
  (sections.filter (fun s => decide (s.name ∈ special_sections))).flatMap
    (resolvable_in_section allowed_settings)

/-- The text of a stripped line before its first `=`. -/
def text_before_equal (s : CStr) : CStr :=
  s.takeWhile (fun x => x != '=')

/-- The text of a stripped line after its first `=`. -/
def text_after_equal (s : CStr) : CStr :=
  (s.dropWhile (fun x => x != '=')).drop 1

/-- A line the loop passes over without a warning: blank once stripped,
or a comment (its first character is `;` or `#`). -/
def is_blank_or_comment (line : List Char) : Bool :=
  match g_strstrip (c_str line) with
  | [] => true
  | c :: _ => decide (c = ';' ∨ c = '#')

/-- A value that opens a double quote and never closes it. -/
def quote_left_open (value : CStr) : Bool :=
  decide (dquote ∈ value) &&
    !decide (dquote ∈ (value.dropWhile (fun x => x != dquote)).drop 1)

/-- A line `load_ini_file` rejects with a warning while `current` is the
current section: a header without `]`, another line without `=` after its
first character, a value that leaves a quote open, or a key/value line
while no section is current. -/
def rejects (current : Option CStr) (line : List Char) : Bool :=
  match g_strstrip (c_str line) with
  | [] => false
  | c :: rest =>
    if c = ';' ∨ c = '#' then false
    else if c = '[' then !decide (']' ∈ rest)
    else if '=' ∈ rest then
      quote_left_open (g_strstrip ((rest.dropWhile (fun x => x != '=')).drop 1))
        || current.isNone
    else true

/-- The lines left once every blank, comment and rejected line is
deleted, `current` being the section current before the first line; a
header line that stays makes its name the current section. -/
def surviving_lines : Option CStr → List (List Char) → List (List Char)
  | _, [] => []
  | current, line :: rest =>
    if is_blank_or_comment line || rejects current line then surviving_lines current rest
    else
      line :: surviving_lines
        (match header_name line with
         | some name => some name
         | none => current) rest

/-- A line that ends with its newline and holds no other. -/
def terminated (l : List Char) : Prop :=
  ∃ body : List Char, l = body ++ ['\n'] ∧ '\n' ∉ body

/-- A list of lines as `getline` delivers them: each ends with its only
newline, except that the last may be a non-empty line without newline. -/
def well_split : List (List Char) → Prop
  | [] => True
  | l :: rest => (terminated l ∨ (rest = [] ∧ l ≠ [] ∧ '\n' ∉ l)) ∧ well_split rest

/-- An operation on the Text Store. -/
inductive store_op where
  | new_section (name : CStr)
  | add_entry (section_name key value : CStr)
  | load_ini_file (fp : Option (List Char))
  | free_ini

/-- The store after one operation, `none` when the process dies. -/
def run_op (sections : Store) : store_op → Option Store
  | .new_section name => new_section sections name
  | .add_entry section_name key value => add_entry sections section_name key value
  | .load_ini_file fp => (load_ini_file fp sections).map (fun r => r.2)
  | .free_ini => some (free_ini sections)

/-- The store after a sequence of operations, `none` when one of them is
fatal. -/
def run_ops : Store → List store_op → Option Store
  | sections, [] => some sections
  | sections, op :: rest =>
    match run_op sections op with
    | none => none
    | some sections1 => run_ops sections1 rest

/-- Modelled from the spec: `struct separator_color_data` of `settings.h`
(absent from the sources at hand), the separator colour: its type and the
custom colour string. -/
structure separator_color_data where
  type : Int
  sep_color : Option CStr
  deriving DecidableEq, Repr

/-- `string_parse_sepcolor` on the vocabulary `data`, the string `s` and
the structure `ret` points to: the success flag and the structure left
there. `SEP_CUSTOM` is the constant of `enum separator_color`
(`settings.h`, absent from the sources at hand); the local `type` that
`string_parse_enum` fills starts indeterminate and is read only after a
match. -/
def string_parse_sepcolor (SEP_CUSTOM : Int) (data : List string_to_enum_def) (s : CStr)
    (ret : separator_color_data) : Bool × separator_color_data :=
  let r := string_parse_enum data s 0
  if r.1 then (true, { ret with type := r.2 })
  else if STR_FULL (some s) then (true, { type := SEP_CUSTOM, sep_color := some s })
  else (false, ret)

/-- `string_parse_sepcolor` as the parser of a row: it reads the
vocabulary from `parser_data` and works on a separator colour
destination. -/
def string_parse_sepcolor_cell {G : Type} (SEP_CUSTOM : Int) (data : parser_data_t) (s : CStr)
    (ret : cell G) : Bool × cell G :=
  match data, ret with
  | .enum_table table, .sep_color type sep_color =>
    let r := string_parse_sepcolor SEP_CUSTOM table s ⟨type, sep_color⟩
    (r.1, .sep_color r.2.type r.2.sep_color)
  | _, _ => (false, ret)

/-- The entries stored under a section name over the whole store, in
store order: those of every section that bears the name. When the names
of the store are distinct these are the entries of the one section with
that name. -/
def entries_in (sections : Store) (sect : CStr) : List entry :=
  (sections.filter (fun s => decide (s.name = sect))).flatMap (fun s => s.entries)

/-- What an `int` destination holds after the values of the entries
`applied` were converted and written to it in order, `start` being what it
held before: the conversion of the last of them, `start` when there is
none. -/
def last_int_or {G : Type} (applied : List entry) (start : cell G) : cell G :=
  match applied.getLast? with
  | some e => .int (atoi e.value)
  | none => start

/-- A registry of two rows for the examples: a String row and an Int row,
both of the section `global`, at the addresses 0 and 1. -/
def sample_settings : List (setting Unit) :=
  [⟨"font".toList, "global".toList, .TYPE_STRING, "Monospace".toList, 0, none, .null⟩,
   ⟨"timeout".toList, "global".toList, .TYPE_INT, "7".toList, 1, none, .null⟩]

/-- Collaborators for the examples; none of them is reached by a String
or an Int row. -/
def sample_externals : externals Unit :=
  ⟨fun _ => 0, fun path => path, fun _ => none, fun _ => none, fun _ => (), []⟩

/-- A store for the examples in which the key `timeout` is stored twice
under `global`. -/
def sample_store : Store :=
  [⟨"global".toList, [⟨"timeout".toList, "1".toList⟩, ⟨"font".toList, "Sans".toList⟩,
    ⟨"timeout".toList, "2".toList⟩]⟩]

/-! # Properties -/

/-! ## Basic facts about the store -/

@[simp] theorem STR_EQ_iff (a b : CStr) : STR_EQ a b = true ↔ a = b := by
  simp [STR_EQ]

theorem get_section_eq_none (sections : Store) (name : CStr) :
    get_section sections name = none ↔ ∀ s ∈ sections, s.name ≠ name := by
  induction sections with
  | nil => simp [get_section]
  | cons s rest ih =>
    by_cases h : s.name = name
    · simp [get_section, h]
    · simp [get_section, h, ih]

theorem get_value_eq_lookup_first (sections : Store) (sect key : CStr) :
    get_value sections sect key = lookup_first sections sect key := by
  induction sections with
  | nil => simp [get_value, get_section, lookup_first]
  | cons s rest ih =>
    by_cases h : s.name = sect
    · simp [get_value, get_section, lookup_first, h, STR_EQ]
    · simp only [get_value, lookup_first] at ih
      simp only [get_value, get_section, lookup_first, STR_EQ, h, decide_False,
        Bool.false_eq_true, if_false, List.find?_cons_of_neg, not_false_eq_true]
      rw [← ih]
      cases hg : get_section rest sect with
      | none => simp
      | some i => simp [STR_EQ]

theorem lookup_first_eq_entries_of (sections : Store) (sect key : CStr) :
    lookup_first sections sect key =
      ((entries_of sections sect).find? (fun e => decide (e.key = key))).map (fun e => e.value) := by
  unfold lookup_first entries_of
  cases sections.find? (fun s => decide (s.name = sect)) <;> simp

theorem get_value_none_of_absent (sections : Store) (sect key : CStr)
    (habsent : ∀ s ∈ sections, s.name = sect → ∀ e ∈ s.entries, e.key ≠ key) :
    get_value sections sect key = none := by
  rw [get_value_eq_lookup_first]
  unfold lookup_first
  cases hf : sections.find? (fun s => decide (s.name = sect)) with
  | none => simp
  | some s =>
    have hmem := List.mem_of_find?_eq_some hf
    have hname : s.name = sect := by simpa using List.find?_some hf
    simp only [Option.some_bind, Option.map_eq_none', List.find?_eq_none]
    intro e he
    simpa using habsent s hmem hname e he

theorem add_entry_eq_insert_entry (sections : Store) (sect key value : CStr) :
    add_entry sections sect key value =
      some (insert_entry sections sect ⟨key, string_strip_quotes value⟩) := by
  induction sections with
  | nil => simp [add_entry, get_section, new_section, insert_entry, push_entry]
  | cons s rest ih =>
    by_cases h : s.name = sect
    · simp [add_entry, get_section, insert_entry, push_entry, h]
    · have h2 : ¬ sect = s.name := fun e => h e.symm
      cases hg : get_section rest sect with
      | some i =>
        simp only [add_entry, hg] at ih
        simp only [add_entry, get_section, STR_EQ, h, decide_False, Bool.false_eq_true, if_false,
          hg, Option.map_some', push_entry, insert_entry]
        simpa using ih
      | none =>
        have hall := (get_section_eq_none rest sect).1 hg
        have hany : (rest.any fun s => STR_EQ sect s.name) = false := by
          simp only [List.any_eq_false, STR_EQ_iff]
          intro x hx e
          exact hall x hx e.symm
        simp only [add_entry, hg, new_section, hany, Bool.false_eq_true, if_false] at ih
        simp only [add_entry, get_section, STR_EQ, h, decide_False, Bool.false_eq_true, if_false,
          hg, Option.map_none', new_section, List.any_cons, h2, Bool.false_or, insert_entry]
        simp only [STR_EQ] at hany
        simp only [hany, Bool.false_eq_true, if_false, List.cons_append, List.length_cons,
          List.length_append, List.length_nil, Option.some.injEq] at ih ⊢
        simp only [Nat.add_sub_cancel, zero_add] at ih ⊢
        simp only [push_entry, List.cons.injEq, true_and]
        exact ih

theorem entries_of_insert_entry_same (sections : Store) (sect : CStr) (e : entry) :
    entries_of (insert_entry sections sect e) sect = entries_of sections sect ++ [e] := by
  induction sections with
  | nil => simp [insert_entry, entries_of]
  | cons s rest ih =>
    by_cases h : s.name = sect
    · simp [insert_entry, entries_of, h]
    · simp only [entries_of] at ih
      simp [insert_entry, entries_of, h, ih]

theorem entries_of_insert_entry_other (sections : Store) (sect other : CStr) (e : entry)
    (hne : other ≠ sect) :
    entries_of (insert_entry sections sect e) other = entries_of sections other := by
  induction sections with
  | nil =>
    have h2 : ¬ sect = other := fun h => hne h.symm
    simp [insert_entry, entries_of, h2]
  | cons s rest ih =>
    by_cases h : s.name = sect
    · have h2 : ¬ s.name = other := fun h3 => hne (h3.symm.trans h)
      simp [insert_entry, entries_of, h, h2]
      simp [← h, h2]
    · by_cases h3 : s.name = other
      · subst h3
        simp [insert_entry, entries_of, h]
      · simp only [entries_of] at ih
        simp [insert_entry, entries_of, h, h3, ih]

theorem names_insert_entry_of_mem (sections : Store) (sect : CStr) (e : entry)
    (hmem : sect ∈ sections.map (fun s => s.name)) :
    (insert_entry sections sect e).map (fun s => s.name) = sections.map (fun s => s.name) := by
  induction sections with
  | nil => simp at hmem
  | cons s rest ih =>
    by_cases h : s.name = sect
    · simp [insert_entry, h]
    · have hrest : sect ∈ rest.map (fun s => s.name) := by
        simp only [List.map_cons, List.mem_cons] at hmem
        rcases hmem with h1 | h1
        · exact absurd h1.symm h
        · exact h1
      simp [insert_entry, h, ih hrest]

theorem get_value_of_first (sections : Store) (sect key : CStr)
    (front back : List entry) (e : entry)
    (hsplit : entries_of sections sect = front ++ e :: back)
    (hkey : e.key = key) (hfirst : ∀ x ∈ front, x.key ≠ key) :
    get_value sections sect key = some e.value := by
  rw [get_value_eq_lookup_first, lookup_first_eq_entries_of, hsplit, List.find?_append]
  have h1 : front.find? (fun x => decide (x.key = key)) = none := by
    simp only [List.find?_eq_none, decide_eq_true_eq]
    exact hfirst
  simp [h1, hkey]

/-! ## The accessors and absent keys (C2) -/

/-- C2: when no section with the given name holds an entry with the given
key (in particular when no such section exists), every accessor returns the
default it was given: `ini_get_int`, `ini_get_double`, `ini_get_bool` and
`ini_get_time` return `def` unchanged, `ini_get_string` returns the text of
`def` (null when `def` is null) and `ini_is_set` returns false. The
accessors are total functions, so none fails on an absent key. -/
theorem accessors_return_default_when_absent {F : Type} (atof : CStr → F)
    (string_to_time : CStr → Int) (sections : Store) (sect key : CStr)
    (d_int d_bool d_time : Int) (d_double : F) (d_string : Option CStr)
    (habsent : ∀ s ∈ sections, s.name = sect → ∀ e ∈ s.entries, e.key ≠ key) :
    ini_get_int sections sect key d_int = d_int ∧
    ini_get_double atof sections sect key d_double = d_double ∧
    ini_get_bool sections sect key d_bool = d_bool ∧
    ini_get_time string_to_time sections sect key d_time = d_time ∧
    ini_get_string sections sect key d_string = d_string ∧
    ini_is_set sections sect key = false := by
  have hv := get_value_none_of_absent sections sect key habsent
  simp [ini_get_int, ini_get_double, ini_get_bool, ini_get_time, ini_get_string, ini_is_set,
    hv, str_to_bool]

/-- C2, at the store read from `[foo]`, `bar = 1` and the key `missing`. -/
theorem accessors_return_default_when_absent_witness :
    (∀ s ∈ ([⟨"foo".toList, [⟨"bar".toList, "1".toList⟩]⟩] : Store),
        s.name = "foo".toList → ∀ e ∈ s.entries, e.key ≠ "missing".toList) ∧
    ini_get_int [⟨"foo".toList, [⟨"bar".toList, "1".toList⟩]⟩]
      "foo".toList "missing".toList 7 = 7 :=
  ⟨by decide,
   (accessors_return_default_when_absent (fun _ => (0 : Int)) (fun _ => 0)
      [⟨"foo".toList, [⟨"bar".toList, "1".toList⟩]⟩] "foo".toList "missing".toList
      7 0 0 0 none (by decide)).1⟩

/-! ## Duplicate keys (C3) -/

/-- C3: entries with the same key coexist in a section, in insertion order,
and the lookup returns the first. For a section whose stored entries are
`front ++ e :: back`, `e` being the first with the key: `add_entry` of the
same key again succeeds and appends the new entry after all the stored
ones, after which the lookup still returns the value of `e`; `get_value`,
`ini_get_string`, `ini_get_int` and `ini_get_bool` all read the value of
`e`. Loading `[s]`, `k = a`, `k = b` gives a section `s` with the two
entries in that order, and `ini_get_string` of `s`, `k` returns `a`. -/
theorem duplicate_keys_first_wins (sections : Store) (sect key value : CStr)
    (front back : List entry) (e : entry) (d : Option CStr) (d_int d_bool : Int)
    (hsplit : entries_of sections sect = front ++ e :: back)
    (hkey : e.key = key) (hfirst : ∀ x ∈ front, x.key ≠ key) :
    (∃ sections1, add_entry sections sect key value = some sections1 ∧
      entries_of sections1 sect =
        front ++ e :: back ++ [⟨key, string_strip_quotes value⟩] ∧
      get_value sections1 sect key = some e.value) ∧
    get_value sections sect key = some e.value ∧
    ini_get_string sections sect key d = some e.value ∧
    ini_get_int sections sect key d_int = atoi e.value ∧
    ini_get_bool sections sect key d_bool =
      (if str_to_bool (some e.value) < 0 then d_bool else str_to_bool (some e.value)) ∧
    load_ini_file (some "[s]\nk = a\nk = b\n".toList) [] =
      some (0, [⟨"s".toList, [⟨"k".toList, "a".toList⟩, ⟨"k".toList, "b".toList⟩]⟩]) ∧
    ini_get_string [⟨"s".toList, [⟨"k".toList, "a".toList⟩, ⟨"k".toList, "b".toList⟩]⟩]
      "s".toList "k".toList d = some "a".toList := by
  have hv := get_value_of_first sections sect key front back e hsplit hkey hfirst
  refine ⟨⟨_, add_entry_eq_insert_entry sections sect key value, ?_, ?_⟩, hv, ?_, ?_, ?_, ?_, ?_⟩
  · rw [entries_of_insert_entry_same, hsplit]
  · apply get_value_of_first _ sect key front (back ++ [⟨key, string_strip_quotes value⟩]) e _
      hkey hfirst
    rw [entries_of_insert_entry_same, hsplit]
    simp
  · simp [ini_get_string, hv]
  · simp [ini_get_int, hv]
  · simp [ini_get_bool, hv]
  · decide
  · have h : get_value
        [⟨"s".toList, [⟨"k".toList, "a".toList⟩, ⟨"k".toList, "b".toList⟩]⟩]
        "s".toList "k".toList = some "a".toList := by decide
    rw [ini_get_string, h]

/-- C3, at the store holding `k = a`, `k = b` under `s`, adding `k = c`. -/
theorem duplicate_keys_first_wins_witness :
    get_value [⟨"s".toList, [⟨"k".toList, "a".toList⟩, ⟨"k".toList, "b".toList⟩]⟩]
      "s".toList "k".toList = some "a".toList :=
  (duplicate_keys_first_wins
    [⟨"s".toList, [⟨"k".toList, "a".toList⟩, ⟨"k".toList, "b".toList⟩]⟩]
    "s".toList "k".toList "c".toList [] [⟨"k".toList, "b".toList⟩] ⟨"k".toList, "a".toList⟩
    none 0 0 (by decide) (by decide) (by decide)).2.1

/-! ## Boolean values (C8) -/

/-- C8: when the lookup finds the value `v` for the key, `ini_get_bool`
returns true (1) if the first character of `v` is one of y, Y, t, T, 1,
false (0) if it is one of n, N, f, F, 0, and the default `d` for every
other `v`, the empty string included. So `yes`, `Y`, `1` give true, `no`,
`F`, `0` give false, and `maybe` gives the default. -/
theorem ini_get_bool_by_first_character (sections : Store) (sect key v : CStr) (d : Int)
    (hpresent : lookup_first sections sect key = some v) :
    (∀ c ∈ ['y', 'Y', 't', 'T', '1'], v.head? = some c →
      ini_get_bool sections sect key d = 1) ∧
    (∀ c ∈ ['n', 'N', 'f', 'F', '0'], v.head? = some c →
      ini_get_bool sections sect key d = 0) ∧
    ((∀ c ∈ ['y', 'Y', 't', 'T', '1', 'n', 'N', 'f', 'F', '0'], v.head? ≠ some c) →
      ini_get_bool sections sect key d = d) ∧
    (v ∈ ["yes".toList, "Y".toList, "1".toList] → ini_get_bool sections sect key d = 1) ∧
    (v ∈ ["no".toList, "F".toList, "0".toList] → ini_get_bool sections sect key d = 0) ∧
    (v = "maybe".toList → ini_get_bool sections sect key d = d) := by
  have hv : get_value sections sect key = some v := by
    rw [get_value_eq_lookup_first]; exact hpresent
  refine ⟨?_, ?_, ?_, ?_, ?_, ?_⟩
  · intro c hc hhead
    cases v with
    | nil => simp at hhead
    | cons x rest =>
      simp only [List.head?_cons, Option.some.injEq] at hhead
      subst hhead
      simp only [List.mem_cons, List.mem_singleton, List.not_mem_nil, or_false] at hc
      simp [ini_get_bool, hv, str_to_bool, hc]
  · intro c hc hhead
    cases v with
    | nil => simp at hhead
    | cons x rest =>
      simp only [List.head?_cons, Option.some.injEq] at hhead
      subst hhead
      simp only [List.mem_cons, List.mem_singleton, List.not_mem_nil, or_false] at hc
      rcases hc with h | h | h | h | h <;> subst h <;>
        simp [ini_get_bool, hv, str_to_bool]
  · intro hother
    cases v with
    | nil => simp [ini_get_bool, hv, str_to_bool]
    | cons x rest =>
      have h := fun c hc => hother c hc
      simp only [List.mem_cons, List.mem_singleton, List.not_mem_nil, or_false, List.head?_cons,
        ne_eq, Option.some.injEq] at h
      have h1 : ¬ (x = 'y' ∨ x = 'Y' ∨ x = 't' ∨ x = 'T' ∨ x = '1') := by
        intro hx
        rcases hx with hx | hx | hx | hx | hx <;> exact h x (by simp [hx]) rfl
      have h2 : ¬ (x = 'n' ∨ x = 'N' ∨ x = 'f' ∨ x = 'F' ∨ x = '0') := by
        intro hx
        rcases hx with hx | hx | hx | hx | hx <;> exact h x (by simp [hx]) rfl
      simp [ini_get_bool, hv, str_to_bool, h1, h2]
  · intro hmem
    simp only [List.mem_cons, List.mem_singleton, List.not_mem_nil, or_false] at hmem
    rcases hmem with h | h | h <;> subst h <;> simp [ini_get_bool, hv, str_to_bool]
  · intro hmem
    simp only [List.mem_cons, List.mem_singleton, List.not_mem_nil, or_false] at hmem
    rcases hmem with h | h | h <;> subst h <;> simp [ini_get_bool, hv, str_to_bool]
  · intro h
    subst h
    simp [ini_get_bool, hv, str_to_bool]

/-- C8, at a store holding `flag = maybe` under `s`, with default true. -/
theorem ini_get_bool_by_first_character_witness :
    lookup_first [⟨"s".toList, [⟨"flag".toList, "maybe".toList⟩]⟩] "s".toList "flag".toList
      = some "maybe".toList ∧
    ini_get_bool [⟨"s".toList, [⟨"flag".toList, "maybe".toList⟩]⟩] "s".toList "flag".toList 1
      = 1 :=
  ⟨by decide,
   (ini_get_bool_by_first_character [⟨"s".toList, [⟨"flag".toList, "maybe".toList⟩]⟩]
      "s".toList "flag".toList "maybe".toList 1 (by decide)).2.2.2.2.2 rfl⟩

/-! ## Section traversal (C7) -/

theorem next_section_some_eq_loop (sections : Store) (name : CStr) :
    next_section sections (some name) = next_section_loop sections name := by
  cases sections <;> simp [next_section, next_section_loop]

theorem next_section_loop_absent (sections : Store) (name : CStr)
    (habsent : name ∉ sections.map (fun s => s.name)) :
    next_section_loop sections name = none := by
  induction sections with
  | nil => simp [next_section_loop]
  | cons s rest ih =>
    simp only [List.map_cons, List.mem_cons, not_or] at habsent
    simp [next_section_loop, habsent.1, ih habsent.2]

theorem next_section_loop_index (sections : Store)
    (hnodup : (sections.map (fun s => s.name)).Nodup) (i : Nat) (name : CStr)
    (hi : (sections.map (fun s => s.name))[i]? = some name) :
    next_section_loop sections name = (sections.map (fun s => s.name))[i + 1]? := by
  induction sections generalizing i with
  | nil => simp at hi
  | cons s rest ih =>
    simp only [List.map_cons, List.nodup_cons] at hnodup
    cases i with
    | zero =>
      simp only [List.map_cons, List.getElem?_cons_zero, Option.some.injEq] at hi
      subst hi
      cases rest <;> simp [next_section_loop]
    | succ j =>
      simp only [List.map_cons, List.getElem?_cons_succ] at hi
      have hmem : name ∈ rest.map (fun s => s.name) := List.getElem?_mem hi
      have hne : ¬ name = s.name := fun h => hnodup.1 (h ▸ hmem)
      simp only [next_section_loop, STR_EQ, hne, decide_False, Bool.false_eq_true, if_false,
        List.map_cons, List.getElem?_cons_succ]
      exact ih hnodup.2 j hi

theorem visit_sections_from (sections : Store)
    (hnodup : (sections.map (fun s => s.name)).Nodup) (fuel i : Nat) (name : CStr)
    (hi : (sections.map (fun s => s.name))[i]? = some name)
    (hfuel : sections.length ≤ fuel + i) :
    visit_sections sections fuel (some name) =
      some ((sections.map (fun s => s.name)).drop (i + 1)) := by
  induction fuel generalizing i name with
  | zero =>
    have hlt : i < (sections.map (fun s => s.name)).length := by
      rcases List.getElem?_eq_some_iff.1 hi with ⟨h, _⟩
      exact h
    simp only [List.length_map] at hlt
    omega
  | succ fuel ih =>
    simp only [visit_sections, next_section_some_eq_loop,
      next_section_loop_index sections hnodup i name hi]
    cases hnext : (sections.map (fun s => s.name))[i + 1]? with
    | none =>
      have hlen : (sections.map (fun s => s.name)).length ≤ i + 1 := by
        simpa using hnext
      simp [List.drop_eq_nil_of_le hlen]
    | some name1 =>
      have hlt : i + 1 < (sections.map (fun s => s.name)).length := by
        rcases List.getElem?_eq_some_iff.1 hnext with ⟨h, _⟩
        exact h
      have hget : (sections.map (fun s => s.name))[i + 1] = name1 := by
        rcases List.getElem?_eq_some_iff.1 hnext with ⟨_, h⟩
        exact h
      simp only [ih (i + 1) name1 hnext (by omega), Option.map_some', Option.some.injEq]
      rw [← hget]
      exact (List.drop_eq_getElem_cons hlt).symm

/-- C7: in a store whose section names `n_0, ..., n_(m-1)` are pairwise
distinct, `next_section(NULL)` is `n_0` (NULL for the empty store),
`next_section(n_i)` is `n_(i+1)` and NULL for the last section,
`next_section` of a name not in the store is NULL, and the traversal that
starts from NULL and follows `next_section` until NULL comes back visits
exactly `n_0, ..., n_(m-1)`, in that order, once it has more fuel than
there are sections. After the headers `[x]` and `[y]` the section after
`x` is `y` and there is none after `y`. -/
theorem next_section_traversal (sections : Store)
    (hnodup : (sections.map (fun s => s.name)).Nodup) :
    next_section sections none = (sections.map (fun s => s.name)).head? ∧
    (∀ (i : Nat) (name : CStr), (sections.map (fun s => s.name))[i]? = some name →
      next_section sections (some name) = (sections.map (fun s => s.name))[i + 1]?) ∧
    (∀ name : CStr, name ∉ sections.map (fun s => s.name) →
      next_section sections (some name) = none) ∧
    (∀ fuel : Nat, sections.length < fuel →
      visit_sections sections fuel none = some (sections.map (fun s => s.name))) ∧
    load_ini_file (some "[x]\n[y]\n".toList) [] =
      some (0, [⟨"x".toList, []⟩, ⟨"y".toList, []⟩]) ∧
    next_section [⟨"x".toList, []⟩, ⟨"y".toList, []⟩] (some "x".toList) = some "y".toList ∧
    next_section [⟨"x".toList, []⟩, ⟨"y".toList, []⟩] (some "y".toList) = none := by
  refine ⟨?_, ?_, ?_, ?_, by decide, by decide, by decide⟩
  · cases sections <;> simp [next_section]
  · intro i name hi
    rw [next_section_some_eq_loop]
    exact next_section_loop_index sections hnodup i name hi
  · intro name habsent
    rw [next_section_some_eq_loop]
    exact next_section_loop_absent sections name habsent
  · intro fuel hfuel
    cases fuel with
    | zero => omega
    | succ fuel =>
      cases sections with
      | nil => simp [visit_sections, next_section]
      | cons s rest =>
        have h0 : ((s :: rest).map (fun s => s.name))[0]? = some s.name := by simp
        have hrec := visit_sections_from (s :: rest) hnodup fuel 0 s.name h0 (by omega)
        simp only [visit_sections, next_section, hrec]
        simp

/-- C7, at the store of the sections `x` and `y`. -/
theorem next_section_traversal_witness :
    (([⟨"x".toList, []⟩, ⟨"y".toList, []⟩] : Store).map (fun s => s.name)).Nodup ∧
    visit_sections [⟨"x".toList, []⟩, ⟨"y".toList, []⟩] 3 none =
      some ["x".toList, "y".toList] :=
  ⟨by decide,
   (next_section_traversal [⟨"x".toList, []⟩, ⟨"y".toList, []⟩] (by decide)).2.2.2.1 3
     (by decide)⟩

/-! ## The command-line overlay (C9, C10) -/

theorem find_argument_none (argv : List CStr) (key : CStr) (habsent : key ∉ argv) :
    find_argument argv key = none := by
  induction argv with
  | nil => simp [find_argument]
  | cons a rest ih =>
    simp only [List.mem_cons, not_or] at habsent
    simp [find_argument, habsent.1, ih habsent.2]

theorem find_argument_least (argv : List CStr) (key : CStr) (hmem : key ∈ argv) :
    ∃ i : Nat, find_argument argv key = some i ∧ argv[i]? = some key ∧
      ∀ j : Nat, j < i → argv[j]? ≠ some key := by
  induction argv with
  | nil => simp at hmem
  | cons a rest ih =>
    by_cases h : key = a
    · refine ⟨0, ?_, ?_, ?_⟩
      · simp [find_argument, h]
      · simp [h]
      · intro j hj; omega
    · have hrest : key ∈ rest := by
        simp only [List.mem_cons] at hmem
        rcases hmem with h1 | h1
        · exact absurd h1 h
        · exact h1
      obtain ⟨i, hfind, hget, hleast⟩ := ih hrest
      refine ⟨i + 1, ?_, ?_, ?_⟩
      · simp [find_argument, h, hfind]
      · simpa using hget
      · intro j hj
        cases j with
        | zero =>
          simp only [List.getElem?_cons_zero, ne_eq, Option.some.injEq]
          exact fun e => h e.symm
        | succ k =>
          simp only [List.getElem?_cons_succ]
          exact hleast k (by omega)

theorem strchr_append (front back : CStr) (c : Char) (hfront : c ∉ front) :
    strchr (front ++ c :: back) c = some (front, c :: back) := by
  have hall : ∀ x ∈ front, (x != c) = true := by
    intro x hx
    simp only [bne_iff_ne, ne_eq]
    intro e
    exact hfront (e ▸ hx)
  simp [strchr, List.takeWhile_append_of_pos hall, List.dropWhile_append_of_pos hall]

theorem strchr_absent (s : CStr) (c : Char) (habsent : c ∉ s) : strchr s c = none := by
  simp [strchr, habsent]

/-- C9: for a key `a/b` cut at its first slash (`a` holds no slash),
`cmdline_find_option` returns the least index at which `a` stands in the
argument vector if `a` stands anywhere in it, otherwise the least index at
which `b` stands if `b` does, otherwise -1; for a key `a` without a slash
it returns the least index of an equal argument, or -1. So
`cmdline_get_int` of the key made of `--foo`, a slash and `-f`, with default 0, returns 5 for the vector
`prog --foo 5` and for the vector `prog -f 5`. -/
theorem cmdline_find_option_alternatives (argv : List CStr) (a b : CStr)
    (hslash : '/' ∉ a) :
    (a ∈ argv → ∃ i : Nat, cmdline_find_option argv (some (a ++ '/' :: b)) = (i : Int) ∧
      argv[i]? = some a ∧ ∀ j : Nat, j < i → argv[j]? ≠ some a) ∧
    (a ∉ argv → b ∈ argv →
      ∃ i : Nat, cmdline_find_option argv (some (a ++ '/' :: b)) = (i : Int) ∧
        argv[i]? = some b ∧ ∀ j : Nat, j < i → argv[j]? ≠ some b) ∧
    (a ∉ argv → b ∉ argv → cmdline_find_option argv (some (a ++ '/' :: b)) = -1) ∧
    (a ∈ argv → ∃ i : Nat, cmdline_find_option argv (some a) = (i : Int) ∧
      argv[i]? = some a ∧ ∀ j : Nat, j < i → argv[j]? ≠ some a) ∧
    (a ∉ argv → cmdline_find_option argv (some a) = -1) ∧
    (∀ (usage_str : Option CStr) (description : CStr),
      (cmdline_get_int ["prog".toList, "--foo".toList, "5".toList] usage_str
        "--foo/-f".toList 0 description).1 = 5 ∧
      (cmdline_get_int ["prog".toList, "-f".toList, "5".toList] usage_str
        "--foo/-f".toList 0 description).1 = 5) := by
  have hsplit : strchr (a ++ '/' :: b) '/' = some (a, '/' :: b) := strchr_append a b '/' hslash
  have hnone : strchr a '/' = none := strchr_absent a '/' hslash
  refine ⟨?_, ?_, ?_, ?_, ?_, ?_⟩
  · intro ha
    obtain ⟨i, hfind, hget, hleast⟩ := find_argument_least argv a ha
    exact ⟨i, by simp [cmdline_find_option, hsplit, hfind], hget, hleast⟩
  · intro ha hb
    obtain ⟨i, hfind, hget, hleast⟩ := find_argument_least argv b hb
    exact ⟨i, by simp [cmdline_find_option, hsplit, find_argument_none argv a ha, hfind],
      hget, hleast⟩
  · intro ha hb
    simp [cmdline_find_option, hsplit, find_argument_none argv a ha,
      find_argument_none argv b hb]
  · intro ha
    obtain ⟨i, hfind, hget, hleast⟩ := find_argument_least argv a ha
    exact ⟨i, by simp [cmdline_find_option, hnone, hfind], hget, hleast⟩
  · intro ha
    simp [cmdline_find_option, hnone, find_argument_none argv a ha]
  · intro usage_str description
    have h1 : cmdline_get_value ["prog".toList, "--foo".toList, "5".toList] "--foo/-f".toList
        = some "5".toList := by decide
    have h2 : cmdline_get_value ["prog".toList, "-f".toList, "5".toList] "--foo/-f".toList
        = some "5".toList := by decide
    have h3 : atoi "5".toList = 5 := by decide
    constructor
    · rw [cmdline_get_int, h1]; exact h3
    · rw [cmdline_get_int, h2]; exact h3

/-- C9, at the vector `prog -f 5` and the key made of `--foo`, a slash and
`-f`. -/
theorem cmdline_find_option_alternatives_witness :
    '/' ∉ "--foo".toList ∧
    cmdline_find_option ["prog".toList, "-f".toList, "5".toList]
      (some ("--foo".toList ++ '/' :: "-f".toList)) = 1 := by
  refine ⟨by decide, ?_⟩
  obtain ⟨i, hres, hget, hleast⟩ :=
    (cmdline_find_option_alternatives ["prog".toList, "-f".toList, "5".toList]
      "--foo".toList "-f".toList (by decide)).2.1 (by decide) (by decide)
  rw [hres]
  have hi : i = 1 := by
    rcases Nat.lt_trichotomy i 1 with h | h | h
    · have h0 : i = 0 := by omega
      subst h0
      exact absurd hget (by decide)
    · exact h
    · exact absurd (by decide) (hleast 1 h)
  simp [hi]

/-- C10: each non-boolean getter takes its value from the argument right
after the index `cmdline_find_option` returns: when that index is `idx`
and `idx + 1` is still inside the vector, `cmdline_get_string` returns the
text of that argument, `cmdline_get_int` its `atoi`, `cmdline_get_double`
its `atof`, `cmdline_get_time` its `string_to_time` and `cmdline_get_list`
its `string_to_array`. When the option is not found, or found at the last
index, each getter returns what it returns for an absent option: the
default it was given (for `cmdline_get_list`, whose default is a text, the
list `string_to_array` makes of the default). -/
theorem cmdline_getters_value_or_default {F L : Type} (atof : CStr → F)
    (string_to_time : CStr → Int) (string_to_array : Option CStr → L)
    (argv : List CStr) (usage_str : Option CStr) (key description : CStr)
    (d_string d_list : Option CStr) (d_int d_time : Int) (d_double : F) :
    ((0 ≤ cmdline_find_option argv (some key) ∧
        cmdline_find_option argv (some key) + 1 < (argv.length : Int)) →
      ∃ arg : CStr, argv[(cmdline_find_option argv (some key) + 1).toNat]? = some arg ∧
        (cmdline_get_string argv usage_str key d_string description).1 = some arg ∧
        (cmdline_get_int argv usage_str key d_int description).1 = atoi arg ∧
        (cmdline_get_double atof argv usage_str key d_double description).1 = atof arg ∧
        (cmdline_get_time string_to_time argv usage_str key d_time description).1
          = string_to_time arg ∧
        (cmdline_get_list string_to_array argv usage_str key d_list description).1
          = string_to_array (some arg)) ∧
    ((cmdline_find_option argv (some key) < 0 ∨
        (argv.length : Int) ≤ cmdline_find_option argv (some key) + 1) →
      (cmdline_get_string argv usage_str key d_string description).1 = d_string ∧
      (cmdline_get_int argv usage_str key d_int description).1 = d_int ∧
      (cmdline_get_double atof argv usage_str key d_double description).1 = d_double ∧
      (cmdline_get_time string_to_time argv usage_str key d_time description).1 = d_time ∧
      (cmdline_get_list string_to_array argv usage_str key d_list description).1
        = string_to_array d_list) := by
  constructor
  · rintro ⟨h0, h1⟩
    have hlt : (cmdline_find_option argv (some key) + 1).toNat < argv.length := by omega
    have hval : cmdline_get_value argv key
        = some (argv[(cmdline_find_option argv (some key) + 1).toNat]) := by
      have h2 : ¬ cmdline_find_option argv (some key) < 0 := by omega
      have h3 : ¬ cmdline_find_option argv (some key) + 1 ≥ (argv.length : Int) := by omega
      simp only [cmdline_get_value, h2, h3, if_false]
      exact List.getElem?_eq_getElem hlt
    refine ⟨argv[(cmdline_find_option argv (some key) + 1).toNat],
      List.getElem?_eq_getElem hlt, ?_, ?_, ?_, ?_, ?_⟩
    · simp [cmdline_get_string, hval]
    · simp [cmdline_get_int, hval]
    · simp [cmdline_get_double, hval]
    · simp [cmdline_get_time, hval]
    · simp [cmdline_get_list, hval]
  · intro h
    have hval : cmdline_get_value argv key = none := by
      rcases h with h | h
      · simp [cmdline_get_value, h]
      · by_cases h2 : cmdline_find_option argv (some key) < 0
        · simp [cmdline_get_value, h2]
        · have h3 : cmdline_find_option argv (some key) + 1 ≥ (argv.length : Int) := h
          simp [cmdline_get_value, h2, h3]
    refine ⟨?_, ?_, ?_, ?_, ?_⟩
    · simp [cmdline_get_string, hval]
    · simp [cmdline_get_int, hval]
    · simp [cmdline_get_double, hval]
    · simp [cmdline_get_time, hval]
    · simp [cmdline_get_list, hval]

/-- C10, at the vector `prog --foo`, where the option is the last argument,
and at the vector `prog --foo 5`. -/
theorem cmdline_getters_value_or_default_witness :
    ((3 : Int) ≤ cmdline_find_option ["prog".toList, "--foo".toList] (some "--foo".toList) + 2 ∧
      (cmdline_get_int ["prog".toList, "--foo".toList] none "--foo".toList 7 []).1 = 7) ∧
    (cmdline_get_string ["prog".toList, "--foo".toList, "5".toList] none "--foo".toList
      none []).1 = some "5".toList := by
  refine ⟨⟨by decide, ?_⟩, ?_⟩
  · exact ((cmdline_getters_value_or_default (fun _ => (0 : Int)) (fun _ => 0)
      (fun o => o) ["prog".toList, "--foo".toList] none "--foo".toList [] none none 7 0 0).2
      (Or.inr (by decide))).2.1
  · obtain ⟨arg, harg, hstr, _⟩ :=
      (cmdline_getters_value_or_default (fun _ => (0 : Int)) (fun _ => 0)
        (fun o => o) ["prog".toList, "--foo".toList, "5".toList] none "--foo".toList []
        none none 7 0 0).1 ⟨by decide, by decide⟩
    have harg2 : arg = "5".toList := by
      have h : ["prog".toList, "--foo".toList, "5".toList][(cmdline_find_option
          ["prog".toList, "--foo".toList, "5".toList] (some "--foo".toList) + 1).toNat]?
          = some "5".toList := by decide
      rw [h] at harg
      exact (Option.some.inj harg).symm
    rw [hstr, harg2]

/-! ## Facts about the string routines -/

theorem c_str_of_no_nul (s : List Char) (hnul : Char.ofNat 0 ∉ s) : c_str s = s := by
  unfold c_str
  rw [List.takeWhile_eq_self_iff]
  intro c hc
  simp only [bne_iff_ne, ne_eq]
  intro e
  exact hnul (e ▸ hc)

theorem chug_all_space (w : CStr) (hw : all_space w) : g_strchug w = [] := by
  unfold g_strchug
  rw [List.dropWhile_eq_nil_iff]
  exact hw

theorem chug_append_left (w x : CStr) (hw : all_space w) :
    g_strchug (w ++ x) = g_strchug x := by
  unfold g_strchug
  exact List.dropWhile_append_of_pos hw

theorem chug_of_head (x : CStr) (hhead : ∀ c, x.head? = some c → g_ascii_isspace c = false) :
    g_strchug x = x := by
  cases x with
  | nil => rfl
  | cons c cs =>
    have h := hhead c rfl
    simp [g_strchug, List.dropWhile, h]

theorem chomp_append_right (x w : CStr) (hw : all_space w) :
    g_strchomp (x ++ w) = g_strchomp x := by
  unfold g_strchomp
  rw [List.reverse_append]
  have hrev : ∀ c ∈ w.reverse, g_ascii_isspace c = true := by
    intro c hc
    exact hw c (List.mem_reverse.1 hc)
  rw [List.dropWhile_append_of_pos hrev]

theorem chomp_of_last (x : CStr) (hlast : ∀ c, x.getLast? = some c → g_ascii_isspace c = false) :
    g_strchomp x = x := by
  unfold g_strchomp
  have hhead : ∀ c, x.reverse.head? = some c → g_ascii_isspace c = false := by
    intro c hc
    apply hlast c
    rw [← hc, List.head?_reverse]
  have h := chug_of_head x.reverse hhead
  unfold g_strchug at h
  rw [h, List.reverse_reverse]

theorem strip_unique (w1 core w2 : CStr) (hw1 : all_space w1) (hw2 : all_space w2)
    (hcore : Trimmed core) : g_strstrip (w1 ++ core ++ w2) = core := by
  unfold g_strstrip
  rw [List.append_assoc, chug_append_left w1 _ hw1]
  cases core with
  | nil =>
    simp only [List.nil_append]
    rw [chug_all_space w2 hw2]
    rfl
  | cons c cs =>
    have hc : g_ascii_isspace c = false := hcore.1 c rfl
    have hchug : g_strchug (c :: cs ++ w2) = c :: cs ++ w2 :=
      chug_of_head _ (by intro d hd; simp at hd; exact hd ▸ hc)
    rw [hchug, chomp_append_right _ _ hw2]
    exact chomp_of_last _ hcore.2

theorem strip_of_trimmed (core : CStr) (hcore : Trimmed core) : g_strstrip core = core := by
  have h := strip_unique [] core [] (by intro c hc; simp at hc) (by intro c hc; simp at hc) hcore
  simpa using h

theorem chomp_spec (x : CStr) :
    ∃ w : CStr, x = g_strchomp x ++ w ∧ all_space w ∧
      ∀ c, (g_strchomp x).getLast? = some c → g_ascii_isspace c = false := by
  refine ⟨(x.reverse.takeWhile g_ascii_isspace).reverse, ?_, ?_, ?_⟩
  · unfold g_strchomp
    rw [← List.reverse_append, List.takeWhile_append_dropWhile, List.reverse_reverse]
  · intro c hc
    have h := List.mem_reverse.1 hc
    exact List.mem_takeWhile_imp h
  · intro c hc
    unfold g_strchomp at hc
    rw [List.getLast?_reverse] at hc
    have h := List.head?_dropWhile_not g_ascii_isspace x.reverse
    rw [hc] at h
    simpa using h

theorem chug_spec (x : CStr) :
    ∃ w : CStr, x = w ++ g_strchug x ∧ all_space w ∧
      ∀ c, (g_strchug x).head? = some c → g_ascii_isspace c = false := by
  refine ⟨x.takeWhile g_ascii_isspace, ?_, ?_, ?_⟩
  · unfold g_strchug
    rw [List.takeWhile_append_dropWhile]
  · intro c hc
    exact List.mem_takeWhile_imp hc
  · intro c hc
    unfold g_strchug at hc
    have h := List.head?_dropWhile_not g_ascii_isspace x
    rw [hc] at h
    simpa using h

theorem strip_spec (x : CStr) :
    ∃ w1 w2 : CStr, x = w1 ++ g_strstrip x ++ w2 ∧ all_space w1 ∧ all_space w2 ∧
      Trimmed (g_strstrip x) := by
  obtain ⟨w1, h1, hw1, hhead⟩ := chug_spec x
  obtain ⟨w2, h2, hw2, hlast⟩ := chomp_spec (g_strchug x)
  refine ⟨w1, w2, ?_, hw1, hw2, ?_, ?_⟩
  · unfold g_strstrip
    rw [List.append_assoc, ← h2, ← h1]
  · intro c hc
    unfold g_strstrip at hc
    cases hs : g_strchomp (g_strchug x) with
    | nil => rw [hs] at hc; simp at hc
    | cons a rest =>
      rw [hs] at hc h2
      apply hhead c
      rw [h2]
      simpa using hc
  · exact hlast

theorem strip_append_right (x w : CStr) (hw : all_space w) :
    g_strstrip (x ++ w) = g_strstrip x := by
  obtain ⟨w1, w2, hx, hw1, hw2, htrim⟩ := strip_spec x
  have hw2w : all_space (w2 ++ w) := by
    intro c hc
    rcases List.mem_append.1 hc with h | h
    · exact hw2 c h
    · exact hw c h
  have h := strip_unique w1 (g_strstrip x) (w2 ++ w) hw1 hw2w htrim
  rw [← List.append_assoc, ← hx] at h
  exact h

theorem strip_append_left (w x : CStr) (hw : all_space w) :
    g_strstrip (w ++ x) = g_strstrip x := by
  unfold g_strstrip
  rw [chug_append_left w x hw]

theorem strip_chomp (x : CStr) : g_strstrip (g_strchomp x) = g_strstrip x := by
  obtain ⟨w, hx, hw, _⟩ := chomp_spec x
  have h := strip_append_right (g_strchomp x) w hw
  rw [← hx] at h
  exact h.symm

theorem strip_all_space (w : CStr) (hw : all_space w) : g_strstrip w = [] := by
  unfold g_strstrip
  rw [chug_all_space w hw]
  rfl

theorem strip_head_last (front x : CStr) (a : Char) (hne : front ≠ [])
    (hhead : ∀ c, front.head? = some c → g_ascii_isspace c = false)
    (ha : g_ascii_isspace a = false) :
    g_strstrip (front ++ a :: x) = front ++ a :: g_strchomp x := by
  obtain ⟨w, hx, hw, hlast⟩ := chomp_spec x
  have htrim : Trimmed (front ++ a :: g_strchomp x) := by
    constructor
    · intro c hc
      cases front with
      | nil => exact absurd rfl hne
      | cons f fs => exact hhead c (by simpa using hc)
    · intro c hc
      cases hs : g_strchomp x with
      | nil =>
        rw [hs, List.getLast?_concat] at hc
        exact (Option.some.inj hc) ▸ ha
      | cons b rest =>
        rw [hs] at hc hlast
        apply hlast c
        rw [List.getLast?_append_of_ne_nil _ (by simp), List.getLast?_cons_cons] at hc
        exact hc
  have h := strip_unique [] (front ++ a :: g_strchomp x) w (by intro c hc; simp at hc) hw htrim
  have hxx : front ++ a :: x = [] ++ (front ++ a :: g_strchomp x) ++ w := by
    simp only [List.nil_append, List.append_assoc, List.cons_append]
    rw [← hx]
  rw [hxx]
  exact h

theorem plain_char_spec (c : Char) (h : plain_char c = true) :
    g_ascii_isspace c = false ∧ isspace c = false ∧ c ≠ '=' ∧ c ≠ dquote ∧ c ≠ '#' ∧
      c ≠ ';' ∧ c ≠ '[' ∧ c ≠ Char.ofNat 0 := by
  simp only [plain_char, isspace, Bool.and_eq_true, Bool.not_eq_true', Bool.or_eq_false_iff,
    beq_eq_false_iff_ne, ne_eq] at h
  simp only [g_ascii_isspace, isspace, Bool.or_eq_false_iff, beq_eq_false_iff_ne, ne_eq]
  tauto

theorem all_space_no_nul (w : CStr) (hw : all_space w) : Char.ofNat 0 ∉ w := by
  intro h
  have := hw _ h
  revert this
  decide

theorem read_lines_from_append (a rest cur : List Char) (ha : '\n' ∉ a) :
    read_lines_from (a ++ '\n' :: rest) cur = (cur ++ a ++ ['\n']) :: read_lines_from rest [] := by
  induction a generalizing cur with
  | nil => simp [read_lines_from]
  | cons c cs ih =>
    simp only [List.mem_cons, not_or] at ha
    have hc : ¬ c = '\n' := fun e => ha.1 e.symm
    rw [List.cons_append, read_lines_from, if_neg hc, ih (cur ++ [c]) ha.2]
    simp

theorem load_ini_line_header (st : ini_state) (s w : CStr)
    (hs : ']' ∉ s) (hnul : Char.ofNat 0 ∉ s) (hw : all_space w) :
    load_ini_line st ('[' :: s ++ ']' :: w) =
      match new_section st.sections s with
      | none => none
      | some sections1 => some { sections := sections1, current_section := some s } := by
  have hline_nul : Char.ofNat 0 ∉ '[' :: s ++ ']' :: w := by
    have hwn := all_space_no_nul w hw
    simp only [List.cons_append, List.mem_cons, List.mem_append, not_or]
    exact ⟨by decide, hnul, by decide, hwn⟩
  have hstrip : g_strstrip ('[' :: s ++ ']' :: w) = '[' :: s ++ [']'] := by
    have htrim : Trimmed ('[' :: s ++ [']']) := by
      constructor
      · intro c hc
        simp only [List.cons_append, List.head?_cons, Option.mem_def, Option.some.injEq] at hc
        subst hc
        decide
      · intro c hc
        rw [List.getLast?_concat] at hc
        exact (Option.some.inj hc) ▸ (by decide)
    have h := strip_unique [] ('[' :: s ++ [']']) w (by intro c hc; simp at hc) hw htrim
    simpa using h
  have hchr : strchr (s ++ [']']) ']' = some (s, [']']) := strchr_append s [] ']' hs
  unfold load_ini_line
  rw [c_str_of_no_nul _ hline_nul, hstrip]
  simp only [List.cons_append, hchr]
  simp

theorem c_str_append_of_no_nul (front back : List Char) (hnul : Char.ofNat 0 ∉ front) :
    c_str (front ++ back) = front ++ c_str back := by
  unfold c_str
  apply List.takeWhile_append_of_pos
  intro c hc
  simp only [bne_iff_ne, ne_eq]
  intro e
  exact hnul (e ▸ hc)

theorem trimmed_of_plain (k : CStr) (hk : ∀ c ∈ k, plain_char c = true) : Trimmed k := by
  constructor
  · intro c hc
    exact (plain_char_spec c (hk c (List.mem_of_mem_head? hc))).1
  · intro c hc
    exact (plain_char_spec c (hk c (List.mem_of_mem_getLast? hc))).1

theorem valid_key_of_plain (k : CStr) (hne : k ≠ []) (hk : ∀ c ∈ k, plain_char c = true) :
    valid_key k := by
  refine ⟨hne, trimmed_of_plain k hk, ?_, ?_, ?_⟩
  · intro c hc
    have h := plain_char_spec c (hk c (List.mem_of_mem_head? hc))
    exact ⟨h.2.2.2.2.2.1, h.2.2.2.2.1, h.2.2.2.2.2.2.1⟩
  · intro hmem
    exact (plain_char_spec _ (hk _ (List.mem_of_mem_tail hmem))).2.2.1 rfl
  · intro hmem
    exact (plain_char_spec _ (hk _ hmem)).2.2.2.2.2.2.2 rfl

/-- A key/value line with a valid key: the line is cut at the `=` after
the key, and what follows is stripped, scanned for quotes and a comment,
stripped again and stored under the current section. -/
theorem load_ini_line_key_value (st : ini_state) (k w r : List Char)
    (hkey : valid_key k) (hw : all_space w) :
    load_ini_line st (k ++ w ++ '=' :: r) =
      match cut_comment (g_strstrip (c_str r)) with
      | none => some st
      | some value1 =>
        match st.current_section with
        | none => some st
        | some current =>
          some { st with sections :=
            (insert_entry st.sections current ⟨k, string_strip_quotes (g_strstrip value1)⟩) } := by
  obtain ⟨hne, htrim, hfirst, htail, hknul⟩ := hkey
  cases k with
  | nil => exact absurd rfl hne
  | cons c k1 =>
    have hc_space : g_ascii_isspace c = false := htrim.1 c rfl
    have hc_first := hfirst c rfl
    have hfront_nul : Char.ofNat 0 ∉ (c :: k1 ++ w) ++ ['='] := by
      have hwn := all_space_no_nul w hw
      intro hmem
      rcases List.mem_append.1 hmem with h | h
      · rcases List.mem_append.1 h with h3 | h3
        · exact hknul h3
        · exact hwn h3
      · exact absurd (List.mem_singleton.1 h) (by decide)
    have hcstr : c_str (c :: k1 ++ w ++ '=' :: r) = (c :: k1 ++ w) ++ '=' :: c_str r := by
      have h := c_str_append_of_no_nul ((c :: k1 ++ w) ++ ['=']) r hfront_nul
      simpa using h
    have hstrip : g_strstrip ((c :: k1 ++ w) ++ '=' :: c_str r)
        = (c :: k1 ++ w) ++ '=' :: g_strchomp (c_str r) :=
      strip_head_last (c :: k1 ++ w) (c_str r) '=' (by simp)
        (by intro d hd; simp at hd; exact hd ▸ hc_space) (by decide)
    have heq : '=' ∉ k1 ++ w := by
      intro hmem
      rcases List.mem_append.1 hmem with h | h
      · exact htail h
      · exact absurd (hw _ h) (by decide)
    have hchr : strchr (k1 ++ w ++ '=' :: g_strchomp (c_str r)) '='
        = some (k1 ++ w, '=' :: g_strchomp (c_str r)) := strchr_append _ _ '=' heq
    have hkey : g_strstrip (c :: (k1 ++ w)) = c :: k1 := by
      have h := strip_unique [] (c :: k1) w (by intro d hd; simp at hd) hw htrim
      simpa using h
    have h1 : ¬ (c = ';' ∨ c = '#') := by
      intro h
      rcases h with h | h
      · exact hc_first.1 h
      · exact hc_first.2.1 h
    have h2 : ¬ c = '[' := hc_first.2.2
    unfold load_ini_line
    rw [hcstr, hstrip]
    simp only [List.cons_append, h1, h2, if_false, List.append_assoc]
    simp only [List.append_assoc] at hchr
    simp only [hchr, List.drop_succ_cons, List.drop_zero, strip_chomp, hkey,
      add_entry_eq_insert_entry]

theorem strpbrk_absent (s accept : CStr) (habsent : ∀ x ∈ s, x ∉ accept) :
    strpbrk s accept = none := by
  have h : (s.any fun x => decide (x ∈ accept)) = false := by
    simp only [List.any_eq_false, decide_eq_true_eq]
    exact habsent
  simp [strpbrk, h]

theorem strpbrk_append (front back accept : CStr) (c : Char)
    (hfront : ∀ x ∈ front, x ∉ accept) (hc : c ∈ accept) :
    strpbrk (front ++ c :: back) accept = some (front, c :: back) := by
  have hall : ∀ x ∈ front, (!decide (x ∈ accept)) = true := by
    intro x hx
    simpa using hfront x hx
  have hany : ((front ++ c :: back).any fun x => decide (x ∈ accept)) = true := by
    simp only [List.any_eq_true, decide_eq_true_eq]
    exact ⟨c, by simp, hc⟩
  simp only [strpbrk, hany, if_true, List.takeWhile_append_of_pos hall,
    List.dropWhile_append_of_pos hall]
  simp [List.takeWhile, List.dropWhile, hc]

theorem cut_comment_plain (v : CStr) (hq : dquote ∉ v) (hh : '#' ∉ v) (hs : ';' ∉ v) :
    cut_comment v = some v := by
  have h1 : strchr v dquote = none := strchr_absent v dquote hq
  have h2 : strpbrk v ['#', ';'] = none := by
    apply strpbrk_absent
    intro x hx hmem
    simp only [List.mem_cons, List.mem_singleton, List.not_mem_nil, or_false] at hmem
    rcases hmem with h | h
    · exact hh (h ▸ hx)
    · exact hs (h ▸ hx)
  simp [cut_comment, h1, h2]

theorem string_strip_quotes_of_head (v : CStr) (hhead : v.head? ≠ some dquote) :
    string_strip_quotes v = v := by
  simp [string_strip_quotes, hhead]

theorem string_strip_quotes_of_no_quote (v : CStr) (hq : dquote ∉ v) :
    string_strip_quotes v = v := by
  apply string_strip_quotes_of_head
  intro h
  exact hq (List.mem_of_mem_head? h)

theorem to_int_of_range (z : Int) (hlow : -2147483648 ≤ z) (hhigh : z ≤ 2147483647) :
    to_int z = z := by
  unfold to_int
  omega

theorem digits_value_eq_foldl (cs : CStr) (acc : Nat) :
    digits_value cs acc =
      (cs.takeWhile isdigit).foldl (fun n c => 10 * n + (c.toNat - '0'.toNat)) acc := by
  induction cs generalizing acc with
  | nil => rfl
  | cons c rest ih =>
    by_cases hd : isdigit c = true
    · simp only [digits_value, hd, if_true, List.takeWhile_cons_of_pos, List.foldl_cons]
      rw [ih, Nat.mul_comm]
    · simp [digits_value, hd, List.takeWhile]

theorem atoi_eq_leading_int (v : CStr) (hhead : ∀ c, v.head? = some c → isspace c = false) :
    atoi v = to_int (leading_int v) := by
  have hdrop : v.dropWhile isspace = v := by
    cases v with
    | nil => rfl
    | cons c cs => simp [List.dropWhile, hhead c rfl]
  simp only [atoi, leading_int, hdrop, digits_value_eq_foldl, decimal_value]
  split
  · rfl
  · split <;> rfl

/-! ## Loading a section with one key (C1) -/

theorem load_ini_line_plain_value (st : ini_state) (current k v : CStr)
    (hcur : st.current_section = some current)
    (hne : k ≠ []) (hk : ∀ c ∈ k, plain_char c = true) (hv : ∀ c ∈ v, plain_char c = true) :
    load_ini_line st (k ++ [' '] ++ '=' :: (' ' :: v ++ ['\n'])) =
      some { st with sections := insert_entry st.sections current ⟨k, v⟩ } := by
  have hvnul : Char.ofNat 0 ∉ ' ' :: v ++ ['\n'] := by
    intro hmem
    simp only [List.cons_append, List.mem_cons, List.mem_append, List.mem_singleton,
      List.not_mem_nil, or_false] at hmem
    rcases hmem with h | h | h
    · exact absurd h (by decide)
    · exact (plain_char_spec _ (hv _ h)).2.2.2.2.2.2.2 rfl
    · exact absurd h (by decide)
  have hstrip : g_strstrip (' ' :: v ++ ['\n']) = v := by
    have h := strip_unique [' '] v ['\n'] (by intro c hc; simp at hc; subst hc; decide)
      (by intro c hc; simp at hc; subst hc; decide) (trimmed_of_plain v hv)
    simpa using h
  have hq : dquote ∉ v := fun h => (plain_char_spec _ (hv _ h)).2.2.2.1 rfl
  have hh : '#' ∉ v := fun h => (plain_char_spec _ (hv _ h)).2.2.2.2.1 rfl
  have hs : ';' ∉ v := fun h => (plain_char_spec _ (hv _ h)).2.2.2.2.2.1 rfl
  rw [load_ini_line_key_value st k [' '] _ (valid_key_of_plain k hne hk)
      (by intro c hc; simp at hc; subst hc; decide),
    c_str_of_no_nul _ hvnul, hstrip, cut_comment_plain v hq hh hs]
  simp only [hcur, strip_of_trimmed v (trimmed_of_plain v hv),
    string_strip_quotes_of_no_quote v hq]

/-- C1, as amended: for a section name `s` free of `]`, of newline and of
NUL, a non-empty key `k` and a value text `v`, both free of whitespace,
`=`, double quote, `#`, `;`, `[` and NUL, loading the stream made of the
header of `s` and the line `k = v` into the empty store returns 0, and
`ini_get_int` of `s`, `k` then returns, for every default, the integer
denoted by the optional sign and decimal digits at the head of `v` (0 when
there is none), provided that integer fits the C `int`. -/
theorem load_then_get_int (s k v : CStr) (d : Int)
    (hs : ']' ∉ s ∧ '\n' ∉ s ∧ Char.ofNat 0 ∉ s)
    (hne : k ≠ []) (hk : ∀ c ∈ k, plain_char c = true) (hv : ∀ c ∈ v, plain_char c = true)
    (hrange : -2147483648 ≤ leading_int v ∧ leading_int v ≤ 2147483647) :
    ∃ store : Store,
      load_ini_file
        (some ("[".toList ++ s ++ "]\n".toList ++ k ++ " = ".toList ++ v ++ "\n".toList)) []
        = some (0, store) ∧
      ini_get_int store s k d = leading_int v := by
  have hnl : ∀ c, plain_char c = true → c ≠ '\n' := by
    intro c hc e
    have h := (plain_char_spec c hc).1
    rw [e] at h
    exact absurd h (by decide)
  have hline1 : '\n' ∉ '[' :: s ++ [']'] := by
    intro hmem
    simp only [List.cons_append, List.mem_cons, List.mem_append, List.mem_singleton,
      List.not_mem_nil, or_false] at hmem
    rcases hmem with h | h | h
    · exact absurd h (by decide)
    · exact hs.2.1 h
    · exact absurd h (by decide)
  have hline2 : '\n' ∉ k ++ [' '] ++ '=' :: ' ' :: v := by
    intro hmem
    simp only [List.mem_append, List.mem_cons, List.mem_singleton, List.not_mem_nil,
      or_false] at hmem
    rcases hmem with (h | h) | h | h | h
    · exact hnl _ (hk _ h) rfl
    · exact absurd h (by decide)
    · exact absurd h (by decide)
    · exact absurd h (by decide)
    · exact hnl _ (hv _ h) rfl
  have hstream : "[".toList ++ s ++ "]\n".toList ++ k ++ " = ".toList ++ v ++ "\n".toList
      = ('[' :: s ++ [']']) ++ '\n' :: ((k ++ [' '] ++ '=' :: ' ' :: v) ++ '\n' :: []) := by
    simp [String.toList]
  have hlines : read_lines
      (('[' :: s ++ [']']) ++ '\n' :: ((k ++ [' '] ++ '=' :: ' ' :: v) ++ '\n' :: []))
      = [('[' :: s ++ ']' :: ['\n']), k ++ [' '] ++ '=' :: (' ' :: v ++ ['\n'])] := by
    unfold read_lines
    rw [read_lines_from_append _ _ _ hline1, read_lines_from_append _ _ _ hline2]
    simp [read_lines_from]
  have hhead := load_ini_line_header { sections := [], current_section := none } s ['\n']
    hs.1 hs.2.2 (by intro c hc; simp at hc; subst hc; decide)
  have hnew : new_section [] s = some [{ name := s, entries := [] }] := by
    simp [new_section]
  rw [hnew] at hhead
  have hkv := load_ini_line_plain_value
    { sections := [{ name := s, entries := [] }], current_section := some s } s k v rfl
    hne hk hv
  refine ⟨[{ name := s, entries := [⟨k, v⟩] }], ?_, ?_⟩
  · rw [hstream]
    simp only [load_ini_file, hlines, load_ini_lines, hhead, hkv]
    simp [insert_entry]
  · have hget : get_value [{ name := s, entries := [⟨k, v⟩] }] s k = some v := by
      simp [get_value, get_section, STR_EQ]
    have hhead2 : ∀ c, v.head? = some c → isspace c = false := by
      intro c hc
      exact (plain_char_spec c (hv c (List.mem_of_mem_head? hc))).2.1
    simp only [ini_get_int, hget]
    rw [atoi_eq_leading_int v hhead2, to_int_of_range _ hrange.1 hrange.2]

/-- C1, at the stream of `[foo]` and `bar = 1`: the lookup of `bar` in
`foo` gives 1. -/
theorem load_then_get_int_witness :
    ((']' ∉ "foo".toList ∧ '\n' ∉ "foo".toList ∧ Char.ofNat 0 ∉ "foo".toList) ∧
      "bar".toList ≠ [] ∧ (∀ c ∈ "bar".toList, plain_char c = true) ∧
      (∀ c ∈ "1".toList, plain_char c = true) ∧
      (-2147483648 ≤ leading_int "1".toList ∧ leading_int "1".toList ≤ 2147483647)) ∧
    ∃ store : Store,
      load_ini_file (some "[foo]\nbar = 1\n".toList) [] = some (0, store) ∧
      ini_get_int store "foo".toList "bar".toList 0 = 1 :=
  ⟨⟨by decide, by decide, by decide, by decide, by decide⟩,
   load_then_get_int "foo".toList "bar".toList "1".toList 0
     (by decide) (by decide) (by decide) (by decide) (by decide)⟩

/-- C1 as stated fails for a section name that holds a `]`: the header
`[a]b]` declares the section `a`, so the key stored by the next line is
not found under the name `a]b` and the default comes back, not the 1 that
the value denotes. -/
theorem load_then_get_int_counterexample :
    load_ini_file (some "[a]b]\nk = 1\n".toList) [] =
      some (0, [⟨"a".toList, [⟨"k".toList, "1".toList⟩]⟩]) ∧
    ini_get_int [⟨"a".toList, [⟨"k".toList, "1".toList⟩]⟩] "a]b".toList "k".toList 0 = 0 ∧
    leading_int "1".toList = 1 := by
  decide

/-! ## Quoted values and comments (C4, C5) -/

theorem strip_front_chomp (front x : CStr) (hne : front ≠ [])
    (hhead : ∀ c, front.head? = some c → g_ascii_isspace c = false)
    (hlast : ∀ c, front.getLast? = some c → g_ascii_isspace c = false) :
    g_strstrip (front ++ x) = front ++ g_strchomp x := by
  have hsplit : front = front.dropLast ++ [front.getLast hne] :=
    (List.dropLast_append_getLast hne).symm
  have hl : g_ascii_isspace (front.getLast hne) = false :=
    hlast _ (List.getLast?_eq_getLast front hne)
  cases hd : front.dropLast with
  | nil =>
    rw [hd] at hsplit
    obtain ⟨w, hx, hw, hxl⟩ := chomp_spec x
    have htrim : Trimmed (front ++ g_strchomp x) := by
      constructor
      · intro c hc
        cases front with
        | nil => exact absurd rfl hne
        | cons f fs => exact hhead c (by simpa using hc)
      · intro c hc
        cases hs : g_strchomp x with
        | nil =>
          rw [hs, List.append_nil] at hc
          exact hlast c hc
        | cons b rest =>
          rw [hs] at hc hxl
          rw [List.getLast?_append_of_ne_nil _ (by simp)] at hc
          exact hxl c hc
    have h := strip_unique [] (front ++ g_strchomp x) w (by intro c hc; simp at hc) hw htrim
    have hxx : front ++ x = [] ++ (front ++ g_strchomp x) ++ w := by
      simp only [List.nil_append, List.append_assoc]
      rw [← hx]
    rw [hxx]
    exact h
  | cons f fs =>
    have hne2 : front.dropLast ≠ [] := by rw [hd]; simp
    have hhead2 : ∀ c, front.dropLast.head? = some c → g_ascii_isspace c = false := by
      intro c hc
      apply hhead c
      rw [hsplit, hd]
      rw [hd] at hc
      simpa using hc
    have h := strip_head_last front.dropLast x (front.getLast hne) hne2 hhead2 hl
    have e1 : front ++ x = front.dropLast ++ front.getLast hne :: x := by
      conv_lhs => rw [hsplit]
      simp
    have e2 : front ++ g_strchomp x = front.dropLast ++ front.getLast hne :: g_strchomp x := by
      conv_lhs => rw [hsplit]
      simp
    rw [e1, e2]
    exact h

theorem mem_of_mem_chomp (x : CStr) (c : Char) (hc : c ∈ g_strchomp x) : c ∈ x := by
  obtain ⟨w, hx, _, _⟩ := chomp_spec x
  rw [hx]
  exact List.mem_append_left _ hc

theorem mem_of_mem_strip (x : CStr) (c : Char) (hc : c ∈ g_strstrip x) : c ∈ x := by
  obtain ⟨w1, w2, hx, _, _, _⟩ := strip_spec x
  rw [hx]
  exact List.mem_append_left _ (List.mem_append_right _ hc)

theorem cut_comment_quoted (t : CStr) (hq : dquote ∉ t) :
    cut_comment (dquote :: t ++ [dquote]) = some (dquote :: t ++ [dquote]) := by
  have h1 : strchr (dquote :: t ++ [dquote]) dquote = some ([], dquote :: (t ++ [dquote])) := by
    have h := strchr_append [] (t ++ [dquote]) dquote (by simp)
    simpa using h
  have h2 : strchr (t ++ [dquote]) dquote = some (t, [dquote]) := strchr_append t [] dquote hq
  have h3 : strpbrk [dquote] ['#', ';'] = none := by decide
  simp only [cut_comment, h1, List.drop_succ_cons, List.drop_zero, h2, h3]

theorem string_strip_quotes_quoted (t : CStr) :
    string_strip_quotes (dquote :: t ++ [dquote]) = t := by
  have h1 : (dquote :: t ++ [dquote]).head? = some dquote := rfl
  have h2 : (dquote :: t ++ [dquote]).getLast? = some dquote := List.getLast?_concat _
  have h3 : ((dquote :: t ++ [dquote]).drop 1).dropLast = t := by
    simp [List.dropLast_concat]
  simp only [string_strip_quotes, h1, h2, and_self, if_true, h3]

/-- C4: for a text `t` without double quote, newline or NUL (it may hold
`#` and `;`) and a valid key `k`, the line `k = "t"`, with or without its
newline, read while a section is current, is accepted: the loop body goes
on with the store that `add_entry` of the current section, `k` and the
quoted text gives, and in that store the entries of the current section
are the former ones followed by the entry of key `k` and value exactly
`t`. Neither `#` nor `;` inside the quotes starts a comment, and the one
layer of quotes is removed. -/
theorem quoted_value_stored_verbatim (st : ini_state) (current k t eol : CStr)
    (hcur : st.current_section = some current) (hk : valid_key k)
    (ht : dquote ∉ t ∧ '\n' ∉ t ∧ Char.ofNat 0 ∉ t)
    (heol : eol = [] ∨ eol = ['\n']) :
    ∃ sections1 : Store,
      load_ini_line st (k ++ " = ".toList ++ [dquote] ++ t ++ [dquote] ++ eol)
        = some { sections := sections1, current_section := some current } ∧
      add_entry st.sections current k (dquote :: t ++ [dquote]) = some sections1 ∧
      entries_of sections1 current = entries_of st.sections current ++ [⟨k, t⟩] := by
  have hline : k ++ " = ".toList ++ [dquote] ++ t ++ [dquote] ++ eol
      = k ++ [' '] ++ '=' :: (' ' :: (dquote :: t ++ [dquote]) ++ eol) := by
    simp [String.toList]
  have heol_space : all_space eol := by
    rcases heol with h | h <;> subst h
    · intro c hc; simp at hc
    · intro c hc; simp at hc; subst hc; decide
  have hnul : Char.ofNat 0 ∉ ' ' :: (dquote :: t ++ [dquote]) ++ eol := by
    intro hmem
    simp only [List.cons_append, List.mem_cons, List.mem_append, List.mem_singleton,
      List.not_mem_nil, or_false] at hmem
    rcases hmem with h | h | (h | h) | h
    · exact absurd h (by decide)
    · exact absurd h (by decide)
    · exact ht.2.2 h
    · exact absurd h (by decide)
    · exact all_space_no_nul eol heol_space h
  have htrim : Trimmed (dquote :: t ++ [dquote]) := by
    constructor
    · intro c hc
      simp only [List.cons_append, List.head?_cons, Option.mem_def, Option.some.injEq] at hc
      exact hc ▸ (by decide)
    · intro c hc
      rw [List.getLast?_concat] at hc
      exact (Option.some.inj hc) ▸ (by decide)
  have hstrip : g_strstrip (' ' :: (dquote :: t ++ [dquote]) ++ eol) = dquote :: t ++ [dquote] := by
    have h := strip_unique [' '] (dquote :: t ++ [dquote]) eol
      (by intro c hc; simp at hc; subst hc; decide) heol_space htrim
    simpa using h
  refine ⟨insert_entry st.sections current ⟨k, t⟩, ?_, ?_, ?_⟩
  · rw [hline, load_ini_line_key_value st k [' '] _ hk
        (by intro c hc; simp at hc; subst hc; decide),
      c_str_of_no_nul _ hnul, hstrip, cut_comment_quoted t ht.1]
    simp only [hcur, strip_of_trimmed _ htrim, string_strip_quotes_quoted]
  · rw [add_entry_eq_insert_entry, string_strip_quotes_quoted]
  · exact entries_of_insert_entry_same _ _ _

/-- C4, at the line that assigns the quoted text `he said #hi` to `baz`,
read into the section `s`. -/
theorem quoted_value_stored_verbatim_witness :
    ∃ sections1 : Store,
      load_ini_line ⟨[⟨"s".toList, []⟩], some "s".toList⟩
        ("baz = ".toList ++ [dquote] ++ "he said #hi".toList ++ [dquote] ++ ['\n'])
        = some { sections := sections1, current_section := some "s".toList } ∧
      add_entry [⟨"s".toList, []⟩] "s".toList "baz".toList
        (dquote :: "he said #hi".toList ++ [dquote]) = some sections1 ∧
      entries_of sections1 "s".toList = [] ++ [⟨"baz".toList, "he said #hi".toList⟩] :=
  quoted_value_stored_verbatim ⟨[⟨"s".toList, []⟩], some "s".toList⟩ "s".toList "baz".toList
    "he said #hi".toList ['\n'] rfl (by decide) (by decide) (Or.inr rfl)

theorem cut_comment_bare (front back : CStr) (sep : Char)
    (hsep : sep = '#' ∨ sep = ';')
    (hfront : dquote ∉ front ∧ '#' ∉ front ∧ ';' ∉ front) (hback : dquote ∉ back) :
    cut_comment (front ++ sep :: back) = some front := by
  have hsepq : sep ≠ dquote := by
    rcases hsep with h | h <;> subst h <;> decide
  have h1 : strchr (front ++ sep :: back) dquote = none := by
    apply strchr_absent
    intro hmem
    simp only [List.mem_append, List.mem_cons] at hmem
    rcases hmem with h | h | h
    · exact hfront.1 h
    · exact hsepq h.symm
    · exact hback h
  have h2 : strpbrk (front ++ sep :: back) ['#', ';'] = some (front, sep :: back) := by
    apply strpbrk_append
    · intro x hx hmem
      simp only [List.mem_cons, List.mem_singleton, List.not_mem_nil, or_false] at hmem
      rcases hmem with h | h
      · exact hfront.2.1 (h ▸ hx)
      · exact hfront.2.2 (h ▸ hx)
    · rcases hsep with h | h <;> subst h <;> simp
  simp only [cut_comment, h1, h2]

/-- C5, as amended: for a bare value text `t` (no double quote, `#`, `;`
or NUL), a comment text `c` that holds no double quote (and no NUL) and a
valid key `k`, the line `k = t # c` (or with `;` for `#`), with or without
its newline, read while a section is current, is accepted: the loop body
goes on with the store in which the entries of the current section are the
former ones followed by the entry of key `k` whose value is `t` with the
surrounding whitespace stripped. -/
theorem comment_cut_after_bare_value (st : ini_state) (current k t c eol : CStr) (sep : Char)
    (hcur : st.current_section = some current) (hk : valid_key k)
    (ht : dquote ∉ t ∧ '#' ∉ t ∧ ';' ∉ t ∧ Char.ofNat 0 ∉ t)
    (hc : dquote ∉ c ∧ Char.ofNat 0 ∉ c)
    (hsep : sep = '#' ∨ sep = ';')
    (heol : eol = [] ∨ eol = ['\n']) :
    ∃ sections1 : Store,
      load_ini_line st (k ++ " = ".toList ++ t ++ [' ', sep, ' '] ++ c ++ eol)
        = some { sections := sections1, current_section := some current } ∧
      entries_of sections1 current
        = entries_of st.sections current ++ [⟨k, g_strstrip t⟩] := by
  have hline : k ++ " = ".toList ++ t ++ [' ', sep, ' '] ++ c ++ eol
      = k ++ [' '] ++ '=' :: (' ' :: t ++ ' ' :: sep :: (' ' :: c ++ eol)) := by
    simp [String.toList]
  have hsep_space : g_ascii_isspace sep = false := by
    rcases hsep with h | h <;> subst h <;> decide
  have hsep_nul : sep ≠ Char.ofNat 0 := by
    rcases hsep with h | h <;> subst h <;> decide
  have hsepq : sep ≠ dquote := by
    rcases hsep with h | h <;> subst h <;> decide
  have heol_q : dquote ∉ eol := by
    rcases heol with h | h <;> subst h <;> decide
  have heol_nul : Char.ofNat 0 ∉ eol := by
    rcases heol with h | h <;> subst h <;> decide
  have hnul : Char.ofNat 0 ∉ ' ' :: t ++ ' ' :: sep :: (' ' :: c ++ eol) := by
    intro hmem
    simp only [List.cons_append, List.mem_cons, List.mem_append] at hmem
    rcases hmem with h | h | h | h | h | h | h
    · exact absurd h (by decide)
    · exact ht.2.2.2 h
    · exact absurd h (by decide)
    · exact hsep_nul h.symm
    · exact absurd h (by decide)
    · exact hc.2 h
    · exact heol_nul h
  have htail_q : dquote ∉ g_strchomp (' ' :: c ++ eol) := by
    intro hmem
    have h := mem_of_mem_chomp _ _ hmem
    simp only [List.cons_append, List.mem_cons, List.mem_append] at h
    rcases h with h | h | h
    · exact absurd h (by decide)
    · exact hc.1 h
    · exact heol_q h
  obtain ⟨w1, w2, hdecomp, hw1, hw2, htrim⟩ := strip_spec t
  have hcore_sub : ∀ x ∈ g_strstrip t, x ∈ t := fun x hx => mem_of_mem_strip t x hx
  have hw2_sub : ∀ x ∈ w2, x ∈ t := by
    intro x hx
    rw [hdecomp]
    exact List.mem_append_right _ hx
  have hsp1 : all_space (' ' :: w1) := by
    intro x hx
    simp only [List.mem_cons] at hx
    rcases hx with h | h
    · subst h; decide
    · exact hw1 x h
  -- the stripped raw value, the kept part `front` and the cut tail
  have hvalue : ∃ front : CStr,
      g_strstrip (' ' :: t ++ ' ' :: sep :: (' ' :: c ++ eol))
        = front ++ sep :: g_strchomp (' ' :: c ++ eol) ∧
      (dquote ∉ front ∧ '#' ∉ front ∧ ';' ∉ front) ∧
      g_strstrip front = g_strstrip t := by
    cases hcore : g_strstrip t with
    | nil =>
      rw [hcore] at hdecomp
      refine ⟨[], ?_, by simp, ?_⟩
      · have hsp : all_space (' ' :: t ++ [' ']) := by
          intro x hx
          simp only [List.cons_append, List.mem_cons, List.mem_append, List.mem_singleton,
            List.not_mem_nil, or_false] at hx
          rcases hx with h | h | h
          · subst h; decide
          · rw [hdecomp] at h
            simp only [List.append_nil, List.mem_append] at h
            rcases h with h | h
            · exact hw1 x h
            · exact hw2 x h
          · subst h; decide
        have e : ' ' :: t ++ ' ' :: sep :: (' ' :: c ++ eol)
            = (' ' :: t ++ [' ']) ++ ([sep] ++ (' ' :: c ++ eol)) := by simp
        rw [e, strip_append_left _ _ hsp,
          strip_front_chomp [sep] _ (by simp)
            (by intro x hx; simp at hx; exact hx ▸ hsep_space)
            (by intro x hx; simp at hx; exact hx ▸ hsep_space)]
        simp
      · exact strip_all_space [] (by intro x hx; simp at hx)
    | cons a rest =>
      rw [hcore] at hdecomp htrim hcore_sub
      have hfront_space : all_space (w2 ++ [' ']) := by
        intro x hx
        rcases List.mem_append.1 hx with h | h
        · exact hw2 x h
        · simp at h; subst h; decide
      refine ⟨(a :: rest) ++ (w2 ++ [' ']), ?_, ?_, ?_⟩
      · have e : ' ' :: t ++ ' ' :: sep :: (' ' :: c ++ eol)
            = (' ' :: w1) ++ (((a :: rest) ++ (w2 ++ [' ']) ++ [sep]) ++ (' ' :: c ++ eol)) := by
          conv_lhs => rw [hdecomp]
          simp
        rw [e, strip_append_left _ _ hsp1,
          strip_front_chomp ((a :: rest) ++ (w2 ++ [' ']) ++ [sep]) _ (by simp)
            (by intro x hx; simp at hx; exact htrim.1 x (by simp [hx]))
            (by intro x hx; rw [List.getLast?_concat] at hx
                exact (Option.some.inj hx) ▸ hsep_space)]
        simp
      · have hmem : ∀ x ∈ (a :: rest) ++ (w2 ++ [' ']), x ∈ t ∨ x = ' ' := by
          intro x hx
          rcases List.mem_append.1 hx with h | h
          · exact Or.inl (hcore_sub x h)
          · rcases List.mem_append.1 h with h2 | h2
            · exact Or.inl (hw2_sub x h2)
            · exact Or.inr (by simpa using h2)
        refine ⟨?_, ?_, ?_⟩
        · intro h
          rcases hmem _ h with h2 | h2
          · exact ht.1 h2
          · exact absurd h2 (by decide)
        · intro h
          rcases hmem _ h with h2 | h2
          · exact ht.2.1 h2
          · exact absurd h2 (by decide)
        · intro h
          rcases hmem _ h with h2 | h2
          · exact ht.2.2.1 h2
          · exact absurd h2 (by decide)
      · have h := strip_unique [] (a :: rest) (w2 ++ [' ']) (by intro x hx; simp at hx)
          hfront_space htrim
        simpa using h
  obtain ⟨front, hstrip, hfront, hfront_strip⟩ := hvalue
  have hnoq : dquote ∉ g_strstrip t := fun h => ht.1 (hcore_sub _ h)
  refine ⟨insert_entry st.sections current ⟨k, g_strstrip t⟩, ?_,
    entries_of_insert_entry_same _ _ _⟩
  rw [hline, load_ini_line_key_value st k [' '] _ hk
      (by intro x hx; simp at hx; subst hx; decide),
    c_str_of_no_nul _ hnul, hstrip, cut_comment_bare front _ sep hsep hfront htail_q]
  simp only [hcur, hfront_strip, string_strip_quotes_of_no_quote _ hnoq]

/-- C5, at the line `baz = hello # comment` read into the section `s`: the
stored value is `hello`. -/
theorem comment_cut_after_bare_value_witness :
    ∃ sections1 : Store,
      load_ini_line ⟨[⟨"s".toList, []⟩], some "s".toList⟩
          ("baz = ".toList ++ "hello".toList ++ [' ', '#', ' '] ++ "comment".toList ++ ['\n'])
        = some { sections := sections1, current_section := some "s".toList } ∧
      entries_of sections1 "s".toList = [] ++ [⟨"baz".toList, g_strstrip "hello".toList⟩] :=
  comment_cut_after_bare_value ⟨[⟨"s".toList, []⟩], some "s".toList⟩ "s".toList "baz".toList
    "hello".toList "comment".toList ['\n'] '#' rfl (by decide) (by decide)
    (by decide) (Or.inl rfl) (Or.inr rfl)

/-- C5 as stated fails when the comment holds a double quote. With the
comment text made of `x` between two double quotes, the line
`k = hello # c` stores the whole of `hello # c`, not `hello`: the quote
scan runs over the raw value, finds the quoted region inside the comment,
and the `#` before it no longer cuts. With a comment that holds a single
double quote the same line is rejected and nothing is stored. -/
theorem comment_cut_after_bare_value_counterexample :
    load_ini_file (some ("[s]\nk = hello # ".toList ++ [dquote, 'x', dquote, '\n'])) [] =
      some (0, [⟨"s".toList, [⟨"k".toList, "hello # ".toList ++ [dquote, 'x', dquote]⟩]⟩]) ∧
    g_strstrip "hello".toList = "hello".toList ∧
    "hello # ".toList ++ [dquote, 'x', dquote] ≠ "hello".toList ∧
    load_ini_file (some ("[s]\nk = hello # ".toList ++ [dquote, 'x', '\n'])) [] =
      some (0, [⟨"s".toList, []⟩]) := by
  decide

/-! ## The fatal exit of the parser (C6) -/

theorem new_section_eq (sections : Store) (name : CStr) :
    new_section sections name =
      if name ∈ sections.map (fun s => s.name) then none
      else some (sections ++ [{ name := name, entries := [] }]) := by
  unfold new_section
  by_cases h : name ∈ sections.map (fun s => s.name)
  · have hany : (sections.any fun s => STR_EQ name s.name) = true := by
      simp only [List.any_eq_true, STR_EQ_iff]
      simp only [List.mem_map] at h
      obtain ⟨x, hx, hn⟩ := h
      exact ⟨x, hx, hn.symm⟩
    simp [hany, h]
  · have hany : (sections.any fun s => STR_EQ name s.name) = false := by
      simp only [List.any_eq_false, STR_EQ_iff]
      intro x hx hn
      exact h (List.mem_map.2 ⟨x, hx, hn.symm⟩)
    simp [hany, h]

/-- One line: a header line dies exactly when its name is already in the
store and otherwise appends the section and makes it current; every other
line goes on with the same section names and the same current section. -/
theorem load_ini_line_step (sections : Store) (cur : Option CStr) (line : List Char)
    (hinv : ∀ name, cur = some name → name ∈ sections.map (fun s => s.name)) :
    (∀ name, header_name line = some name →
      load_ini_line ⟨sections, cur⟩ line =
        if name ∈ sections.map (fun s => s.name) then none
        else some ⟨sections ++ [⟨name, []⟩], some name⟩) ∧
    (header_name line = none →
      ∃ sections1 : Store,
        load_ini_line ⟨sections, cur⟩ line = some ⟨sections1, cur⟩ ∧
        sections1.map (fun s => s.name) = sections.map (fun s => s.name)) := by
  unfold load_ini_line header_name
  cases hstrip : g_strstrip (c_str line) with
  | nil =>
    refine ⟨by intro name h; simp at h, fun _ => ⟨sections, rfl, rfl⟩⟩
  | cons c rest =>
    by_cases hcomment : c = ';' ∨ c = '#'
    · have hc : ¬ c = '[' := by
        rcases hcomment with h | h <;> subst h <;> decide
      refine ⟨by intro name h; simp [hc] at h, fun _ => ⟨sections, ?_, rfl⟩⟩
      simp [hcomment]
    · by_cases hc : c = '['
      · by_cases hclose : ']' ∈ rest
        · constructor
          · intro name hname
            simp only [hc, hclose, and_self, if_true, Option.some.injEq] at hname
            subst hname
            have hcomment2 : ¬ ('[' = ';' ∨ '[' = '#') := by decide
            simp only [hc, hcomment2, if_false, if_true, strchr, hclose, new_section_eq]
            by_cases hmem : rest.takeWhile (fun x => x != ']') ∈ sections.map (fun s => s.name)
            · simp only [hmem, if_true]
            · simp only [hmem, if_false]
          · intro h
            simp [hc, hclose] at h
        · refine ⟨by intro name h; simp [hclose] at h, fun _ => ⟨sections, ?_, rfl⟩⟩
          simp [hcomment, hc, strchr, hclose]
      · refine ⟨by intro name h; simp [hc] at h, fun _ => ?_⟩
        simp only [hcomment, hc, if_false]
        cases strchr rest '=' with
        | none => exact ⟨sections, rfl, rfl⟩
        | some p =>
          obtain ⟨before, equal⟩ := p
          simp only
          cases cut_comment (g_strstrip (equal.drop 1)) with
          | none => exact ⟨sections, rfl, rfl⟩
          | some value1 =>
            simp only
            cases cur with
            | none => exact ⟨sections, rfl, rfl⟩
            | some current =>
              simp only [add_entry_eq_insert_entry]
              exact ⟨_, rfl, names_insert_entry_of_mem _ _ _ (hinv current rfl)⟩

theorem load_ini_lines_fatal_iff (lines : List (List Char)) (sections : Store)
    (cur : Option CStr)
    (hinv : ∀ name, cur = some name → name ∈ sections.map (fun s => s.name))
    (hnodup : (sections.map (fun s => s.name)).Nodup) :
    load_ini_lines ⟨sections, cur⟩ lines = none ↔
      ¬ (sections.map (fun s => s.name) ++ lines.filterMap header_name).Nodup := by
  induction lines generalizing sections cur with
  | nil => simp [load_ini_lines, hnodup]
  | cons line rest ih =>
    obtain ⟨hheader, hother⟩ := load_ini_line_step sections cur line hinv
    cases hname : header_name line with
    | none =>
      obtain ⟨sections1, hstep, hnames⟩ := hother hname
      have h := ih sections1 cur (by rw [hnames]; exact hinv) (by rw [hnames]; exact hnodup)
      simp only [load_ini_lines, hstep, List.filterMap_cons, hname]
      rw [h, hnames]
    | some name =>
      have hstep := hheader name hname
      by_cases hmem : name ∈ sections.map (fun s => s.name)
      · simp only [hmem, if_true] at hstep
        simp only [load_ini_lines, hstep, List.filterMap_cons, hname, true_iff]
        intro hnd
        rw [List.nodup_append] at hnd
        exact hnd.2.2 hmem (by simp)
      · simp only [hmem, if_false] at hstep
        have hnodup1 :
            ((sections ++ [(⟨name, []⟩ : Section)]).map (fun s => s.name)).Nodup := by
          simp only [List.map_append, List.map_cons, List.map_nil]
          rw [List.nodup_append]
          refine ⟨hnodup, by simp, ?_⟩
          intro x hx hx2
          simp only [List.mem_singleton] at hx2
          exact hmem (hx2 ▸ hx)
        have h := ih (sections ++ [⟨name, []⟩]) (some name)
          (by intro n hn; simp only [Option.some.injEq] at hn; subst hn; simp)
          hnodup1
        simp only [load_ini_lines, hstep, List.filterMap_cons, hname]
        rw [h]
        simp only [List.map_append, List.map_cons, List.map_nil, List.append_assoc,
          List.singleton_append]

theorem not_nodup_filterMap_iff {α β : Type} (f : α → Option β) (l : List α) :
    ¬ (l.filterMap f).Nodup ↔
      ∃ (i j : Nat) (b : β), i < j ∧ (l[i]?).bind f = some b ∧ (l[j]?).bind f = some b := by
  induction l with
  | nil => simp
  | cons a rest ih =>
    cases ha : f a with
    | none =>
      simp only [List.filterMap_cons, ha]
      rw [ih]
      constructor
      · rintro ⟨i, j, b, hij, hi, hj⟩
        exact ⟨i + 1, j + 1, b, by omega, by simpa using hi, by simpa using hj⟩
      · rintro ⟨i, j, b, hij, hi, hj⟩
        cases i with
        | zero => simp [ha] at hi
        | succ i1 =>
          cases j with
          | zero => omega
          | succ j1 => exact ⟨i1, j1, b, by omega, by simpa using hi, by simpa using hj⟩
    | some m =>
      simp only [List.filterMap_cons, ha, List.nodup_cons, not_and_or, not_not]
      constructor
      · rintro (hmem | hdup)
        · obtain ⟨x, hx, hfx⟩ := List.mem_filterMap.1 hmem
          obtain ⟨j, hj⟩ := List.getElem?_of_mem hx
          exact ⟨0, j + 1, m, by omega, by simp [ha], by simp [hj, hfx]⟩
        · obtain ⟨i, j, b, hij, hi, hj⟩ := ih.1 hdup
          exact ⟨i + 1, j + 1, b, by omega, by simpa using hi, by simpa using hj⟩
      · rintro ⟨i, j, b, hij, hi, hj⟩
        cases j with
        | zero => omega
        | succ j1 =>
          cases i with
          | zero =>
            left
            simp only [List.getElem?_cons_zero, Option.some_bind, ha, Option.some.injEq] at hi
            subst hi
            simp only [List.getElem?_cons_succ] at hj
            cases hget : rest[j1]? with
            | none => simp [hget] at hj
            | some x =>
              rw [hget] at hj
              exact List.mem_filterMap.2 ⟨x, List.getElem?_mem hget, by simpa using hj⟩
          | succ i1 =>
            right
            exact ih.2 ⟨i1, j1, b, by omega, by simpa using hi, by simpa using hj⟩

/-- C6: starting from the empty store, `load_ini_file` on a stream ends
the process if and only if two lines of the stream are header lines (the
stripped line begins with `[` and holds a `]` after it) that enclose the
same name between the `[` and the first `]`. In every other case, whatever
malformed lines the stream holds, it returns 0. The header `[x]` twice is
fatal; a stream with a header that lacks its `]`, a line without `=`, a
key/value line before any header and a value whose quote never closes
returns 0 and stores none of them. -/
theorem load_ini_file_fatal_iff_duplicate_header (text : List Char) :
    (load_ini_file (some text) [] = none ↔
      ∃ (i j : Nat) (name : CStr), i < j ∧
        ((read_lines text)[i]?).bind header_name = some name ∧
        ((read_lines text)[j]?).bind header_name = some name) ∧
    ((¬ ∃ (i j : Nat) (name : CStr), i < j ∧
        ((read_lines text)[i]?).bind header_name = some name ∧
        ((read_lines text)[j]?).bind header_name = some name) →
      ∃ store : Store, load_ini_file (some text) [] = some (0, store)) ∧
    load_ini_file (some "[x]\n[x]\n".toList) [] = none ∧
    load_ini_file
      (some ("[x\nfoo\nk = 1\n[s]\nq = ".toList ++ [dquote] ++ "v\n".toList)) []
      = some (0, [⟨"s".toList, []⟩]) := by
  have hiff := load_ini_lines_fatal_iff (read_lines text) [] none
    (by intro name h; simp at h) (by simp)
  simp only [List.map_nil, List.nil_append] at hiff
  rw [not_nodup_filterMap_iff] at hiff
  refine ⟨?_, ?_, by decide, by decide⟩
  · cases hres : load_ini_lines ⟨[], none⟩ (read_lines text) with
    | none =>
      have hfile : load_ini_file (some text) [] = none := by
        simp only [load_ini_file, hres]
      exact ⟨fun _ => hiff.1 hres, fun _ => hfile⟩
    | some st =>
      have hfile : load_ini_file (some text) [] = some (0, st.sections) := by
        simp only [load_ini_file, hres]
      refine ⟨fun h => ?_, fun h => ?_⟩
      · rw [hfile] at h
        exact absurd h (by simp)
      · have h2 := hiff.2 h
        rw [hres] at h2
        exact absurd h2 (by simp)
  · intro hno
    cases hres : load_ini_lines ⟨[], none⟩ (read_lines text) with
    | none => exact absurd (hiff.1 hres) hno
    | some st => exact ⟨st.sections, by simp only [load_ini_file, hres]⟩

/-! ## The boolean getter (C11) -/

theorem find_argument_first (argv : List CStr) (key : CStr) (i : Nat)
    (hfind : find_argument argv key = some i) :
    argv[i]? = some key ∧ ∀ j : Nat, j < i → argv[j]? ≠ some key := by
  have hmem : key ∈ argv := by
    by_contra h
    rw [find_argument_none argv key h] at hfind
    exact absurd hfind (by simp)
  obtain ⟨i0, h0, hget, hleast⟩ := find_argument_least argv key hmem
  rw [h0] at hfind
  have e : i0 = i := Option.some.inj hfind
  subst e
  exact ⟨hget, hleast⟩

theorem find_argument_pos (argv : List CStr) (key : CStr)
    (hhead : argv.head? ≠ some key) (hmem : key ∈ argv) :
    ∃ i : Nat, find_argument argv key = some i ∧ 0 < i := by
  obtain ⟨i, hfind, hget, _⟩ := find_argument_least argv key hmem
  refine ⟨i, hfind, ?_⟩
  cases i with
  | zero =>
    exfalso
    apply hhead
    cases argv with
    | nil => simp at hmem
    | cons x rest => simpa using hget
  | succ j => omega

theorem find_argument_zero_or_none (argv : List CStr) (key : CStr)
    (hlater : ∀ i : Nat, 1 ≤ i → argv[i]? ≠ some key) :
    find_argument argv key = some 0 ∨ find_argument argv key = none := by
  cases hfind : find_argument argv key with
  | none => exact Or.inr rfl
  | some i =>
    cases i with
    | zero => exact Or.inl rfl
    | succ j =>
      exact absurd (find_argument_first argv key (j + 1) hfind).1 (hlater (j + 1) (by omega))

theorem find_argument_head (argv : List CStr) (key : CStr)
    (hhead : argv.head? = some key) : find_argument argv key = some 0 := by
  cases argv with
  | nil => simp at hhead
  | cons x rest =>
    simp only [List.head?_cons, Option.some.injEq] at hhead
    simp [find_argument, STR_EQ, hhead]

theorem find_argument_cases (argv : List CStr) (key : CStr) :
    (key ∉ argv ∧ find_argument argv key = none) ∨
    (key ∈ argv ∧ argv.head? = some key ∧ find_argument argv key = some 0) ∨
    (key ∈ argv ∧ argv.head? ≠ some key ∧
      ∃ i : Nat, find_argument argv key = some i ∧ 0 < i) := by
  by_cases hmem : key ∈ argv
  · by_cases hhead : argv.head? = some key
    · exact Or.inr (Or.inl ⟨hmem, hhead, find_argument_head argv key hhead⟩)
    · exact Or.inr (Or.inr ⟨hmem, hhead, find_argument_pos argv key hhead hmem⟩)
  · exact Or.inl ⟨hmem, find_argument_none argv key hmem⟩

/-- C11, as amended: `cmdline_get_bool` returns true when
`cmdline_find_option` returns an index from 1 on, and the default in every
other case, for every vector, key and default. For a key `a/b` cut at its
first slash this is true when `a` stands in the vector but not at index 0,
or when `a` stands nowhere and `b` stands in the vector but not at index
0, and the default otherwise; for a key `a` without slash it is true when
`a` stands in the vector but not at index 0. So when the argument at index
0 equals no alternative of the key and some argument at an index from 1 on
equals an alternative, the result is true; when no argument at an index
from 1 on equals an alternative, the result is the default. The vector
`prog --verbose` with default false gives true, the vector `prog` gives
false, and the vector `-v --verbose` with the key made of `--verbose`, a
slash and `-v` gives true, the first alternative standing at index 1. -/
theorem cmdline_get_bool_presence (argv : List CStr) (usage_str : Option CStr)
    (a b description : CStr) (d : Int) (hslash : '/' ∉ a) :
    ((argv.head? ≠ some a ∧ argv.head? ≠ some b) →
      (∃ i : Nat, 1 ≤ i ∧ (argv[i]? = some a ∨ argv[i]? = some b)) →
      (cmdline_get_bool argv usage_str (a ++ '/' :: b) d description).1 = 1) ∧
    ((∀ i : Nat, 1 ≤ i → argv[i]? ≠ some a ∧ argv[i]? ≠ some b) →
      (cmdline_get_bool argv usage_str (a ++ '/' :: b) d description).1 = d) ∧
    (argv.head? ≠ some a → (∃ i : Nat, 1 ≤ i ∧ argv[i]? = some a) →
      (cmdline_get_bool argv usage_str a d description).1 = 1) ∧
    ((∀ i : Nat, 1 ≤ i → argv[i]? ≠ some a) →
      (cmdline_get_bool argv usage_str a d description).1 = d) ∧
    (cmdline_get_bool ["prog".toList, "--verbose".toList] usage_str "--verbose".toList 0
      description).1 = 1 ∧
    (cmdline_get_bool ["prog".toList] usage_str "--verbose".toList 0 description).1 = 0 ∧
    (∀ key : CStr, (cmdline_get_bool argv usage_str key d description).1 =
      if 1 ≤ cmdline_find_option argv (some key) then 1 else d) ∧
    (cmdline_get_bool argv usage_str (a ++ '/' :: b) d description).1 =
      (if (a ∈ argv ∧ argv.head? ≠ some a) ∨ (a ∉ argv ∧ b ∈ argv ∧ argv.head? ≠ some b)
        then 1 else d) ∧
    (cmdline_get_bool argv usage_str a d description).1 =
      (if a ∈ argv ∧ argv.head? ≠ some a then 1 else d) ∧
    (cmdline_get_bool ["-v".toList, "--verbose".toList] usage_str
      ("--verbose".toList ++ '/' :: "-v".toList) 0 description).1 = 1 := by
  have hsplit : strchr (a ++ '/' :: b) '/' = some (a, '/' :: b) := strchr_append a b '/' hslash
  have hnone : strchr a '/' = none := strchr_absent a '/' hslash
  refine ⟨?_, ?_, ?_, ?_, ?_, ?_, ?_, ?_, ?_, ?_⟩
  · rintro ⟨ha0, hb0⟩ ⟨i, hi, hmatch⟩
    by_cases ha : a ∈ argv
    · obtain ⟨j, hfind, hj⟩ := find_argument_pos argv a ha0 ha
      have hpos : (0 : Int) < (j : Int) := by exact_mod_cast hj
      simp [cmdline_get_bool, cmdline_find_option, hsplit, hfind, hpos]
    · have hb : b ∈ argv := by
        rcases hmatch with h | h
        · exact absurd (List.getElem?_mem h) ha
        · exact List.getElem?_mem h
      obtain ⟨j, hfind, hj⟩ := find_argument_pos argv b hb0 hb
      have hpos : (0 : Int) < (j : Int) := by exact_mod_cast hj
      simp [cmdline_get_bool, cmdline_find_option, hsplit, find_argument_none argv a ha,
        hfind, hpos]
  · intro hlater
    rcases find_argument_zero_or_none argv a (fun i hi => (hlater i hi).1) with h1 | h1
    · simp [cmdline_get_bool, cmdline_find_option, hsplit, h1]
    · rcases find_argument_zero_or_none argv b (fun i hi => (hlater i hi).2) with h2 | h2
      · simp [cmdline_get_bool, cmdline_find_option, hsplit, h1, h2]
      · simp [cmdline_get_bool, cmdline_find_option, hsplit, h1, h2]
  · rintro ha0 ⟨i, hi, hmatch⟩
    obtain ⟨j, hfind, hj⟩ := find_argument_pos argv a ha0 (List.getElem?_mem hmatch)
    have hpos : (0 : Int) < (j : Int) := by exact_mod_cast hj
    simp [cmdline_get_bool, cmdline_find_option, hnone, hfind, hpos]
  · intro hlater
    rcases find_argument_zero_or_none argv a hlater with h1 | h1
    · simp [cmdline_get_bool, cmdline_find_option, hnone, h1]
    · simp [cmdline_get_bool, cmdline_find_option, hnone, h1]
  · have h : cmdline_find_option ["prog".toList, "--verbose".toList]
        (some "--verbose".toList) = 1 := by decide
    simp only [cmdline_get_bool, h]
    rfl
  · have h : cmdline_find_option ["prog".toList] (some "--verbose".toList) = -1 := by decide
    simp only [cmdline_get_bool, h]
    rfl
  · intro key
    by_cases hidx : 1 ≤ cmdline_find_option argv (some key)
    · have hpos : cmdline_find_option argv (some key) > 0 := by omega
      simp only [cmdline_get_bool, hpos, if_true, hidx]
    · have hpos : ¬ cmdline_find_option argv (some key) > 0 := by omega
      simp only [cmdline_get_bool, hpos, if_false, hidx]
  · rcases find_argument_cases argv a with ⟨ha, hfa⟩ | ⟨ha, ha0, hfa⟩ | ⟨ha, ha0, j, hfa, hj⟩
    · rcases find_argument_cases argv b with ⟨hb, hfb⟩ | ⟨hb, hb0, hfb⟩ | ⟨hb, hb0, k, hfb, hk⟩
      · have hc : ¬ ((a ∈ argv ∧ argv.head? ≠ some a) ∨
            (a ∉ argv ∧ b ∈ argv ∧ argv.head? ≠ some b)) := by
          rintro (h | h)
          · exact ha h.1
          · exact hb h.2.1
        rw [if_neg hc]
        simp [cmdline_get_bool, cmdline_find_option, hsplit, hfa, hfb]
      · have hc : ¬ ((a ∈ argv ∧ argv.head? ≠ some a) ∨
            (a ∉ argv ∧ b ∈ argv ∧ argv.head? ≠ some b)) := by
          rintro (h | h)
          · exact ha h.1
          · exact h.2.2 hb0
        rw [if_neg hc]
        simp [cmdline_get_bool, cmdline_find_option, hsplit, hfa, hfb]
      · have hc : (a ∈ argv ∧ argv.head? ≠ some a) ∨
            (a ∉ argv ∧ b ∈ argv ∧ argv.head? ≠ some b) := Or.inr ⟨ha, hb, hb0⟩
        have hpos : (0 : Int) < (k : Int) := by exact_mod_cast hk
        rw [if_pos hc]
        simp [cmdline_get_bool, cmdline_find_option, hsplit, hfa, hfb, hpos]
    · have hc : ¬ ((a ∈ argv ∧ argv.head? ≠ some a) ∨
          (a ∉ argv ∧ b ∈ argv ∧ argv.head? ≠ some b)) := by
        rintro (h | h)
        · exact h.2 ha0
        · exact h.1 ha
      rw [if_neg hc]
      simp [cmdline_get_bool, cmdline_find_option, hsplit, hfa]
    · have hc : (a ∈ argv ∧ argv.head? ≠ some a) ∨
          (a ∉ argv ∧ b ∈ argv ∧ argv.head? ≠ some b) := Or.inl ⟨ha, ha0⟩
      have hpos : (0 : Int) < (j : Int) := by exact_mod_cast hj
      rw [if_pos hc]
      simp [cmdline_get_bool, cmdline_find_option, hsplit, hfa, hpos]
  · rcases find_argument_cases argv a with ⟨ha, hfa⟩ | ⟨ha, ha0, hfa⟩ | ⟨ha, ha0, j, hfa, hj⟩
    · have hc : ¬ (a ∈ argv ∧ argv.head? ≠ some a) := fun h => ha h.1
      rw [if_neg hc]
      simp [cmdline_get_bool, cmdline_find_option, hnone, hfa]
    · have hc : ¬ (a ∈ argv ∧ argv.head? ≠ some a) := fun h => h.2 ha0
      rw [if_neg hc]
      simp [cmdline_get_bool, cmdline_find_option, hnone, hfa]
    · have hpos : (0 : Int) < (j : Int) := by exact_mod_cast hj
      rw [if_pos ⟨ha, ha0⟩]
      simp [cmdline_get_bool, cmdline_find_option, hnone, hfa, hpos]
  · have h : cmdline_find_option ["-v".toList, "--verbose".toList]
        (some ("--verbose".toList ++ '/' :: "-v".toList)) = 1 := by decide
    simp only [cmdline_get_bool, h]
    rfl

/-- C11, at the key made of `--verbose`, a slash and `-v`: the vector
`prog -v` gives true, and so does the vector `-v --verbose`, where the
second alternative stands at index 0 and the first at index 1. -/
theorem cmdline_get_bool_presence_witness :
    '/' ∉ "--verbose".toList ∧
    (cmdline_get_bool ["prog".toList, "-v".toList] none
      ("--verbose".toList ++ '/' :: "-v".toList) 0 []).1 = 1 ∧
    (cmdline_get_bool ["-v".toList, "--verbose".toList] none
      ("--verbose".toList ++ '/' :: "-v".toList) 0 []).1 = 1 :=
  ⟨by decide,
   (cmdline_get_bool_presence ["prog".toList, "-v".toList] none "--verbose".toList
      "-v".toList [] 0 (by decide)).1 ⟨by decide, by decide⟩ ⟨1, by decide, Or.inr (by decide)⟩,
   ((cmdline_get_bool_presence ["-v".toList, "--verbose".toList] none "--verbose".toList
      "-v".toList [] 0 (by decide)).2.2.2.2.2.2.2.1).trans (by decide)⟩

/-- C11 as stated fails when the argument at index 0 equals the key: in
the vector made of `--verbose` twice the argument at index 1 matches, yet
`cmdline_find_option` returns the first match, index 0, and
`cmdline_get_bool` returns the default false. -/
theorem cmdline_get_bool_presence_counterexample :
    ["--verbose".toList, "--verbose".toList][1]? = some "--verbose".toList ∧
    cmdline_find_option ["--verbose".toList, "--verbose".toList] (some "--verbose".toList) = 0 ∧
    (cmdline_get_bool ["--verbose".toList, "--verbose".toList] none "--verbose".toList 0
      []).1 = 0 := by
  decide

/-! ## The usage text (C12) -/

theorem cmdline_usage_append_eq (usage_str : Option CStr) (key label description : CStr) :
    cmdline_usage_append usage_str key label description =
      some (usage_str.getD [] ++ usage_line key label description) := by
  cases label with
  | nil =>
    cases usage_str <;>
      simp [cmdline_usage_append, usage_line, STR_FULL, pad40, String.toList]
  | cons c rest =>
    cases usage_str <;>
      simp [cmdline_usage_append, usage_line, STR_FULL, pad40, String.toList]

theorem usage_after_call_eq {F L : Type} (atof : CStr → F) (string_to_time : CStr → Int)
    (string_to_array : Option CStr → L) (string_to_path : Option CStr → Option CStr)
    (argv : List CStr) (usage_str : Option CStr) (call : getter_call F) :
    usage_after_call atof string_to_time string_to_array string_to_path argv usage_str call =
      some (usage_str.getD [] ++ usage_line call.key call.label call.description) := by
  cases call with
  | get_string key def_ description =>
    simp only [usage_after_call, cmdline_get_string, getter_call.key, getter_call.label,
      getter_call.description, ← cmdline_usage_append_eq]
    cases cmdline_get_value argv key <;> rfl
  | get_path key def_ description =>
    simp only [usage_after_call, cmdline_get_path, getter_call.key, getter_call.label,
      getter_call.description, ← cmdline_usage_append_eq]
    cases cmdline_get_value argv key <;> rfl
  | get_list key def_ description =>
    simp only [usage_after_call, cmdline_get_list, getter_call.key, getter_call.label,
      getter_call.description, ← cmdline_usage_append_eq]
    cases cmdline_get_value argv key <;> rfl
  | get_time key def_ description =>
    simp only [usage_after_call, cmdline_get_time, getter_call.key, getter_call.label,
      getter_call.description, ← cmdline_usage_append_eq]
    cases cmdline_get_value argv key <;> rfl
  | get_int key def_ description =>
    simp only [usage_after_call, cmdline_get_int, getter_call.key, getter_call.label,
      getter_call.description, ← cmdline_usage_append_eq]
    cases cmdline_get_value argv key <;> rfl
  | get_double key def_ description =>
    simp only [usage_after_call, cmdline_get_double, getter_call.key, getter_call.label,
      getter_call.description, ← cmdline_usage_append_eq]
    cases cmdline_get_value argv key <;> rfl
  | get_bool key def_ description =>
    simp only [usage_after_call, cmdline_get_bool, getter_call.key, getter_call.label,
      getter_call.description, ← cmdline_usage_append_eq]
    split <;> rfl

/-- C12, as amended: after any sequence of calls to the typed getters the
usage string returned by `cmdline_create_usage` holds one line per call,
in call order, whether or not the key was queried before: a call always
appends its line to the accumulator, so after at least one call the usage
string is what the accumulator held before followed by the lines of the
calls, and with no call it is still what it was. Each line is the key,
followed by the type label in parentheses when the label is not empty,
filled with spaces up to column 40, then ` - `, the description and a
newline. -/
theorem usage_one_line_per_call {F L : Type} (atof : CStr → F) (string_to_time : CStr → Int)
    (string_to_array : Option CStr → L) (string_to_path : Option CStr → Option CStr)
    (argv : List CStr) (usage_str : Option CStr) (calls : List (getter_call F)) :
    cmdline_create_usage
        (usage_after_calls atof string_to_time string_to_array string_to_path argv
          usage_str calls) =
      if calls.isEmpty then usage_str
      else some (usage_str.getD [] ++
        (calls.map (fun c => usage_line c.key c.label c.description)).flatten) := by
  unfold cmdline_create_usage usage_after_calls
  induction calls generalizing usage_str with
  | nil => simp
  | cons c rest ih =>
    rw [List.foldl_cons, ih, usage_after_call_eq]
    cases rest with
    | nil => simp
    | cons c2 rest2 => simp

/-- C12 as stated fails when a key is queried twice: two calls of
`cmdline_get_int` with the key `-x` leave two lines for it in the usage
string, and the second call changes the accumulator. -/
theorem usage_one_line_per_call_counterexample :
    usage_after_calls (fun _ => (0 : Int)) (fun _ => 0) (fun o => o) (fun o => o)
        ["prog".toList] none
        [getter_call.get_int "-x".toList 0 "d".toList, getter_call.get_int "-x".toList 0 "d".toList]
      = some (usage_line "-x".toList "int".toList "d".toList ++
          usage_line "-x".toList "int".toList "d".toList) ∧
    (cmdline_get_int ["prog".toList]
        (cmdline_get_int ["prog".toList] none "-x".toList 0 "d".toList).2
        "-x".toList 0 "d".toList).2
      ≠ (cmdline_get_int ["prog".toList] none "-x".toList 0 "d".toList).2 := by
  decide

/-! ## Resolving a setting (C13) -/

theorem get_setting_id_from_no_exact {G : Type} (rows : List (setting G)) (i : Nat)
    (key sect : CStr) (error_code : Int)
    (hno : ∀ r ∈ rows, ¬ (r.name = key ∧ r.sect = sect)) :
    ((error_code = -2 ∨ ∃ r ∈ rows, r.name = key) →
      get_setting_id_from rows i key sect error_code = -2) ∧
    ((error_code ≠ -2 ∧ ∀ r ∈ rows, r.name ≠ key) →
      get_setting_id_from rows i key sect error_code = -1) := by
  induction rows generalizing i error_code with
  | nil =>
    constructor
    · rintro (h | ⟨r, hr, _⟩)
      · simp [get_setting_id_from, h]
      · simp at hr
    · rintro ⟨h, _⟩
      simp [get_setting_id_from, h]
  | cons row rest ih =>
    have hrest : ∀ r ∈ rest, ¬ (r.name = key ∧ r.sect = sect) :=
      fun r hr => hno r (List.mem_cons_of_mem _ hr)
    by_cases hname : row.name = key
    · have hsect : ¬ sect = row.sect := fun h => hno row (List.mem_cons_self _ _) ⟨hname, h.symm⟩
      simp only [get_setting_id_from, hname, if_true, hsect, if_false]
      constructor
      · intro _
        exact (ih (i + 1) (-2) hrest).1 (Or.inl rfl)
      · rintro ⟨_, hall⟩
        exact absurd hname (hall row (List.mem_cons_self _ _))
    · simp only [get_setting_id_from, hname, if_false]
      constructor
      · rintro (h | ⟨r, hr, hrn⟩)
        · exact (ih (i + 1) error_code hrest).1 (Or.inl h)
        · rcases List.mem_cons.1 hr with h1 | h1
          · exact absurd (h1 ▸ hrn) hname
          · exact (ih (i + 1) error_code hrest).1 (Or.inr ⟨r, h1, hrn⟩)
      · rintro ⟨h, hall⟩
        exact (ih (i + 1) error_code hrest).2
          ⟨h, fun r hr => hall r (List.mem_cons_of_mem _ hr)⟩

theorem get_setting_id_from_exact {G : Type} (rows : List (setting G)) (i : Nat)
    (key sect : CStr) (error_code : Int)
    (hex : ∃ r ∈ rows, r.name = key ∧ r.sect = sect) :
    ∃ j : Nat, get_setting_id_from rows i key sect error_code = ((i + j : Nat) : Int) ∧
      (∃ r, rows[j]? = some r ∧ r.name = key ∧ r.sect = sect) ∧
      ∀ k : Nat, k < j → ∀ r, rows[k]? = some r → ¬ (r.name = key ∧ r.sect = sect) := by
  induction rows generalizing i error_code with
  | nil =>
    obtain ⟨r, hr, _⟩ := hex
    simp at hr
  | cons row rest ih =>
    by_cases hboth : row.name = key ∧ row.sect = sect
    · refine ⟨0, ?_, ⟨row, by simp, hboth⟩, ?_⟩
      · simp [get_setting_id_from, hboth.1, hboth.2]
      · intro k hk
        omega
    · have hex2 : ∃ r ∈ rest, r.name = key ∧ r.sect = sect := by
        obtain ⟨r, hr, hrb⟩ := hex
        rcases List.mem_cons.1 hr with h1 | h1
        · exact absurd (h1 ▸ hrb) hboth
        · exact ⟨r, h1, hrb⟩
      have hstep : ∀ ec : Int, ∃ ec2 : Int,
          get_setting_id_from (row :: rest) i key sect ec
            = get_setting_id_from rest (i + 1) key sect ec2 := by
        intro ec
        by_cases hname : row.name = key
        · have hsect : ¬ sect = row.sect := fun h => hboth ⟨hname, h.symm⟩
          exact ⟨-2, by simp [get_setting_id_from, hname, hsect]⟩
        · exact ⟨ec, by simp [get_setting_id_from, hname]⟩
      obtain ⟨ec2, hec2⟩ := hstep error_code
      obtain ⟨j, hres, hrow, hleast⟩ := ih (i + 1) ec2 hex2
      refine ⟨j + 1, ?_, ?_, ?_⟩
      · rw [hec2, hres]
        congr 1
        omega
      · simpa using hrow
      · intro k hk r hr
        cases k with
        | zero =>
          simp only [List.getElem?_cons_zero, Option.some.injEq] at hr
          exact hr ▸ hboth
        | succ k1 =>
          simp only [List.getElem?_cons_succ] at hr
          exact hleast k1 (by omega) r hr

/-- C13: for every registry, name and section, `get_setting_id` returns
the index of the first row whose name and section both equal the
arguments when there is such a row; -2 when no row matches both but some
row has the name; -1 when no row has the name. The result is always a row
index from 0 on, -2 or -1, and the two negative outcomes differ. -/
theorem get_setting_id_outcomes {G : Type} (allowed_settings : List (setting G))
    (name sect : CStr) :
    ((∃ r ∈ allowed_settings, r.name = name ∧ r.sect = sect) →
      ∃ i : Nat, get_setting_id allowed_settings name sect = (i : Int) ∧
        (∃ r, allowed_settings[i]? = some r ∧ r.name = name ∧ r.sect = sect) ∧
        ∀ k : Nat, k < i → ∀ r, allowed_settings[k]? = some r →
          ¬ (r.name = name ∧ r.sect = sect)) ∧
    ((∀ r ∈ allowed_settings, ¬ (r.name = name ∧ r.sect = sect)) →
      (∃ r ∈ allowed_settings, r.name = name) →
      get_setting_id allowed_settings name sect = -2) ∧
    ((∀ r ∈ allowed_settings, r.name ≠ name) →
      get_setting_id allowed_settings name sect = -1) ∧
    (0 ≤ get_setting_id allowed_settings name sect ∨
      get_setting_id allowed_settings name sect = -2 ∨
      get_setting_id allowed_settings name sect = -1) ∧
    ((-2 : Int) ≠ -1) := by
  refine ⟨?_, ?_, ?_, ?_, by decide⟩
  · intro hex
    obtain ⟨j, hres, hrow, hleast⟩ := get_setting_id_from_exact allowed_settings 0 name sect 0 hex
    exact ⟨j, by simpa [get_setting_id] using hres, hrow, hleast⟩
  · intro hno hname
    exact (get_setting_id_from_no_exact allowed_settings 0 name sect 0 hno).1 (Or.inr hname)
  · intro hall
    exact (get_setting_id_from_no_exact allowed_settings 0 name sect 0
      (fun r hr h => hall r hr h.1)).2 ⟨by decide, hall⟩
  · by_cases hex : ∃ r ∈ allowed_settings, r.name = name ∧ r.sect = sect
    · obtain ⟨j, hres, _, _⟩ := get_setting_id_from_exact allowed_settings 0 name sect 0 hex
      left
      simp only [get_setting_id, hres]
      omega
    · have hno : ∀ r ∈ allowed_settings, ¬ (r.name = name ∧ r.sect = sect) :=
        fun r hr h => hex ⟨r, hr, h⟩
      by_cases hname : ∃ r ∈ allowed_settings, r.name = name
      · right; left
        exact (get_setting_id_from_no_exact allowed_settings 0 name sect 0 hno).1 (Or.inr hname)
      · right; right
        exact (get_setting_id_from_no_exact allowed_settings 0 name sect 0 hno).2
          ⟨by decide, fun r hr h => hname ⟨r, hr, h⟩⟩

/-- C13, on a registry of two rows, `font` under `global` and `timeout`
under `urgency_low`: the name `font` asked under `urgency_low` is
ambiguous, the name `colour` is not found, and `timeout` under
`urgency_low` is row 1. -/
theorem get_setting_id_outcomes_witness :
    get_setting_id
        ([⟨"font".toList, "global".toList, .TYPE_STRING, [], 0, none, .null⟩,
          ⟨"timeout".toList, "urgency_low".toList, .TYPE_INT, [], 1, none, .null⟩] :
          List (setting Unit))
        "font".toList "urgency_low".toList = -2 ∧
    get_setting_id
        ([⟨"font".toList, "global".toList, .TYPE_STRING, [], 0, none, .null⟩,
          ⟨"timeout".toList, "urgency_low".toList, .TYPE_INT, [], 1, none, .null⟩] :
          List (setting Unit))
        "colour".toList "global".toList = -1 :=
  ⟨(get_setting_id_outcomes _ "font".toList "urgency_low".toList).2.1
      (by intro r hr; simp at hr; rcases hr with h | h <;> subst h <;> decide)
      ⟨_, List.mem_cons_self _ _, rfl⟩,
   (get_setting_id_outcomes _ "colour".toList "global".toList).2.2.1
      (by intro r hr; simp at hr; rcases hr with h | h <;> subst h <;> decide)⟩

/-! ## Enum values and lists of actions (C20, C14, C15) -/

theorem store_cell_self {G : Type} (mem : Memory G) (addr : Nat) :
    store_cell mem addr (mem addr) = mem := by
  funext a
  by_cases h : a = addr
  · simp [store_cell, h]
  · simp [store_cell, h]

theorem store_cell_other {G : Type} (mem : Memory G) (addr a : Nat) (c : cell G)
    (hne : a ≠ addr) : store_cell mem addr c a = mem a := by
  simp [store_cell, hne]

theorem store_cell_same {G : Type} (mem : Memory G) (addr : Nat) (c : cell G) :
    store_cell mem addr c addr = c := by
  simp [store_cell]

theorem string_parse_enum_eq_find (table : List string_to_enum_def) (s : CStr) (ret : Int) :
    string_parse_enum table s ret =
      match (table_entries table).find? (fun e => decide (e.string = some s)) with
      | some e => (true, e.enum_value)
      | none => (false, ret) := by
  induction table with
  | nil => simp [string_parse_enum, table_entries]
  | cons e rest ih =>
    cases hstr : e.string with
    | none => simp [string_parse_enum, table_entries, hstr]
    | some str =>
      by_cases hs : s = str
      · simp [string_parse_enum, table_entries, hstr, hs]
      · have hs2 : ¬ str = s := fun h => hs h.symm
        simp only [string_parse_enum, hstr, hs, if_false, table_entries,
          List.takeWhile_cons, Option.isSome_some, if_true]
        rw [List.find?_cons_of_neg _ (by simp [hstr, hs2])]
        simpa [table_entries] using ih

/-- C20: for a lookup table ended by its NULL string, `string_parse_enum`
returns true and writes the value of the first entry before the
terminator whose string equals `s`, and returns false and leaves the
destination as it was when no such entry equals `s`. On a row of type
Enum, `set_setting` returns failure and changes nothing when the row has
no parser; otherwise it returns what the parser returns and the
destination holds what the parser leaves there, all other destinations
being untouched; with `string_parse_enum` as the parser, a failure leaves
the whole memory as it was. -/
theorem string_parse_enum_and_enum_rows {G : Type} (env : externals G)
    (table : List string_to_enum_def) (s : CStr) (ret : Int)
    (row : setting G) (value : CStr) (mem : Memory G)
    (hrow : row.type = setting_type.TYPE_ENUM) :
    (∀ e, (table_entries table).find? (fun e => decide (e.string = some s)) = some e →
      string_parse_enum table s ret = (true, e.enum_value)) ∧
    ((∀ e ∈ table_entries table, e.string ≠ some s) →
      string_parse_enum table s ret = (false, ret)) ∧
    (row.parser = none → set_setting env row value mem = (false, mem)) ∧
    (∀ parser, row.parser = some parser →
      set_setting env row value mem =
        ((parser row.parser_data value (mem row.value)).1,
          store_cell mem row.value (parser row.parser_data value (mem row.value)).2)) ∧
    (row.parser = some string_parse_enum_cell →
      (set_setting env row value mem).1 = false → (set_setting env row value mem).2 = mem) := by
  refine ⟨?_, ?_, ?_, ?_, ?_⟩
  · intro e he
    rw [string_parse_enum_eq_find, he]
  · intro hall
    have hnone : (table_entries table).find? (fun e => decide (e.string = some s)) = none := by
      simp only [List.find?_eq_none, decide_eq_true_eq]
      exact hall
    rw [string_parse_enum_eq_find, hnone]
  · intro hp
    simp [set_setting, hrow, hp]
  · intro parser hp
    simp [set_setting, hrow, hp]
  · intro hp hfail
    simp only [set_setting, hrow, hp] at hfail ⊢
    have hcell : (string_parse_enum_cell row.parser_data value (mem row.value)).2
        = mem row.value := by
      cases hd : row.parser_data with
      | enum_table t =>
        rw [hd] at hfail
        simp only [string_parse_enum_cell] at hfail ⊢
        split at hfail
        · simp at hfail
        · rename_i h
          simp only [h]
          rfl
      | null => rfl
      | list_kind t => rfl
      | argv_dest a => rfl
    rw [hcell, store_cell_self]

/-- C20, on a row of type Enum that parses the vocabulary `show`, `delay`
with `string_parse_enum`: the value `bogus` fails and leaves the memory. -/
theorem string_parse_enum_and_enum_rows_witness :
    (set_setting (G := Unit) ⟨fun _ => 0, fun o => o, fun _ => none, fun _ => none,
        fun _ => (), []⟩
      ⟨"fullscreen".toList, "global".toList, .TYPE_ENUM, "show".toList, 0,
        some string_parse_enum_cell,
        .enum_table [⟨some "show".toList, 0⟩, ⟨some "delay".toList, 1⟩, ⟨none, 0⟩]⟩
      "bogus".toList (fun _ => cell.int 0)).2 = (fun _ => cell.int 0) :=
  (string_parse_enum_and_enum_rows (G := Unit) ⟨fun _ => 0, fun o => o, fun _ => none,
      fun _ => none, fun _ => (), []⟩ [] [] 0
    ⟨"fullscreen".toList, "global".toList, .TYPE_ENUM, "show".toList, 0,
      some string_parse_enum_cell,
      .enum_table [⟨some "show".toList, 0⟩, ⟨some "delay".toList, 1⟩, ⟨none, 0⟩]⟩
    "bogus".toList (fun _ => cell.int 0) rfl).2.2.2.2 rfl (by decide)

theorem mouse_action_values_eq_some (table : List string_to_enum_def) (tokens : List CStr)
    (hall : ∀ t ∈ tokens, (string_parse_enum table t 0).1 = true) :
    mouse_action_values table tokens
      = some (tokens.map (fun t => (string_parse_enum table t 0).2)) := by
  induction tokens with
  | nil => rfl
  | cons t rest ih =>
    have h1 := hall t (List.mem_cons_self _ _)
    have h2 := ih (fun x hx => hall x (List.mem_cons_of_mem _ hx))
    simp [mouse_action_values, h1, h2]

theorem mouse_action_values_eq_none (table : List string_to_enum_def) (tokens : List CStr)
    (hbad : ∃ t ∈ tokens, (string_parse_enum table t 0).1 = false) :
    mouse_action_values table tokens = none := by
  induction tokens with
  | nil =>
    obtain ⟨t, ht, _⟩ := hbad
    simp at ht
  | cons t rest ih =>
    by_cases h1 : (string_parse_enum table t 0).1 = true
    · have hrest : ∃ x ∈ rest, (string_parse_enum table x 0).1 = false := by
        obtain ⟨x, hx, hxb⟩ := hbad
        rcases List.mem_cons.1 hx with h | h
        · subst h
          rw [h1] at hxb
          exact absurd hxb (by simp)
        · exact ⟨x, h, hxb⟩
      simp [mouse_action_values, h1, ih hrest]
    · simp [mouse_action_values, h1]

/-- The part of the contract of `string_parse_mouse_action_list` that the
code keeps: it succeeds exactly when every token is in the vocabulary, and
on success the destination is the array of the tokens' values, in token
order, followed by the sentinel -1. -/
theorem mouse_action_list_success {G : Type} (table : List string_to_enum_def)
    (tokens : List CStr) (ret : cell G) :
    ((string_parse_mouse_action_list table (some tokens) ret).1 = true ↔
      ∀ t ∈ tokens, (string_parse_enum table t 0).1 = true) ∧
    ((∀ t ∈ tokens, (string_parse_enum table t 0).1 = true) →
      string_parse_mouse_action_list table (some tokens) ret =
        (true, cell.list (pointer.valid
          (tokens.map (fun t => (string_parse_enum table t 0).2) ++ [-1])))) := by
  have hsucc : (∀ t ∈ tokens, (string_parse_enum table t 0).1 = true) →
      string_parse_mouse_action_list table (some tokens) ret =
        (true, cell.list (pointer.valid
          (tokens.map (fun t => (string_parse_enum table t 0).2) ++ [-1]))) := by
    intro hall
    simp [string_parse_mouse_action_list, mouse_action_values_eq_some table tokens hall]
  refine ⟨⟨?_, fun hall => by rw [hsucc hall]⟩, hsucc⟩
  intro hok
  by_contra hnot
  have hbad : ∃ t ∈ tokens, (string_parse_enum table t 0).1 = false := by
    by_contra hno
    apply hnot
    intro t ht
    by_contra hf
    exact hno ⟨t, ht, by simpa using hf⟩
  simp [string_parse_mouse_action_list, mouse_action_values_eq_none table tokens hbad] at hok

/-- C14, the code at the failing input: with the vocabulary `open`,
`close`, the tokens `open`, `close` give the two values and the sentinel,
but the tokens `open`, `bogus` return failure with the destination left
holding the address of a released array, whatever it held before: neither
what it held (here a live array) nor NULL. -/
theorem mouse_action_list_unknown_token :
    string_parse_mouse_action_list (G := Unit)
        [⟨some "open".toList, 0⟩, ⟨some "close".toList, 1⟩, ⟨none, 0⟩]
        (some ["open".toList, "close".toList]) (cell.list (pointer.valid [0, -1]))
      = (true, cell.list (pointer.valid [0, 1, -1])) ∧
    string_parse_mouse_action_list (G := Unit)
        [⟨some "open".toList, 0⟩, ⟨some "close".toList, 1⟩, ⟨none, 0⟩]
        (some ["open".toList, "bogus".toList]) (cell.list (pointer.valid [0, -1]))
      = (false, cell.list pointer.freed) ∧
    (cell.list pointer.freed : cell Unit) ≠ cell.list (pointer.valid [0, -1]) ∧
    (cell.list pointer.freed : cell Unit) ≠ cell.list pointer.null := by
  decide

/-- C15, the code at the failing input: on a row of type Bool the value
`maybe`, and the empty value, make `set_setting` return success and write
true to the destination, whatever the destination held: `str_to_bool`
returns -1 for them and the -1 is stored as a `bool`. -/
theorem set_setting_boolean_invalid_value {G : Type} (env : externals G)
    (name sect default_value : CStr) (addr : Nat)
    (parser : Option (parser_data_t → CStr → cell G → Bool × cell G))
    (parser_data : parser_data_t) (mem : Memory G) :
    set_setting env ⟨name, sect, .TYPE_BOOLEAN, default_value, addr, parser, parser_data⟩
        "maybe".toList mem = (true, store_cell mem addr (cell.bool true)) ∧
    set_setting env ⟨name, sect, .TYPE_BOOLEAN, default_value, addr, parser, parser_data⟩
        [] mem = (true, store_cell mem addr (cell.bool true)) ∧
    store_cell mem addr (cell.bool true) addr = cell.bool true ∧
    ini_get_bool [⟨"s".toList, [⟨"k".toList, "maybe".toList⟩]⟩] "s".toList "k".toList 0 = 0 := by
  refine ⟨?_, ?_, store_cell_same _ _ _, by decide⟩
  · have h : str_to_bool (some "maybe".toList) = -1 := by decide
    simp only [set_setting, h]
    rfl
  · have h : str_to_bool (some []) = -1 := by decide
    simp only [set_setting, h]
    rfl

/-! ## Applying the store to the settings (C16) -/

theorem is_special_section_iff (special_sections : List CStr) (s : Section) :
    is_special_section special_sections s = true ↔ s.name ∈ special_sections := by
  simp only [is_special_section, List.any_eq_true, STR_EQ_iff]
  constructor
  · rintro ⟨x, hx, he⟩
    exact he ▸ hx
  · intro h
    exact ⟨s.name, h, rfl⟩

theorem set_setting_frame {G : Type} (env : externals G) (row : setting G) (value : CStr)
    (mem : Memory G) (a : Nat) (ha : a ∉ setting_destinations row) :
    (set_setting env row value mem).2 a = mem a := by
  have hv : a ≠ row.value := by
    intro h
    apply ha
    unfold setting_destinations
    split <;> simp [h]
  unfold set_setting
  cases htype : row.type with
  | TYPE_INT => exact store_cell_other _ _ _ _ hv
  | TYPE_BOOLEAN => exact store_cell_other _ _ _ _ hv
  | TYPE_STRING => exact store_cell_other _ _ _ _ hv
  | TYPE_ENUM =>
    cases row.parser with
    | none => rfl
    | some p => exact store_cell_other _ _ _ _ hv
  | TYPE_SEP_COLOR =>
    cases row.parser with
    | none => rfl
    | some p => exact store_cell_other _ _ _ _ hv
  | TYPE_PATH =>
    cases hd : row.parser_data with
    | argv_dest addr =>
      have hne : a ≠ addr := by
        intro h
        apply ha
        simp [setting_destinations, htype, hd, h]
      simp only
      cases env.g_shell_parse_argv (env.string_to_path (some value)) with
      | none =>
        simp only
        rw [store_cell_other _ _ _ _ hne, store_cell_other _ _ _ _ hv]
      | some args =>
        simp only
        rw [store_cell_other _ _ _ _ hne, store_cell_other _ _ _ _ hv]
    | null => exact store_cell_other _ _ _ _ hv
    | enum_table t => exact store_cell_other _ _ _ _ hv
    | list_kind t => exact store_cell_other _ _ _ _ hv
  | TYPE_TIME => exact store_cell_other _ _ _ _ hv
  | TYPE_GEOMETRY => exact store_cell_other _ _ _ _ hv
  | TYPE_LIST =>
    cases row.parser_data with
    | list_kind t => exact store_cell_other _ _ _ _ hv
    | null => rfl
    | enum_table t => rfl
    | argv_dest addr => rfl
  | TYPE_OTHER => rfl

theorem save_entry_unresolved {G : Type} (env : externals G)
    (allowed_settings : List (setting G)) (s : Section) (mem : Memory G) (e : entry)
    (hneg : get_setting_id allowed_settings e.key s.name < 0) :
    save_entry env allowed_settings s mem e = mem := by
  simp [save_entry, hneg]

theorem save_entries_eq_fold {G : Type} (env : externals G)
    (allowed_settings : List (setting G)) (name : CStr) (entries all : List entry)
    (mem : Memory G) :
    entries.foldl (save_entry env allowed_settings ⟨name, all⟩) mem =
      (resolvable_in_section allowed_settings ⟨name, entries⟩).foldl
        (fun m p => (set_setting env p.1 p.2 m).2) mem := by
  induction entries generalizing mem with
  | nil => rfl
  | cons e rest ih =>
    simp only [List.foldl_cons, resolvable_in_section, List.filterMap_cons]
    simp only [resolvable_in_section] at ih
    by_cases hid : 0 ≤ get_setting_id allowed_settings e.key name
    · have hneg : ¬ get_setting_id allowed_settings e.key name < 0 := by omega
      cases hrow : allowed_settings[(get_setting_id allowed_settings e.key name).toNat]? with
      | none =>
        simp only [save_entry, hneg, if_false, hrow, hid, if_true, Option.map_none']
        exact ih mem
      | some row =>
        simp only [save_entry, hneg, if_false, hrow, hid, if_true, Option.map_some',
          List.foldl_cons]
        exact ih _
    · have hneg : get_setting_id allowed_settings e.key name < 0 := by omega
      simp only [save_entry, hneg, if_true, hid, if_false]
      exact ih mem

theorem foldl_set_setting_frame {G : Type} (env : externals G)
    (applied : List (setting G × CStr)) (mem : Memory G) (a : Nat)
    (ha : ∀ p ∈ applied, a ∉ setting_destinations p.1) :
    applied.foldl (fun m p => (set_setting env p.1 p.2 m).2) mem a = mem a := by
  induction applied generalizing mem with
  | nil => rfl
  | cons p rest ih =>
    rw [List.foldl_cons, ih _ (fun q hq => ha q (List.mem_cons_of_mem _ hq))]
    exact set_setting_frame env p.1 p.2 mem a (ha p (List.mem_cons_self _ _))

theorem save_settings_eq_fold {G : Type} (env : externals G)
    (allowed_settings : List (setting G)) (special_sections : List CStr) (sections : Store)
    (mem : Memory G) :
    (save_settings env allowed_settings special_sections sections mem).2 =
      (resolvable_entries allowed_settings special_sections sections).foldl
        (fun m p => (set_setting env p.1 p.2 m).2) mem := by
  unfold save_settings resolvable_entries
  simp only
  induction sections generalizing mem with
  | nil => rfl
  | cons s rest ih =>
    rw [List.foldl_cons]
    by_cases hs : s.name ∈ special_sections
    · have hspecial : is_special_section special_sections s = true :=
        (is_special_section_iff special_sections s).2 hs
      rw [List.filter_cons_of_pos (by simpa using hs), List.flatMap_cons, List.foldl_append,
        ← ih]
      simp only [hspecial, if_true]
      have h := save_entries_eq_fold env allowed_settings s.name s.entries s.entries mem
      rw [← h]
    · have hspecial : ¬ is_special_section special_sections s = true :=
        fun h => hs ((is_special_section_iff special_sections s).1 h)
      rw [List.filter_cons_of_neg (by simpa using hs), ← ih]
      simp only [hspecial, Bool.false_eq_true, if_false]

/-- C16: `save_settings` leaves the Text Store as it was, and the memory
it leaves is the one obtained by applying `set_setting`, in store order,
to exactly the entries of the special sections that `get_setting_id`
resolves to a row index from 0 on. An entry that resolves to -1 or -2
leaves the memory as it is, a section that is not special is passed over,
and an address that is not a destination of a row reached through such an
entry holds after the call what it held before. -/
theorem save_settings_frame {G : Type} (env : externals G)
    (allowed_settings : List (setting G)) (special_sections : List CStr) (sections : Store)
    (mem : Memory G) :
    (save_settings env allowed_settings special_sections sections mem).1 = sections ∧
    (save_settings env allowed_settings special_sections sections mem).2 =
      (resolvable_entries allowed_settings special_sections sections).foldl
        (fun m p => (set_setting env p.1 p.2 m).2) mem ∧
    (∀ a : Nat,
      (∀ p ∈ resolvable_entries allowed_settings special_sections sections,
        a ∉ setting_destinations p.1) →
      (save_settings env allowed_settings special_sections sections mem).2 a = mem a) ∧
    (∀ (s : Section) (e : entry) (m : Memory G),
      get_setting_id allowed_settings e.key s.name < 0 →
      save_entry env allowed_settings s m e = m) ∧
    ((∀ s ∈ sections, s.name ∉ special_sections) →
      (save_settings env allowed_settings special_sections sections mem).2 = mem) := by
  refine ⟨rfl, save_settings_eq_fold env allowed_settings special_sections sections mem,
    ?_, ?_, ?_⟩
  · intro a ha
    rw [save_settings_eq_fold]
    exact foldl_set_setting_frame env _ mem a ha
  · intro s e m hneg
    exact save_entry_unresolved env allowed_settings s m e hneg
  · intro hnone
    rw [save_settings_eq_fold]
    have hempty : resolvable_entries allowed_settings special_sections sections = [] := by
      unfold resolvable_entries
      have hfilter : sections.filter (fun s => decide (s.name ∈ special_sections)) = [] := by
        rw [List.filter_eq_nil_iff]
        intro s hs
        simpa using hnone s hs
      rw [hfilter]
      rfl
    rw [hempty]
    rfl

/-! ## Splitting a key/value line (C18) -/

/-- C18, as amended: for a line whose stripped text is not empty, begins
with none of `;`, `#`, `[` and `=`, and holds an `=`, the loop body splits
the text at its first `=`: the key is the stripped text before it and the
raw value the text after it. The raw value is stripped, scanned for a
quoted region and cut at a comment; the line is accepted when that scan
succeeds (no quote is left open) and a section is current, and the entry
added to the current section then has that key and the cut, stripped and
unquoted value; otherwise the line changes nothing. -/
theorem key_value_line_split (st : ini_state) (line : List Char) (c : Char) (rest : CStr)
    (hstrip : g_strstrip (c_str line) = c :: rest)
    (hfirst : c ≠ ';' ∧ c ≠ '#' ∧ c ≠ '[' ∧ c ≠ '=')
    (heq : '=' ∈ rest) :
    load_ini_line st line =
      (match cut_comment (g_strstrip (text_after_equal (c :: rest))) with
       | none => some st
       | some value1 =>
         match st.current_section with
         | none => some st
         | some current =>
           add_entry st.sections current (g_strstrip (text_before_equal (c :: rest)))
             (g_strstrip value1) |>.map (fun sections1 => { st with sections := sections1 })) ∧
    (∀ value1 current,
      cut_comment (g_strstrip (text_after_equal (c :: rest))) = some value1 →
      st.current_section = some current →
      ∃ sections1 : Store,
        load_ini_line st line = some { sections := sections1, current_section := some current } ∧
        entries_of sections1 current =
          entries_of st.sections current ++
            [⟨g_strstrip (text_before_equal (c :: rest)),
              string_strip_quotes (g_strstrip value1)⟩]) := by
  have h1 : ¬ (c = ';' ∨ c = '#') := by
    intro h
    rcases h with h | h
    · exact hfirst.1 h
    · exact hfirst.2.1 h
  have h2 : ¬ c = '[' := hfirst.2.2.1
  have hc : (c != '=') = true := by
    simp only [bne_iff_ne, ne_eq]
    exact hfirst.2.2.2
  have hbefore : text_before_equal (c :: rest) = c :: rest.takeWhile (fun x => x != '=') := by
    simp only [text_before_equal, List.takeWhile_cons, hc, if_true]
  have hafter : text_after_equal (c :: rest) = (rest.dropWhile (fun x => x != '=')).drop 1 := by
    simp only [text_after_equal, List.dropWhile_cons, hc, if_true]
  have hmain : load_ini_line st line =
      (match cut_comment (g_strstrip (text_after_equal (c :: rest))) with
       | none => some st
       | some value1 =>
         match st.current_section with
         | none => some st
         | some current =>
           add_entry st.sections current (g_strstrip (text_before_equal (c :: rest)))
             (g_strstrip value1) |>.map (fun sections1 => { st with sections := sections1 })) := by
    unfold load_ini_line
    rw [hstrip, hbefore, hafter]
    simp only [h1, h2, if_false, strchr, heq, if_true]
    cases cut_comment (g_strstrip ((rest.dropWhile (fun x => x != '=')).drop 1)) with
    | none => rfl
    | some value1 =>
      cases st.current_section with
      | none => rfl
      | some current =>
        simp only [add_entry_eq_insert_entry, Option.map_some']
  refine ⟨hmain, ?_⟩
  intro value1 current hcut hcur
  refine ⟨insert_entry st.sections current
    ⟨g_strstrip (text_before_equal (c :: rest)), string_strip_quotes (g_strstrip value1)⟩,
    ?_, entries_of_insert_entry_same _ _ _⟩
  rw [hmain, hcut]
  simp only [hcur, add_entry_eq_insert_entry, Option.map_some']

/-- C18, at the line `a b=c d` read into the section `s`: the key is
`a b` and the value `c d`. -/
theorem key_value_line_split_witness :
    ∃ sections1 : Store,
      load_ini_line ⟨[⟨"s".toList, []⟩], some "s".toList⟩ "a b=c d\n".toList
        = some { sections := sections1, current_section := some "s".toList } ∧
      entries_of sections1 "s".toList =
        entries_of [⟨"s".toList, []⟩] "s".toList ++
          [⟨g_strstrip (text_before_equal ('a' :: " b=c d".toList)),
            string_strip_quotes (g_strstrip "c d".toList)⟩] :=
  (key_value_line_split ⟨[⟨"s".toList, []⟩], some "s".toList⟩ "a b=c d\n".toList 'a'
    " b=c d".toList (by decide) (by decide) (by decide)).2 "c d".toList "s".toList
    (by decide) rfl

/-- C18 as stated fails in four ways. The search for `=` starts at the
second character: the line `=v` holds an `=` and is not accepted, and the
line `=a=b` is split at its second `=`, which stores the key `=a`. A line
with an `=` whose value opens a quote and never closes it is not accepted,
and neither is a line with an `=` that comes before any header. -/
theorem key_value_line_split_counterexample :
    load_ini_file (some "[s]\n=v\n".toList) [] = some (0, [⟨"s".toList, []⟩]) ∧
    load_ini_file (some "[s]\n=a=b\n".toList) [] =
      some (0, [⟨"s".toList, [⟨"=a".toList, "b".toList⟩]⟩]) ∧
    load_ini_file (some ("[s]\nk = ".toList ++ [dquote] ++ "v\n".toList)) [] =
      some (0, [⟨"s".toList, []⟩]) ∧
    load_ini_file (some "k = v\n".toList) [] = some (0, []) := by
  decide

/-! ## Rejected lines (C17) -/

/-- The shape of one step of the loop: a header line hands its name to
`new_section` and makes it current; any other line keeps the current
section and either leaves the store or adds one entry to the current
section. -/
theorem load_ini_line_shape (st : ini_state) (line : List Char) :
    (∀ name, header_name line = some name →
      load_ini_line st line =
        (new_section st.sections name).map
          (fun sections1 => { sections := sections1, current_section := some name })) ∧
    (header_name line = none →
      ∃ sections1 : Store,
        load_ini_line st line
          = some { sections := sections1, current_section := st.current_section } ∧
        (sections1 = st.sections ∨
          ∃ current e, st.current_section = some current ∧
            sections1 = insert_entry st.sections current e)) := by
  obtain ⟨sections, cur⟩ := st
  unfold load_ini_line header_name
  cases hstrip : g_strstrip (c_str line) with
  | nil =>
    exact ⟨by intro name h; simp at h, fun _ => ⟨sections, rfl, Or.inl rfl⟩⟩
  | cons c rest =>
    by_cases hcomment : c = ';' ∨ c = '#'
    · have hc : ¬ c = '[' := by
        rcases hcomment with h | h <;> subst h <;> decide
      refine ⟨by intro name h; simp [hc] at h, fun _ => ⟨sections, ?_, Or.inl rfl⟩⟩
      simp [hcomment]
    · by_cases hc : c = '['
      · by_cases hclose : ']' ∈ rest
        · constructor
          · intro name hname
            simp only [hc, hclose, and_self, if_true, Option.some.injEq] at hname
            subst hname
            have hcomment2 : ¬ ('[' = ';' ∨ '[' = '#') := by decide
            simp only [hc, hcomment2, if_false, if_true, strchr, hclose]
            cases new_section sections (rest.takeWhile (fun x => x != ']')) <;> rfl
          · intro h
            simp [hc, hclose] at h
        · refine ⟨by intro name h; simp [hclose] at h, fun _ => ⟨sections, ?_, Or.inl rfl⟩⟩
          simp [hcomment, hc, strchr, hclose]
      · refine ⟨by intro name h; simp [hc] at h, fun _ => ?_⟩
        simp only [hcomment, hc, if_false]
        cases strchr rest '=' with
        | none => exact ⟨sections, rfl, Or.inl rfl⟩
        | some p =>
          obtain ⟨before, equal⟩ := p
          simp only
          cases cut_comment (g_strstrip (equal.drop 1)) with
          | none => exact ⟨sections, rfl, Or.inl rfl⟩
          | some value1 =>
            simp only
            cases cur with
            | none => exact ⟨sections, rfl, Or.inl rfl⟩
            | some current =>
              simp only [add_entry_eq_insert_entry]
              exact ⟨_, rfl, Or.inr ⟨current, _, rfl, rfl⟩⟩

theorem load_ini_line_current (st st1 : ini_state) (line : List Char)
    (hstep : load_ini_line st line = some st1) :
    st1.current_section =
      (match header_name line with
       | some name => some name
       | none => st.current_section) := by
  obtain ⟨hheader, hother⟩ := load_ini_line_shape st line
  cases hname : header_name line with
  | some name =>
    have h := hheader name hname
    rw [hstep] at h
    cases hnew : new_section st.sections name with
    | none => rw [hnew] at h; simp at h
    | some sections1 =>
      rw [hnew] at h
      simp only [Option.map_some', Option.some.injEq] at h
      rw [h]
  | none =>
    obtain ⟨sections1, h, _⟩ := hother hname
    rw [hstep] at h
    simp only [Option.some.injEq] at h
    rw [h]

theorem cut_comment_eq_none_iff (value : CStr) :
    cut_comment value = none ↔ quote_left_open value = true := by
  unfold cut_comment quote_left_open strchr
  by_cases hq : dquote ∈ value
  · by_cases hq2 : dquote ∈ (value.dropWhile (fun x => x != dquote)).drop 1
    · simp only [hq, if_true, hq2, decide_True, Bool.not_true, Bool.and_false,
        Bool.false_eq_true, iff_false]
      cases strpbrk (List.dropWhile (fun x => x != dquote)
        (List.drop 1 (List.dropWhile (fun x => x != dquote) value))) ['#', ';'] <;> simp
    · simp only [hq, hq2, if_true, if_false, decide_True, decide_False, Bool.not_false,
        Bool.and_self]
  · simp only [hq, if_false, decide_False, Bool.false_and, Bool.false_eq_true, iff_false]
    cases strpbrk value ['#', ';'] <;> simp

theorem load_ini_line_rejected (st : ini_state) (line : List Char)
    (hdrop : (is_blank_or_comment line || rejects st.current_section line) = true) :
    load_ini_line st line = some st := by
  obtain ⟨sections, cur⟩ := st
  unfold is_blank_or_comment rejects at hdrop
  unfold load_ini_line
  cases hstrip : g_strstrip (c_str line) with
  | nil => rfl
  | cons c rest =>
    rw [hstrip] at hdrop
    by_cases hcomment : c = ';' ∨ c = '#'
    · simp [hcomment]
    · by_cases hc : c = '['
      · have hclose : ']' ∉ rest := by
          simpa [hcomment, hc] using hdrop
        simp [hcomment, hc, strchr, hclose]
      · by_cases heq : '=' ∈ rest
        · simp only [hcomment, decide_False, hc, if_false, heq, if_true, Bool.false_or,
            Bool.or_eq_true, Option.isNone_iff_eq_none] at hdrop
          simp only [hcomment, hc, if_false, strchr, heq, if_true]
          rcases hdrop with h | h
          · rw [(cut_comment_eq_none_iff _).2 h]
          · cases cut_comment (g_strstrip
              ((rest.dropWhile (fun x => x != '=')).drop 1)) with
            | none => rfl
            | some value1 => simp only [h]
        · simp [hcomment, hc, strchr, heq]

theorem load_ini_lines_surviving (lines : List (List Char)) (st : ini_state) :
    load_ini_lines st (surviving_lines st.current_section lines) = load_ini_lines st lines := by
  induction lines generalizing st with
  | nil => rfl
  | cons line rest ih =>
    by_cases hdrop : (is_blank_or_comment line || rejects st.current_section line) = true
    · simp only [surviving_lines, hdrop, if_true, load_ini_lines,
        load_ini_line_rejected st line hdrop]
      exact ih st
    · simp only [surviving_lines, hdrop, if_false, load_ini_lines, Bool.false_eq_true]
      cases hstep : load_ini_line st line with
      | none => rfl
      | some st1 =>
        simp only
        rw [← load_ini_line_current st st1 line hstep]
        exact ih st1

theorem read_lines_from_no_newline (a cur : List Char) (ha : '\n' ∉ a) (hne : cur ++ a ≠ []) :
    read_lines_from a cur = [cur ++ a] := by
  induction a generalizing cur with
  | nil =>
    cases cur with
    | nil => simp at hne
    | cons c cs => simp [read_lines_from]
  | cons c cs ih =>
    simp only [List.mem_cons, not_or] at ha
    have hc : ¬ c = '\n' := fun e => ha.1 e.symm
    rw [read_lines_from, if_neg hc, ih (cur ++ [c]) ha.2 (by simp)]
    simp

theorem well_split_read_lines_from (text cur : List Char) (hcur : '\n' ∉ cur) :
    well_split (read_lines_from text cur) := by
  induction text generalizing cur with
  | nil =>
    cases cur with
    | nil => simp [read_lines_from, well_split]
    | cons c cs =>
      show well_split [c :: cs]
      exact ⟨Or.inr ⟨rfl, by simp, hcur⟩, trivial⟩
  | cons c cs ih =>
    by_cases hc : c = '\n'
    · rw [read_lines_from, if_pos hc]
      exact ⟨Or.inl ⟨cur, by rw [hc], hcur⟩, ih [] (by simp)⟩
    · rw [read_lines_from, if_neg hc]
      apply ih
      intro hmem
      rcases List.mem_append.1 hmem with h | h
      · exact hcur h
      · exact hc (List.mem_singleton.1 h).symm

theorem read_lines_flatten (ls : List (List Char)) (hls : well_split ls) :
    read_lines ls.flatten = ls := by
  induction ls with
  | nil => rfl
  | cons l rest ih =>
    obtain ⟨hl, hrest⟩ := hls
    rcases hl with ⟨body, hbody, hnl⟩ | ⟨hlast, hne, hnl⟩
    · have h := read_lines_from_append body rest.flatten [] hnl
      have ih2 := ih hrest
      unfold read_lines at ih2 ⊢
      rw [List.flatten_cons, hbody, List.append_assoc, List.singleton_append, h, ih2]
      simp
    · subst hlast
      unfold read_lines
      rw [List.flatten_cons, List.flatten_nil, List.append_nil,
        read_lines_from_no_newline l [] hnl (by simpa using hne)]
      simp

theorem well_split_surviving (ls : List (List Char)) (current : Option CStr)
    (hls : well_split ls) : well_split (surviving_lines current ls) := by
  induction ls generalizing current with
  | nil => exact hls
  | cons l rest ih =>
    obtain ⟨hl, hrest⟩ := hls
    by_cases hdrop : (is_blank_or_comment l || rejects current l) = true
    · simp only [surviving_lines, hdrop, if_true]
      exact ih current hrest
    · simp only [surviving_lines, hdrop, if_false, Bool.false_eq_true]
      refine ⟨?_, ih _ hrest⟩
      rcases hl with h | ⟨hlast, hne, hnl⟩
      · exact Or.inl h
      · subst hlast
        exact Or.inr ⟨rfl, hne, hnl⟩

/-- C17: a line that `load_ini_file` rejects (a header without `]`, a
line without `=` after its first character, a value that leaves a quote
open, a key/value line while no section is current), like a blank line or
a comment, leaves the store and the current section as they were, and the
loop goes on with the next line. So for every text and every starting
store, loading the text gives the same result, store included, as loading
the text with every rejected, blank and comment line deleted. -/
theorem rejected_lines_change_nothing (text : List Char) (sections : Store)
    (st : ini_state) (line : List Char) (rest : List (List Char)) :
    ((is_blank_or_comment line || rejects st.current_section line) = true →
      load_ini_line st line = some st ∧
      load_ini_lines st (line :: rest) = load_ini_lines st rest) ∧
    load_ini_file (some (surviving_lines none (read_lines text)).flatten) sections
      = load_ini_file (some text) sections ∧
    read_lines (surviving_lines none (read_lines text)).flatten
      = surviving_lines none (read_lines text) ∧
    load_ini_file
        (some ("junk\n[s]\n# note\n\nk = 1\n[t\nq = ".toList ++ [dquote] ++ "x\nz = 2".toList)) []
      = load_ini_file (some "[s]\nk = 1\nz = 2".toList) [] := by
  have hsplit : well_split (surviving_lines none (read_lines text)) :=
    well_split_surviving _ none (well_split_read_lines_from text [] (by simp))
  have hlines := read_lines_flatten _ hsplit
  refine ⟨?_, ?_, hlines, by decide⟩
  · intro hdrop
    have h := load_ini_line_rejected st line hdrop
    exact ⟨h, by simp only [load_ini_lines, h]⟩
  · simp only [load_ini_file, hlines]
    have h := load_ini_lines_surviving (read_lines text)
      { sections := sections, current_section := none }
    simp only at h
    rw [h]

/-- C17, at the rejected line `oops` read while the section `s` is
current. -/
theorem rejected_lines_change_nothing_witness :
    (is_blank_or_comment "oops\n".toList || rejects (some "s".toList) "oops\n".toList) = true ∧
    load_ini_line ⟨[⟨"s".toList, []⟩], some "s".toList⟩ "oops\n".toList
      = some ⟨[⟨"s".toList, []⟩], some "s".toList⟩ :=
  ⟨by decide,
   ((rejected_lines_change_nothing [] [] ⟨[⟨"s".toList, []⟩], some "s".toList⟩
      "oops\n".toList []).1 (by decide)).1⟩

/-! ## Unique section names (C19) -/

theorem names_insert_entry_of_not_mem (sections : Store) (sect : CStr) (e : entry)
    (hmem : sect ∉ sections.map (fun s => s.name)) :
    (insert_entry sections sect e).map (fun s => s.name)
      = sections.map (fun s => s.name) ++ [sect] := by
  induction sections with
  | nil => simp [insert_entry]
  | cons s rest ih =>
    simp only [List.map_cons, List.mem_cons, not_or] at hmem
    have h : ¬ s.name = sect := fun h => hmem.1 h.symm
    simp [insert_entry, h, ih hmem.2]

theorem nodup_names_insert_entry (sections : Store) (sect : CStr) (e : entry)
    (hnodup : (sections.map (fun s => s.name)).Nodup) :
    ((insert_entry sections sect e).map (fun s => s.name)).Nodup := by
  by_cases hmem : sect ∈ sections.map (fun s => s.name)
  · rw [names_insert_entry_of_mem sections sect e hmem]
    exact hnodup
  · rw [names_insert_entry_of_not_mem sections sect e hmem, List.nodup_append]
    refine ⟨hnodup, by simp, ?_⟩
    intro x hx hx2
    simp only [List.mem_singleton] at hx2
    exact hmem (hx2 ▸ hx)

theorem nodup_names_new_section (sections sections1 : Store) (name : CStr)
    (hnew : new_section sections name = some sections1)
    (hnodup : (sections.map (fun s => s.name)).Nodup) :
    (sections1.map (fun s => s.name)).Nodup := by
  rw [new_section_eq] at hnew
  by_cases hmem : name ∈ sections.map (fun s => s.name)
  · simp [hmem] at hnew
  · simp only [hmem, if_false, Option.some.injEq] at hnew
    subst hnew
    simp only [List.map_append, List.map_cons, List.map_nil]
    rw [List.nodup_append]
    refine ⟨hnodup, by simp, ?_⟩
    intro x hx hx2
    simp only [List.mem_singleton] at hx2
    exact hmem (hx2 ▸ hx)

theorem nodup_names_load_ini_lines (lines : List (List Char)) (st st1 : ini_state)
    (hrun : load_ini_lines st lines = some st1)
    (hnodup : (st.sections.map (fun s => s.name)).Nodup) :
    (st1.sections.map (fun s => s.name)).Nodup := by
  induction lines generalizing st with
  | nil =>
    simp only [load_ini_lines, Option.some.injEq] at hrun
    exact hrun ▸ hnodup
  | cons line rest ih =>
    cases hstep : load_ini_line st line with
    | none => simp [load_ini_lines, hstep] at hrun
    | some st2 =>
      simp only [load_ini_lines, hstep] at hrun
      apply ih st2 hrun
      obtain ⟨hheader, hother⟩ := load_ini_line_shape st line
      cases hname : header_name line with
      | some name =>
        have h := hheader name hname
        rw [hstep] at h
        cases hnew : new_section st.sections name with
        | none => rw [hnew] at h; simp at h
        | some sections1 =>
          rw [hnew] at h
          simp only [Option.map_some', Option.some.injEq] at h
          rw [h]
          exact nodup_names_new_section st.sections sections1 name hnew hnodup
      | none =>
        obtain ⟨sections1, h, hcases⟩ := hother hname
        rw [hstep] at h
        simp only [Option.some.injEq] at h
        rw [h]
        rcases hcases with h2 | ⟨current, e, _, h2⟩
        · rw [h2]
          exact hnodup
        · rw [h2]
          exact nodup_names_insert_entry st.sections current e hnodup

theorem nodup_names_run_op (sections sections1 : Store) (op : store_op)
    (hrun : run_op sections op = some sections1)
    (hnodup : (sections.map (fun s => s.name)).Nodup) :
    (sections1.map (fun s => s.name)).Nodup := by
  cases op with
  | new_section name => exact nodup_names_new_section sections sections1 name hrun hnodup
  | add_entry section_name key value =>
    simp only [run_op, add_entry_eq_insert_entry, Option.some.injEq] at hrun
    rw [← hrun]
    exact nodup_names_insert_entry _ _ _ hnodup
  | load_ini_file fp =>
    cases fp with
    | none =>
      simp only [run_op, load_ini_file, Option.map_some', Option.some.injEq] at hrun
      exact hrun ▸ hnodup
    | some text =>
      simp only [run_op, load_ini_file] at hrun
      cases hlines : load_ini_lines { sections := sections, current_section := none }
          (read_lines text) with
      | none => rw [hlines] at hrun; simp at hrun
      | some st1 =>
        rw [hlines] at hrun
        simp only [Option.map_some', Option.some.injEq] at hrun
        rw [← hrun]
        exact nodup_names_load_ini_lines _ _ st1 hlines hnodup
  | free_ini =>
    simp only [run_op, free_ini, Option.some.injEq] at hrun
    rw [← hrun]
    simp

theorem nodup_names_run_ops (ops : List store_op) (sections sections1 : Store)
    (hrun : run_ops sections ops = some sections1)
    (hnodup : (sections.map (fun s => s.name)).Nodup) :
    (sections1.map (fun s => s.name)).Nodup := by
  induction ops generalizing sections with
  | nil =>
    simp only [run_ops, Option.some.injEq] at hrun
    exact hrun ▸ hnodup
  | cons op rest ih =>
    cases hop : run_op sections op with
    | none => simp [run_ops, hop] at hrun
    | some sections2 =>
      simp only [run_ops, hop] at hrun
      exact ih sections2 hrun (nodup_names_run_op sections sections2 op hop hnodup)

theorem get_section_eq_some_mem (sections : Store) (name : CStr) (i : Nat)
    (hget : get_section sections name = some i) : name ∈ sections.map (fun s => s.name) := by
  by_contra hmem
  have hnone : get_section sections name = none := by
    rw [get_section_eq_none]
    intro s hs hname
    exact hmem (List.mem_map.2 ⟨s, hs, hname⟩)
  rw [hnone] at hget
  exact absurd hget (by simp)

theorem insert_entry_of_absent (sections : Store) (sect : CStr) (e : entry)
    (habsent : ∀ s ∈ sections, s.name ≠ sect) :
    insert_entry sections sect e = sections ++ [{ name := sect, entries := [e] }] := by
  induction sections with
  | nil => rfl
  | cons s rest ih =>
    have h : ¬ s.name = sect := habsent s (List.mem_cons_self _ _)
    simp [insert_entry, h, ih (fun x hx => habsent x (List.mem_cons_of_mem _ hx))]

/-- C19: in every store reached from the empty store by a sequence of
`new_section`, `add_entry`, `load_ini_file` and `free_ini` operations none
of which is fatal, no two sections have the same name. In such a store
`add_entry` is never fatal and keeps the names distinct; when
`get_section` finds no section with the name it appends one new section
holding just the entry, and when `get_section` finds one it appends the
entry to that section's entries and leaves the number and the names of
the sections as they were. -/
theorem section_names_stay_unique (ops : List store_op) (sections : Store)
    (hrun : run_ops [] ops = some sections) :
    (sections.map (fun s => s.name)).Nodup ∧
    (∀ name key value : CStr, get_section sections name = none →
      add_entry sections name key value =
        some (sections ++ [{ name := name, entries := [⟨key, string_strip_quotes value⟩] }])) ∧
    (∀ (name key value : CStr) (i : Nat), get_section sections name = some i →
      ∃ sections1 : Store, add_entry sections name key value = some sections1 ∧
        sections1.length = sections.length ∧
        sections1.map (fun s => s.name) = sections.map (fun s => s.name) ∧
        entries_of sections1 name =
          entries_of sections name ++ [⟨key, string_strip_quotes value⟩]) ∧
    (∀ name key value : CStr, ∃ sections1 : Store,
      add_entry sections name key value = some sections1 ∧
        (sections1.map (fun s => s.name)).Nodup) := by
  have hnodup : (sections.map (fun s => s.name)).Nodup :=
    nodup_names_run_ops ops [] sections hrun (by simp)
  refine ⟨hnodup, ?_, ?_, ?_⟩
  · intro name key value hget
    rw [add_entry_eq_insert_entry,
      insert_entry_of_absent _ _ _ ((get_section_eq_none sections name).1 hget)]
  · intro name key value i hget
    have hmem := get_section_eq_some_mem sections name i hget
    have hnames := names_insert_entry_of_mem sections name
      ⟨key, string_strip_quotes value⟩ hmem
    refine ⟨_, add_entry_eq_insert_entry sections name key value, ?_, hnames,
      entries_of_insert_entry_same _ _ _⟩
    have hlen := congrArg List.length hnames
    simpa using hlen
  · intro name key value
    exact ⟨_, add_entry_eq_insert_entry sections name key value,
      nodup_names_insert_entry _ _ _ hnodup⟩

/-- C19, at the store reached by loading `[x]`, `[y]`, `k = 1`, adding an
entry under the new name `z` and declaring the section `w`. -/
theorem section_names_stay_unique_witness :
    run_ops []
        [store_op.load_ini_file (some "[x]\n[y]\nk = 1\n".toList),
          store_op.add_entry "z".toList "k".toList "v".toList,
          store_op.new_section "w".toList]
      = some [⟨"x".toList, []⟩, ⟨"y".toList, [⟨"k".toList, "1".toList⟩]⟩,
          ⟨"z".toList, [⟨"k".toList, "v".toList⟩]⟩, ⟨"w".toList, []⟩] ∧
    (([⟨"x".toList, []⟩, ⟨"y".toList, [⟨"k".toList, "1".toList⟩]⟩,
        ⟨"z".toList, [⟨"k".toList, "v".toList⟩]⟩, ⟨"w".toList, []⟩] : Store).map
      (fun s => s.name)).Nodup :=
  ⟨by decide,
   (section_names_stay_unique
      [store_op.load_ini_file (some "[x]\n[y]\nk = 1\n".toList),
        store_op.add_entry "z".toList "k".toList "v".toList,
        store_op.new_section "w".toList] _ (by decide)).1⟩

/-! ## Presence of an option with its argument (C23) -/

/-- C23: `cmdline_is_set` is true if and only if `cmdline_find_option`
returns an index `i` from 0 on with `i + 1` below the number of
arguments: the option is found and another argument follows it. So for
the vector `prog --verbose` the boolean getter returns true while
`cmdline_is_set` returns false, and for the vector `--foo x`, where the
option stands at index 0, `cmdline_is_set` returns true while the boolean
getter returns its default. -/
theorem cmdline_is_set_iff (argv : List CStr) (key : CStr) (usage_str : Option CStr)
    (description : CStr) (d : Int) :
    (cmdline_is_set argv key = true ↔
      0 ≤ cmdline_find_option argv (some key) ∧
        cmdline_find_option argv (some key) + 1 < (argv.length : Int)) ∧
    (cmdline_get_bool ["prog".toList, "--verbose".toList] usage_str "--verbose".toList d
        description).1 = 1 ∧
    cmdline_is_set ["prog".toList, "--verbose".toList] "--verbose".toList = false ∧
    cmdline_is_set ["--foo".toList, "x".toList] "--foo".toList = true ∧
    (cmdline_get_bool ["--foo".toList, "x".toList] usage_str "--foo".toList d
        description).1 = d := by
  refine ⟨?_, ?_, by decide, by decide, ?_⟩
  · unfold cmdline_is_set cmdline_get_value
    by_cases h1 : cmdline_find_option argv (some key) < 0
    · simp only [h1, if_true, Option.isSome_none, Bool.false_eq_true, false_iff]
      omega
    · by_cases h2 : cmdline_find_option argv (some key) + 1 ≥ (argv.length : Int)
      · simp only [h1, if_false, h2, if_true, Option.isSome_none, Bool.false_eq_true,
          false_iff]
        omega
      · have hlt : (cmdline_find_option argv (some key) + 1).toNat < argv.length := by omega
        simp only [h1, if_false, h2, List.getElem?_eq_getElem hlt, Option.isSome_some,
          true_iff]
        omega
  · have h : cmdline_find_option ["prog".toList, "--verbose".toList]
        (some "--verbose".toList) = 1 := by decide
    simp only [cmdline_get_bool, h]
    rfl
  · have h : cmdline_find_option ["--foo".toList, "x".toList] (some "--foo".toList) = 0 := by
      decide
    simp only [cmdline_get_bool, h]
    rfl

/-! ## The separator colour (C21) -/

/-- C21: `string_parse_sepcolor` behaves in three ways. When `s` equals a
string of the vocabulary (an entry before the terminator) it succeeds and
sets the type to the value of the first such entry, the custom colour
string staying as it was. When `s` equals none and is not empty it
succeeds, sets the type to `SEP_CUSTOM` and stores `s` as the custom
colour. When `s` equals none and is empty it fails and leaves the type
and the custom colour as they were. -/
theorem string_parse_sepcolor_three_ways (SEP_CUSTOM : Int) (table : List string_to_enum_def)
    (s : CStr) (prior : separator_color_data) :
    (∀ e, (table_entries table).find? (fun e => decide (e.string = some s)) = some e →
      string_parse_sepcolor SEP_CUSTOM table s prior =
        (true, { type := e.enum_value, sep_color := prior.sep_color })) ∧
    ((∀ e ∈ table_entries table, e.string ≠ some s) → s ≠ [] →
      string_parse_sepcolor SEP_CUSTOM table s prior =
        (true, { type := SEP_CUSTOM, sep_color := some s })) ∧
    ((∀ e ∈ table_entries table, e.string ≠ some s) → s = [] →
      string_parse_sepcolor SEP_CUSTOM table s prior = (false, prior)) := by
  refine ⟨?_, ?_, ?_⟩
  · intro e he
    have h : string_parse_enum table s 0 = (true, e.enum_value) := by
      rw [string_parse_enum_eq_find, he]
    simp [string_parse_sepcolor, h]
  · intro hall hne
    have hnone : (table_entries table).find? (fun e => decide (e.string = some s)) = none := by
      simp only [List.find?_eq_none, decide_eq_true_eq]
      exact hall
    have h : string_parse_enum table s 0 = (false, 0) := by
      rw [string_parse_enum_eq_find, hnone]
    cases s with
    | nil => exact absurd rfl hne
    | cons c cs => simp [string_parse_sepcolor, h, STR_FULL]
  · intro hall hempty
    have hnone : (table_entries table).find? (fun e => decide (e.string = some s)) = none := by
      simp only [List.find?_eq_none, decide_eq_true_eq]
      exact hall
    have h : string_parse_enum table s 0 = (false, 0) := by
      rw [string_parse_enum_eq_find, hnone]
    subst hempty
    simp [string_parse_sepcolor, h, STR_FULL]

/-- C21, with the vocabulary `auto`, `foreground`, `frame`, a prior value
of type 0 with the colour `#111111`, and 3 for `SEP_CUSTOM`: `frame`
sets the type 2 and keeps the colour, `#ff0000` becomes the custom colour,
and the empty string fails. -/
theorem string_parse_sepcolor_three_ways_witness :
    string_parse_sepcolor 3
        [⟨some "auto".toList, 0⟩, ⟨some "foreground".toList, 1⟩, ⟨some "frame".toList, 2⟩,
          ⟨none, 0⟩]
        "frame".toList ⟨0, some "#111111".toList⟩
      = (true, ⟨2, some "#111111".toList⟩) ∧
    string_parse_sepcolor 3
        [⟨some "auto".toList, 0⟩, ⟨some "foreground".toList, 1⟩, ⟨some "frame".toList, 2⟩,
          ⟨none, 0⟩]
        "#ff0000".toList ⟨0, some "#111111".toList⟩
      = (true, ⟨3, some "#ff0000".toList⟩) ∧
    string_parse_sepcolor 3
        [⟨some "auto".toList, 0⟩, ⟨some "foreground".toList, 1⟩, ⟨some "frame".toList, 2⟩,
          ⟨none, 0⟩]
        [] ⟨0, some "#111111".toList⟩
      = (false, ⟨0, some "#111111".toList⟩) :=
  ⟨(string_parse_sepcolor_three_ways 3 _ "frame".toList ⟨0, some "#111111".toList⟩).1
      ⟨some "frame".toList, 2⟩ (by decide),
   (string_parse_sepcolor_three_ways 3 _ "#ff0000".toList ⟨0, some "#111111".toList⟩).2.1
      (by decide) (by decide),
   (string_parse_sepcolor_three_ways 3 _ [] ⟨0, some "#111111".toList⟩).2.2
      (by decide) rfl⟩

/-! ## Duplicate keys in the settings table (C22) -/

theorem last_int_or_append {G : Type} (l1 l2 : List entry) (c : cell G) :
    last_int_or (l1 ++ l2) c = last_int_or l2 (last_int_or l1 c) := by
  cases h : l2.getLast? with
  | none =>
    have hnil : l2 = [] := List.getLast?_eq_none_iff.1 h
    subst hnil
    simp [last_int_or]
  | some e =>
    have hne : l2 ≠ [] := by
      intro hnil
      subst hnil
      simp at h
    unfold last_int_or
    rw [List.getLast?_append_of_ne_nil _ hne, h]

theorem last_int_or_cons {G : Type} (e : entry) (l : List entry) (c : cell G) :
    last_int_or (e :: l) c = last_int_or l (.int (atoi e.value)) := by
  have h := last_int_or_append [e] l c
  simpa [last_int_or] using h

theorem find?_eq_head?_filter {α : Type} (p : α → Bool) (l : List α) :
    l.find? p = (l.filter p).head? := by
  induction l with
  | nil => rfl
  | cons x rest ih =>
    by_cases hx : p x = true
    · rw [List.find?_cons_of_pos _ hx, List.filter_cons_of_pos hx]
      rfl
    · rw [List.find?_cons_of_neg _ hx, List.filter_cons_of_neg hx]
      exact ih

theorem flatMap_nodup_index {α β : Type} (f : α → List β) (l : List α) (i j : Nat)
    (x y : α) (a : β) (hnd : (l.flatMap f).Nodup) (hi : l[i]? = some x)
    (hj : l[j]? = some y) (hne : i ≠ j) (hax : a ∈ f x) : a ∉ f y := by
  induction l generalizing i j with
  | nil => simp at hi
  | cons h t ih =>
    rw [List.flatMap_cons, List.nodup_append] at hnd
    obtain ⟨_, hnt, hdisj⟩ := hnd
    cases i with
    | zero =>
      cases j with
      | zero => exact absurd rfl hne
      | succ j =>
        simp only [List.getElem?_cons_zero, Option.some.injEq] at hi
        simp only [List.getElem?_cons_succ] at hj
        subst hi
        intro hay
        exact hdisj hax (List.mem_flatMap.2 ⟨y, List.getElem?_mem hj, hay⟩)
    | succ i =>
      cases j with
      | zero =>
        simp only [List.getElem?_cons_zero, Option.some.injEq] at hj
        simp only [List.getElem?_cons_succ] at hi
        subst hj
        intro hay
        exact hdisj hay (List.mem_flatMap.2 ⟨x, List.getElem?_mem hi, hax⟩)
      | succ j =>
        simp only [List.getElem?_cons_succ] at hi hj
        exact ih i j hnt hi hj (by omega)

theorem value_mem_setting_destinations {G : Type} (row : setting G) :
    row.value ∈ setting_destinations row := by
  unfold setting_destinations
  split <;> simp

theorem get_setting_id_of_first {G : Type} (rows : List (setting G)) (i : Nat) (r : setting G)
    (hrow : rows[i]? = some r)
    (hfirst : ∀ j r2, j < i → rows[j]? = some r2 → ¬ (r2.name = r.name ∧ r2.sect = r.sect)) :
    get_setting_id rows r.name r.sect = (i : Int) := by
  obtain ⟨j, hres, ⟨r2, hr2, hm⟩, hleast⟩ :=
    get_setting_id_from_exact rows 0 r.name r.sect 0 ⟨r, List.getElem?_mem hrow, rfl, rfl⟩
  have hji : j = i := by
    rcases Nat.lt_trichotomy j i with h | h | h
    · exact absurd hm (hfirst j r2 h hr2)
    · exact h
    · exact absurd ⟨rfl, rfl⟩ (hleast i h r hrow)
  unfold get_setting_id
  rw [hres, hji]
  simp

theorem get_setting_id_resolved {G : Type} (rows : List (setting G)) (key sect : CStr)
    (hid : 0 ≤ get_setting_id rows key sect) :
    ∃ j : Nat, get_setting_id rows key sect = (j : Int) ∧
      ∃ r2, rows[j]? = some r2 ∧ r2.name = key ∧ r2.sect = sect := by
  by_cases hex : ∃ r ∈ rows, r.name = key ∧ r.sect = sect
  · obtain ⟨j, hres, hr2, _⟩ := get_setting_id_from_exact rows 0 key sect 0 hex
    refine ⟨j, ?_, hr2⟩
    unfold get_setting_id
    rw [hres]
    simp
  · have hno : ∀ r ∈ rows, ¬ (r.name = key ∧ r.sect = sect) :=
      fun r hr hb => hex ⟨r, hr, hb⟩
    have h := get_setting_id_from_no_exact rows 0 key sect 0 hno
    unfold get_setting_id at hid
    by_cases hname : ∃ r ∈ rows, r.name = key
    · rw [h.1 (Or.inr hname)] at hid
      omega
    · have hall : ∀ r ∈ rows, r.name ≠ key := fun r hr hk => hname ⟨r, hr, hk⟩
      rw [h.2 ⟨by decide, hall⟩] at hid
      omega

theorem save_entry_at_destination {G : Type} (env : externals G) (rows : List (setting G))
    (i : Nat) (r : setting G) (hdistinct : (rows.flatMap setting_destinations).Nodup)
    (hrow : rows[i]? = some r) (hint : r.type = setting_type.TYPE_INT)
    (hfirst : ∀ j r2, j < i → rows[j]? = some r2 → ¬ (r2.name = r.name ∧ r2.sect = r.sect))
    (s : Section) (m : Memory G) (e : entry) :
    save_entry env rows s m e r.value =
      if e.key = r.name ∧ s.name = r.sect then cell.int (atoi e.value) else m r.value := by
  by_cases hit : e.key = r.name ∧ s.name = r.sect
  · rw [if_pos hit]
    have hid := get_setting_id_of_first rows i r hrow hfirst
    have hneg : ¬ ((i : Int) < 0) := by omega
    simp only [save_entry, hit.1, hit.2, hid, hneg, if_false, Int.toNat_ofNat, hrow]
    simp only [set_setting, hint]
    exact store_cell_same _ _ _
  · rw [if_neg hit]
    by_cases hneg : get_setting_id rows e.key s.name < 0
    · rw [save_entry_unresolved env rows s m e hneg]
    · obtain ⟨j, hj, r2, hr2, hname, hsect⟩ :=
        get_setting_id_resolved rows e.key s.name (by omega)
      have hji : i ≠ j := by
        intro h
        subst h
        rw [hrow] at hr2
        cases hr2
        exact hit ⟨hname.symm, hsect.symm⟩
      have hmiss : r.value ∉ setting_destinations r2 :=
        flatMap_nodup_index setting_destinations rows i j r r2 r.value hdistinct hrow hr2 hji
          (value_mem_setting_destinations r)
      have hnn : ¬ ((j : Int) < 0) := by omega
      simp only [save_entry, hj, hnn, if_false, Int.toNat_ofNat, hr2]
      exact set_setting_frame env r2 e.value m r.value hmiss

theorem save_entries_at_destination {G : Type} (env : externals G) (rows : List (setting G))
    (i : Nat) (r : setting G) (hdistinct : (rows.flatMap setting_destinations).Nodup)
    (hrow : rows[i]? = some r) (hint : r.type = setting_type.TYPE_INT)
    (hfirst : ∀ j r2, j < i → rows[j]? = some r2 → ¬ (r2.name = r.name ∧ r2.sect = r.sect))
    (s : Section) (entries : List entry) (m : Memory G) :
    entries.foldl (save_entry env rows s) m r.value =
      last_int_or (entries.filter (fun e => decide (e.key = r.name ∧ s.name = r.sect)))
        (m r.value) := by
  induction entries generalizing m with
  | nil => rfl
  | cons e rest ih =>
    rw [List.foldl_cons, ih, save_entry_at_destination env rows i r hdistinct hrow hint hfirst]
    by_cases hit : e.key = r.name ∧ s.name = r.sect
    · rw [List.filter_cons_of_pos (by simpa using hit), last_int_or_cons, if_pos hit]
    · rw [List.filter_cons_of_neg (by simpa using hit), if_neg hit]

theorem save_sections_at_destination {G : Type} (env : externals G) (rows : List (setting G))
    (special_sections : List CStr) (i : Nat) (r : setting G)
    (hdistinct : (rows.flatMap setting_destinations).Nodup)
    (hrow : rows[i]? = some r) (hint : r.type = setting_type.TYPE_INT)
    (hfirst : ∀ j r2, j < i → rows[j]? = some r2 → ¬ (r2.name = r.name ∧ r2.sect = r.sect))
    (hspecial : r.sect ∈ special_sections) (sections : Store) (m : Memory G) :
    sections.foldl
        (fun m curr_section =>
          if is_special_section special_sections curr_section then
            curr_section.entries.foldl (save_entry env rows curr_section) m
          else m)
        m r.value =
      last_int_or ((entries_in sections r.sect).filter (fun e => decide (e.key = r.name)))
        (m r.value) := by
  induction sections generalizing m with
  | nil => rfl
  | cons s rest ih =>
    rw [List.foldl_cons, ih]
    by_cases hs : s.name = r.sect
    · have hsp : is_special_section special_sections s = true :=
        (is_special_section_iff special_sections s).2 (hs ▸ hspecial)
      have hin : entries_in (s :: rest) r.sect = s.entries ++ entries_in rest r.sect := by
        unfold entries_in
        rw [List.filter_cons_of_pos (by simpa using hs), List.flatMap_cons]
      rw [hin, List.filter_append, last_int_or_append]
      simp only [hsp, if_true]
      rw [save_entries_at_destination env rows i r hdistinct hrow hint hfirst]
      simp only [hs, and_true]
    · have hin : entries_in (s :: rest) r.sect = entries_in rest r.sect := by
        unfold entries_in
        rw [List.filter_cons_of_neg (by simpa using hs)]
      rw [hin]
      congr 1
      by_cases hsp : is_special_section special_sections s = true
      · simp only [hsp, if_true]
        rw [save_entries_at_destination env rows i r hdistinct hrow hint hfirst]
        simp [hs, last_int_or]
      · simp only [hsp, Bool.false_eq_true, if_false]

theorem set_defaults_from_at_destination {G : Type} (env : externals G)
    (rows : List (setting G)) (i : Nat) (r : setting G)
    (hdistinct : (rows.flatMap setting_destinations).Nodup)
    (hrow : rows[i]? = some r) (hint : r.type = setting_type.TYPE_INT)
    (rest : List (setting G)) (k : Nat) (m : Memory G)
    (hrest : ∀ j row, rest[j]? = some row → rows[j + k]? = some row) :
    rest.foldl (fun m row => (set_setting env row row.default_value m).2) m r.value =
      if k ≤ i ∧ i < k + rest.length then cell.int (atoi r.default_value) else m r.value := by
  induction rest generalizing k m with
  | nil =>
    have hc : ¬ (k ≤ i ∧ i < k + ([] : List (setting G)).length) := by
      simp only [List.length_nil]
      omega
    rw [if_neg hc]
    rfl
  | cons row rest ih =>
    have hrow0 : rows[k]? = some row := by
      have h := hrest 0 row (by simp)
      simpa using h
    have hrest2 : ∀ j row2, rest[j]? = some row2 → rows[j + (k + 1)]? = some row2 := by
      intro j row2 hj
      have h := hrest (j + 1) row2 (by simpa using hj)
      have he : j + 1 + k = j + (k + 1) := by omega
      rw [← he]
      exact h
    rw [List.foldl_cons, ih (k + 1) _ hrest2]
    simp only [List.length_cons]
    by_cases hk : k = i
    · subst hk
      rw [hrow] at hrow0
      cases hrow0
      have hc1 : ¬ (k + 1 ≤ k ∧ k < k + 1 + rest.length) := by omega
      have hc2 : k ≤ k ∧ k < k + (rest.length + 1) := by omega
      rw [if_neg hc1, if_pos hc2]
      simp only [set_setting, hint]
      exact store_cell_same _ _ _
    · have hmiss : r.value ∉ setting_destinations row :=
        flatMap_nodup_index setting_destinations rows i k r row r.value hdistinct hrow hrow0
          (fun h => hk h.symm) (value_mem_setting_destinations r)
      rw [set_setting_frame env row row.default_value m r.value hmiss]
      by_cases hc : k ≤ i ∧ i < k + (rest.length + 1)
      · have hc1 : k + 1 ≤ i ∧ i < k + 1 + rest.length := by omega
        rw [if_pos hc, if_pos hc1]
      · have hc1 : ¬ (k + 1 ≤ i ∧ i < k + 1 + rest.length) := by omega
        rw [if_neg hc, if_neg hc1]

theorem set_defaults_at_destination {G : Type} (env : externals G)
    (rows : List (setting G)) (i : Nat) (r : setting G)
    (hdistinct : (rows.flatMap setting_destinations).Nodup)
    (hrow : rows[i]? = some r) (hint : r.type = setting_type.TYPE_INT) (m : Memory G) :
    set_defaults env rows m r.value = cell.int (atoi r.default_value) := by
  have h := set_defaults_from_at_destination env rows i r hdistinct hrow hint rows 0 m
    (fun j row hj => by simpa using hj)
  have hlt : i < rows.length := (List.getElem?_eq_some_iff.1 hrow).1
  have hc : 0 ≤ i ∧ i < 0 + rows.length := by omega
  rw [if_pos hc] at h
  exact h

theorem entries_in_eq_entries_of (sections : Store) (sect : CStr)
    (hnames : (sections.map (fun s => s.name)).Nodup) :
    entries_in sections sect = entries_of sections sect := by
  induction sections with
  | nil => rfl
  | cons s rest ih =>
    rw [List.map_cons, List.nodup_cons] at hnames
    by_cases hs : s.name = sect
    · have hnone : rest.filter (fun x => decide (x.name = sect)) = [] := by
        rw [List.filter_eq_nil_iff]
        intro x hx hd
        have hxn : x.name = sect := by simpa using hd
        exact hnames.1 (List.mem_map.2 ⟨x, hx, hxn.trans hs.symm⟩)
      unfold entries_in entries_of
      rw [List.filter_cons_of_pos (by simpa using hs), hnone]
      simp [hs]
    · have h := ih hnames.2
      unfold entries_in entries_of at h ⊢
      rw [List.filter_cons_of_neg (by simpa using hs), List.find?_cons_of_neg _ (by simpa using hs)]
      exact h

/-- C22: for a registry whose rows write pairwise distinct addresses, any
store and any Int row `r` that is the first row with its name and section
and whose section is special, the destination of `r` after `set_defaults`
followed by `save_settings` holds the integer conversion of the value of
the last entry with key `r.name` stored under `r.sect`, and the conversion
of `r.default_value` when there is no such entry; `ini_get_int` on the same
store converts the value of the first such entry of the first section with
that name; and when the section names of the store are distinct both read
the entries of the same section. So the settings table is last-wins where
the accessor is first-wins. -/
theorem settings_table_last_wins {G : Type} (env : externals G)
    (allowed_settings : List (setting G)) (special_sections : List CStr) (sections : Store)
    (mem : Memory G) (i : Nat) (r : setting G)
    (hdistinct : (allowed_settings.flatMap setting_destinations).Nodup)
    (hrow : allowed_settings[i]? = some r) (hint : r.type = setting_type.TYPE_INT)
    (hfirst : ∀ j r2, j < i → allowed_settings[j]? = some r2 →
      ¬ (r2.name = r.name ∧ r2.sect = r.sect))
    (hspecial : r.sect ∈ special_sections) :
    (save_settings env allowed_settings special_sections sections
        (set_defaults env allowed_settings mem)).2 r.value =
      (match ((entries_in sections r.sect).filter
          (fun e => decide (e.key = r.name))).getLast? with
        | some e => cell.int (atoi e.value)
        | none => cell.int (atoi r.default_value)) ∧
    (∀ def_ : Int, ini_get_int sections r.sect r.name def_ =
      (match ((entries_of sections r.sect).filter
          (fun e => decide (e.key = r.name))).head? with
        | some e => atoi e.value
        | none => def_)) ∧
    ((sections.map (fun s => s.name)).Nodup →
      entries_in sections r.sect = entries_of sections r.sect) := by
  refine ⟨?_, ?_, entries_in_eq_entries_of sections r.sect⟩
  · have h := save_sections_at_destination env allowed_settings special_sections i r
      hdistinct hrow hint hfirst hspecial sections (set_defaults env allowed_settings mem)
    rw [set_defaults_at_destination env allowed_settings i r hdistinct hrow hint mem] at h
    exact h
  · intro def_
    unfold ini_get_int
    rw [get_value_eq_lookup_first, lookup_first_eq_entries_of, find?_eq_head?_filter]
    cases ((entries_of sections r.sect).filter (fun e => decide (e.key = r.name))).head? <;> rfl

theorem settings_table_last_wins_witness :
    (save_settings sample_externals sample_settings ["global".toList] sample_store
        (set_defaults sample_externals sample_settings (fun _ => cell.int 0))).2 1
      = cell.int 2 ∧
    ini_get_int sample_store "global".toList "timeout".toList 0 = 1 ∧
    (save_settings sample_externals sample_settings ["global".toList] []
        (set_defaults sample_externals sample_settings (fun _ => cell.int 0))).2 1
      = cell.int 7 := by
  have hdistinct : (sample_settings.flatMap setting_destinations).Nodup := by decide
  have hfirst : ∀ j r2, j < 1 → sample_settings[j]? = some r2 →
      ¬ (r2.name = "timeout".toList ∧ r2.sect = "global".toList) := by
    intro j r2 hj hr2
    have hj0 : j = 0 := by omega
    subst hj0
    simp only [sample_settings, List.getElem?_cons_zero, Option.some.injEq] at hr2
    subst hr2
    decide
  have h1 := settings_table_last_wins sample_externals sample_settings ["global".toList]
    sample_store (fun _ => cell.int 0) 1
    ⟨"timeout".toList, "global".toList, .TYPE_INT, "7".toList, 1, none, .null⟩
    hdistinct rfl rfl hfirst (by decide)
  have h2 := settings_table_last_wins sample_externals sample_settings ["global".toList]
    [] (fun _ => cell.int 0) 1
    ⟨"timeout".toList, "global".toList, .TYPE_INT, "7".toList, 1, none, .null⟩
    hdistinct rfl rfl hfirst (by decide)
  exact ⟨h1.1.trans (by decide), (h1.2.1 0).trans (by decide), h2.1.trans (by decide)⟩

end OptionParser
